import Mathlib

/-!
# Verification of the mini-blockchain core against its specification

Shallow embedding of the Merkle-Patricia-Trie and EVM-interpreter core of
the `mini-blockchain` repository.  Rust sources are translated into Lean
definitions: byte vectors become `List Nat` (each element < 256), machine
integers become `Nat` with explicit wrap-around at the word size where the
source checks for overflow, fallible code returns `Except`/`Option`
(`Option.none` additionally models a Rust `panic!` or fuel exhaustion in
non-structural recursions).
-/

namespace MiniBlockchain

/-! ## Trie key encoding (`trie/src/encoding.rs`) -/

/-- `TERMINAL` marker nibble, `encoding.rs`. -/
def TERMINAL : Nat := 16

/-- `prefix_len`: length of the longest common prefix of two nibble slices
(`encoding.rs` lines 4-13). -/
def prefixLen : List Nat → List Nat → Nat
  | a :: as_, b :: bs => if a = b then prefixLen as_ bs + 1 else 0
  | _, _ => 0

/-- `key_bytes_to_hex` (`encoding.rs` lines 15-24): each key byte becomes two
nibbles (high then low); a trailing `TERMINAL` nibble is appended. -/
def keyBytesToHex (key : List Nat) : List Nat :=
  (key.flatMap fun b => [b / 16, b % 16]) ++ [TERMINAL]

/-- `has_term` (`encoding.rs` lines 78-80). -/
def hasTerm (hex : List Nat) : Bool :=
  match hex.getLast? with
  | some t => t == TERMINAL
  | none => false

/-- `decode_nibbles` (`encoding.rs` lines 70-76): pack nibbles `hex[lo..hi]`
two per byte (high nibble first) onto `bytes`.  The source indexes
`nibbles[ni]` / `nibbles[ni+1]` unconditionally; all call sites keep
`hi ≤ len` with `hi - lo` even, so `getD` never hits its default there. -/
def decodeNibbles (nibbles : List Nat) (lo hi : Nat) (bytes : List Nat) : List Nat :=
  if lo < hi then
    decodeNibbles nibbles (lo + 2) hi
      (bytes ++ [((nibbles.getD lo 0) <<< 4) ||| nibbles.getD (lo + 1) 0])
  else bytes
termination_by hi - lo

/-- `hex_to_compact` (`encoding.rs` lines 44-61). -/
def hexToCompact (hex : List Nat) : List Nat :=
  let terminator : Nat := if hasTerm hex then 1 else 0
  let hi := if hasTerm hex then hex.length - 1 else hex.length
  if hi &&& 1 = 1 then
    -- odd: the flag byte also carries the first nibble
    decodeNibbles hex 1 hi [(terminator <<< 5) ||| (1 <<< 4) ||| hex.getD 0 0]
  else
    decodeNibbles hex 0 hi [terminator <<< 5]

/-- Spec-side helper: pack a nibble list two per byte, high nibble first. -/
def packPairs : List Nat → List Nat
  | a :: b :: rest => (16 * a + b) :: packPairs rest
  | _ => []

theorem nib_lor (a b : Nat) (ha : a < 16) (hb : b < 16) :
    (a <<< 4) ||| b = 16 * a + b := by
  interval_cases a <;> interval_cases b <;> rfl

theorem decodeNibbles_eq (hex : List Nat) (hi : Nat) :
    ∀ n lo acc, hi - lo = n → (hi - lo) % 2 = 0 → hi ≤ hex.length →
      (∀ i, lo ≤ i → i < hi → hex.getD i 0 < 16) →
      decodeNibbles hex lo hi acc = acc ++ packPairs ((hex.drop lo).take (hi - lo)) := by
  intro n
  induction n using Nat.strong_induction_on with
  | _ n ih =>
    intro lo acc hn hpar hlen hnib
    rw [decodeNibbles]
    by_cases hlt : lo < hi
    · simp only [if_pos hlt]
      have h2 : 2 ≤ hi - lo := by omega
      have hlo : lo < hex.length := by omega
      have hlo1 : lo + 1 < hex.length := by omega
      have hd : hex.drop lo = hex.getD lo 0 :: hex.getD (lo + 1) 0 :: hex.drop (lo + 2) := by
        rw [List.drop_eq_getElem_cons hlo, List.drop_eq_getElem_cons hlo1,
          List.getD_eq_getElem hex 0 hlo, List.getD_eq_getElem hex 0 hlo1]
      have htk : (hex.drop lo).take (hi - lo) =
          hex.getD lo 0 :: hex.getD (lo + 1) 0 :: (hex.drop (lo + 2)).take (hi - (lo + 2)) := by
        rw [hd]
        have heq : hi - lo = (hi - (lo + 2)) + 1 + 1 := by omega
        rw [heq, List.take_succ_cons, List.take_succ_cons]
      rw [ih (hi - (lo + 2)) (by omega) (lo + 2) _ rfl (by omega) hlen
        (fun i h1 h2 => hnib i (by omega) h2)]
      rw [htk, packPairs, nib_lor _ _ (hnib lo (le_refl _) (by omega))
        (hnib (lo + 1) (by omega) (by omega))]
      simp
    · simp only [if_neg hlt]
      have h0 : hi - lo = 0 := by omega
      rw [h0]
      simp [packPairs]

/-- Value of the flag byte in the odd case, with nibble-sized inputs. -/
theorem flag_odd_eq (t h0 : Nat) (ht : t ≤ 1) (h : h0 < 16) :
    (t <<< 5) ||| (1 <<< 4) ||| h0 = 32 * t + 16 + h0 := by
  interval_cases t <;> interval_cases h0 <;> rfl

/-- C6 helper: the nibble body of a key, terminator excluded. -/
def nibbleBody (hex : List Nat) : List Nat :=
  if hasTerm hex then hex.dropLast else hex

theorem flag_and_32 (a b : Nat) (ha : a = 0 ∨ a = 32) (hb : b < 32) :
    ((a + b) &&& 32 = 32) ↔ a = 32 := by
  rcases ha with rfl | rfl
  · constructor
    · intro h; exfalso; revert h; interval_cases b <;> decide
    · intro h; exact absurd h (by decide)
  · constructor
    · intro _; rfl
    · intro _; interval_cases b <;> decide

theorem flag_and_16 (a b : Nat) (ha : a = 0 ∨ a = 32) (hb : b = 0 ∨ (16 ≤ b ∧ b < 32)) :
    ((a + b) &&& 16 = 16) ↔ 16 ≤ b := by
  rcases ha with rfl | rfl <;> rcases hb with rfl | ⟨h1, h2⟩
  · decide
  · constructor
    · intro _; exact h1
    · intro _; interval_cases b <;> decide
  · decide
  · constructor
    · intro _; exact h1
    · intro _; interval_cases b <;> decide

/-- C6 (main equation): `hex_to_compact` of a nibble array equals the flag
byte followed by the remaining nibbles packed two per byte. -/
theorem hexToCompact_eq (hex : List Nat)
    (hint : ∀ x ∈ hex.dropLast, x < 16)
    (hlast : ∀ t, hex.getLast? = some t → t ≤ 16) :
    hexToCompact hex =
      ((if hasTerm hex then 32 else 0)
        + (if (nibbleBody hex).length % 2 = 1 then 16 + (nibbleBody hex).headD 0 else 0))
      :: packPairs (if (nibbleBody hex).length % 2 = 1
          then (nibbleBody hex).tail else nibbleBody hex) := by
  have hbodylen : (nibbleBody hex).length = if hasTerm hex then hex.length - 1 else hex.length := by
    unfold nibbleBody
    by_cases h : hasTerm hex <;> simp [h]
  have hne : hasTerm hex = true → hex ≠ [] := by
    intro h hnil; rw [hnil] at h; simp [hasTerm] at h
  -- every index strictly below the body length holds a proper nibble
  have hnib : ∀ i, i < (nibbleBody hex).length → hex.getD i 0 < 16 := by
    intro i hilt
    have hil : i < hex.length := by
      rw [hbodylen] at hilt
      split at hilt <;> omega
    rw [List.getD_eq_getElem _ _ hil]
    rw [hbodylen] at hilt
    by_cases hterm : hasTerm hex
    · rw [if_pos hterm] at hilt
      have hi' : i < hex.dropLast.length := by simp; omega
      have he : hex.dropLast[i] = hex[i] := List.getElem_dropLast hex i hi'
      rw [← he]
      exact hint _ (List.getElem_mem hi')
    · rw [if_neg hterm] at hilt
      rcases Nat.lt_or_ge i (hex.length - 1) with hc | hc
      · have hi' : i < hex.dropLast.length := by simp; omega
        have he : hex.dropLast[i] = hex[i] := List.getElem_dropLast hex i hi'
        rw [← he]
        exact hint _ (List.getElem_mem hi')
      · -- i is the last index and the array has no terminator
        have hieq : i = hex.length - 1 := by omega
        have hlast' : hex.getLast? = some (hex[i]) := by
          subst hieq
          rw [List.getLast?_eq_getElem?, List.getElem?_eq_getElem hil]
        have h16 := hlast _ hlast'
        by_cases h : hex[i] = 16
        · exfalso
          rw [h] at hlast'
          simp [hasTerm, hlast', TERMINAL] at hterm
        · omega
  unfold hexToCompact
  set t : Nat := if hasTerm hex then 1 else 0 with hT
  set hi : Nat := if hasTerm hex then hex.length - 1 else hex.length with hHi
  have hhieq : hi = (nibbleBody hex).length := by rw [hbodylen]
  have hhile : hi ≤ hex.length := by rw [hHi]; split <;> omega
  have handone : hi &&& 1 = hi % 2 := Nat.and_one_is_mod hi
  have htake : hex.take hi = nibbleBody hex := by
    unfold nibbleBody
    by_cases h : hasTerm hex
    · simp only [if_pos h]; rw [hHi, if_pos h, ← List.dropLast_eq_take]
    · simp only [if_neg h]; rw [hHi, if_neg h]; exact List.take_of_length_le (le_refl _)
  by_cases hodd : hi % 2 = 1
  · simp only [handone]
    rw [if_pos hodd]
    have h0 : 0 < hi := by omega
    have hhead : hex.getD 0 0 < 16 := hnib 0 (by omega)
    have ht1 : t ≤ 1 := by rw [hT]; split <;> omega
    rw [decodeNibbles_eq hex hi (hi - 1) 1 _ rfl (by omega) hhile
      (fun i h1 h2 => hnib i (by omega))]
    rw [flag_odd_eq t _ ht1 hhead]
    have harg : (hex.drop 1).take (hi - 1) = (nibbleBody hex).tail := by
      rw [← htake, ← List.drop_one, List.drop_take]
    have hheadD : (nibbleBody hex).headD 0 = hex.getD 0 0 := by
      rw [← htake]
      cases hex with
      | nil => simp at hhile; omega
      | cons a l =>
        have h1 : hi = (hi - 1) + 1 := by omega
        rw [h1, List.take_succ_cons]
        simp [List.getD]
    rw [harg, hheadD, ← hhieq]
    rw [if_pos hodd, if_pos hodd]
    have h32 : 32 * t = if hasTerm hex then 32 else 0 := by rw [hT]; split <;> simp
    rw [← h32, List.singleton_append, List.cons.injEq]
    exact ⟨by omega, rfl⟩
  · simp only [handone]
    rw [if_neg hodd]
    rw [decodeNibbles_eq hex hi hi 0 _ rfl (by omega) hhile
      (fun i h1 h2 => hnib i (by omega))]
    simp only [List.drop_zero, Nat.sub_zero]
    rw [htake, ← hhieq, if_neg hodd, if_neg hodd]
    have hsh : t <<< 5 = if hasTerm hex then 32 else 0 := by rw [hT]; split <;> rfl
    rw [hsh, List.singleton_append, Nat.add_zero]

theorem nibbleBody_mem_lt (hex : List Nat)
    (hint : ∀ x ∈ hex.dropLast, x < 16)
    (hlast : ∀ t, hex.getLast? = some t → t ≤ 16) :
    ∀ x ∈ nibbleBody hex, x < 16 := by
  intro x hx
  unfold nibbleBody at hx
  by_cases hterm : hasTerm hex
  · rw [if_pos hterm] at hx
    exact hint _ hx
  · rw [if_neg hterm] at hx
    rcases List.mem_iff_getElem.1 hx with ⟨i, hil, rfl⟩
    rcases Nat.lt_or_ge i (hex.length - 1) with hc | hc
    · have hi' : i < hex.dropLast.length := by simp; omega
      have he : hex.dropLast[i] = hex[i] := List.getElem_dropLast hex i hi'
      rw [← he]
      exact hint _ (List.getElem_mem hi')
    · have hieq : i = hex.length - 1 := by omega
      have hlast' : hex.getLast? = some (hex[i]) := by
        subst hieq
        rw [List.getLast?_eq_getElem?, List.getElem?_eq_getElem hil]
      have h16 := hlast _ hlast'
      by_cases h : hex[i] = 16
      · exfalso
        rw [h] at hlast'
        simp [hasTerm, hlast', TERMINAL] at hterm
      · omega

theorem nibbleBody_headD_lt (hex : List Nat)
    (hint : ∀ x ∈ hex.dropLast, x < 16)
    (hlast : ∀ t, hex.getLast? = some t → t ≤ 16) :
    (nibbleBody hex).headD 0 < 16 := by
  cases hb : nibbleBody hex with
  | nil => simp
  | cons a l =>
    have : a ∈ nibbleBody hex := by rw [hb]; exact List.mem_cons_self a l
    simpa using nibbleBody_mem_lt hex hint hlast a this

/-- C6: `hex_to_compact` maps every nibble array to its hex-prefix compact
form.  The flag byte has bit `0x20` set iff the array ends with the
terminator nibble 16 and bit `0x10` set iff the nibble count excluding the
terminator is odd (in which case the first nibble is packed into the flag
byte's low four bits); the remaining nibbles are packed two per byte, high
nibble first; the empty array encodes to `[0x00]` and the lone-terminator
array `[16]` to `[0x20]`. -/
theorem C6_hexToCompact_spec (hex : List Nat)
    (hint : ∀ x ∈ hex.dropLast, x < 16)
    (hlast : ∀ t, hex.getLast? = some t → t ≤ 16) :
    (hexToCompact hex =
      ((if hasTerm hex then 32 else 0)
        + (if (nibbleBody hex).length % 2 = 1 then 16 + (nibbleBody hex).headD 0 else 0))
      :: packPairs (if (nibbleBody hex).length % 2 = 1
          then (nibbleBody hex).tail else nibbleBody hex))
    ∧ ((hexToCompact hex).headD 0 &&& 32 = 32 ↔ hasTerm hex = true)
    ∧ ((hexToCompact hex).headD 0 &&& 16 = 16 ↔ (nibbleBody hex).length % 2 = 1)
    ∧ hexToCompact [] = [0]
    ∧ hexToCompact [TERMINAL] = [32] := by
  have hmain := hexToCompact_eq hex hint hlast
  have hheadlt := nibbleBody_headD_lt hex hint hlast
  have hflag : (hexToCompact hex).headD 0 =
      (if hasTerm hex then 32 else 0)
      + (if (nibbleBody hex).length % 2 = 1 then 16 + (nibbleBody hex).headD 0 else 0) := by
    rw [hmain]; rfl
  have hA : (if hasTerm hex then (32 : Nat) else 0) = 0 ∨
      (if hasTerm hex then (32 : Nat) else 0) = 32 := by split <;> simp
  have hBlt : (if (nibbleBody hex).length % 2 = 1
      then 16 + (nibbleBody hex).headD 0 else 0) < 32 := by split <;> omega
  have hB : (if (nibbleBody hex).length % 2 = 1
        then 16 + (nibbleBody hex).headD 0 else 0) = 0 ∨
      (16 ≤ (if (nibbleBody hex).length % 2 = 1
        then 16 + (nibbleBody hex).headD 0 else 0) ∧
       (if (nibbleBody hex).length % 2 = 1
        then 16 + (nibbleBody hex).headD 0 else 0) < 32) := by split <;> omega
  refine ⟨hmain, ?_, ?_, ?_, ?_⟩
  · rw [hflag, flag_and_32 _ _ hA hBlt]
    constructor
    · intro h
      by_contra hc
      rw [if_neg hc] at h
      omega
    · intro h; rw [if_pos h]
  · rw [hflag, flag_and_16 _ _ hA hB]
    constructor
    · intro h
      by_contra hc
      rw [if_neg hc] at h
      omega
    · intro h; rw [if_pos h]; omega
  · rw [hexToCompact]
    norm_num [hasTerm]
    rw [decodeNibbles]
    norm_num
  · rw [hexToCompact]
    norm_num [hasTerm, TERMINAL]
    rw [decodeNibbles]
    norm_num
    rfl

/-- Witness for C6 at the concrete nibble array `[1, 2, 16]`. -/
theorem C6_hexToCompact_spec_witness :
    (hexToCompact [1, 2, 16] =
      ((if hasTerm [1, 2, 16] then 32 else 0)
        + (if (nibbleBody [1, 2, 16]).length % 2 = 1
            then 16 + (nibbleBody [1, 2, 16]).headD 0 else 0))
      :: packPairs (if (nibbleBody [1, 2, 16]).length % 2 = 1
          then (nibbleBody [1, 2, 16]).tail else nibbleBody [1, 2, 16]))
    ∧ ((hexToCompact [1, 2, 16]).headD 0 &&& 32 = 32 ↔ hasTerm [1, 2, 16] = true)
    ∧ ((hexToCompact [1, 2, 16]).headD 0 &&& 16 = 16
        ↔ (nibbleBody [1, 2, 16]).length % 2 = 1)
    ∧ hexToCompact [] = [0]
    ∧ hexToCompact [TERMINAL] = [32] :=
  C6_hexToCompact_spec [1, 2, 16] (by decide) (by decide)

/-! ## RLP encoder (`rlp/src/rlp.rs`)

The crate enables `#![feature(exclusive_range_pattern)]`, so the match
patterns `0..55` and `1..55` cover lengths up to and including 54 only. -/

/-- `STR_OFFSET` (`rlp.rs` line 3). -/
def STR_OFFSET : Nat := 0x80

/-- `LIST_OFFSET` (`rlp.rs` line 4). -/
def LIST_OFFSET : Nat := 0xc0

/-- `to_binary` (`rlp.rs` lines 156-162): big-endian bytes of `x`, with no
leading zero bytes, appended to `data`. -/
def toBinary (x : Nat) (data : List Nat) : List Nat :=
  if x = 0 then data
  else toBinary (x / 256) data ++ [x % 256]
decreasing_by exact Nat.div_lt_self (Nat.pos_of_ne_zero (by assumption)) (by omega)

/-- `encode_length` (`rlp.rs` lines 164-175).  The pattern `0..55` is an
exclusive range: only lengths `0..=54` take the single-byte header. -/
def encodeLength (len : Nat) (offset : Nat) : List Nat :=
  if len < 55 then [len + offset]
  else
    let data := toBinary len []
    (data.length + offset + 55) :: data

/-- `RLPStream` (`rlp.rs` lines 8-13).  `appendingList` keeps the most
recently opened list first (the source pushes to / pops from the end of a
`Vec` and always addresses its last element). -/
structure RLPStream where
  data : List Nat
  appendingList : List (Nat × Nat)
deriving Repr, DecidableEq

/-- `RLPStream::new` (`rlp.rs` lines 16-18). -/
def RLPStream.new : RLPStream := ⟨[], []⟩

/-- `Vec::rotate_right` on a whole slice. -/
def rotateRight (l : List Nat) (n : Nat) : List Nat :=
  l.drop (l.length - n) ++ l.take (l.length - n)

/-- `RLPStream::finish_list` (`rlp.rs` lines 34-40): splice the list header
in front of the payload that starts at `pos`. -/
def RLPStream.finishList (s : RLPStream) (pos : Nat) : RLPStream :=
  let dataLen := s.data.length - pos
  let encVec := encodeLength dataLen LIST_OFFSET
  { s with data := s.data.take pos ++ rotateRight (s.data.drop pos ++ encVec) encVec.length }

/-- `RLPStream::list_appended` (`rlp.rs` lines 44-62).  `none` models the
`panic!("items cannot be more than size")` branch. -/
def RLPStream.listAppended (s : RLPStream) (items : Nat) : Option RLPStream :=
  match h : s.appendingList with
  | [] => some s
  | (pos, pendingSize) :: rest =>
    if items > pendingSize then none
    else
      let pendingSize' := pendingSize - items
      if pendingSize' = 0 then
        RLPStream.listAppended (RLPStream.finishList ⟨s.data, rest⟩ pos) 1
      else some ⟨s.data, (pos, pendingSize') :: rest⟩
termination_by s.appendingList.length
decreasing_by simp [RLPStream.finishList, h]

/-- `RLPStream::begin_list` (`rlp.rs` lines 65-74). -/
def RLPStream.beginList (s : RLPStream) (len : Nat) : Option RLPStream :=
  match len with
  | 0 => RLPStream.listAppended { s with data := s.data ++ [LIST_OFFSET] } 1
  | _ => some { s with appendingList := (s.data.length, len) :: s.appendingList }

/-- `RLPStream::write_iter` (`rlp.rs` lines 112-141) on a byte-string
iterator of known exact size.  `1..55` is an exclusive range pattern. -/
def RLPStream.writeIter (s : RLPStream) (bytes : List Nat) : RLPStream :=
  let len := bytes.length
  if len = 0 then { s with data := s.data ++ [STR_OFFSET] }
  else if len < 55 then
    let first := bytes.headD 0
    if len = 1 ∧ first < STR_OFFSET then { s with data := s.data ++ [first] }
    else { s with data := s.data ++ [len + STR_OFFSET] ++ bytes }
  else
    let d := toBinary len []
    { s with data := s.data ++ [d.length + STR_OFFSET + 55] ++ d ++ bytes }

/-- `RLPStream::append` for a byte string (`rlp.rs` lines 83-89; the
`Encodable` impl for `Vec<u8>` in `impls.rs` calls `write_iter`). -/
def RLPStream.appendBytes (s : RLPStream) (bytes : List Nat) : Option RLPStream :=
  let s' := RLPStream.writeIter s bytes
  if s'.appendingList.isEmpty then some s' else RLPStream.listAppended s' 1

/-- `RLPStream::append_empty` (`rlp.rs` lines 99-103). -/
def RLPStream.appendEmpty (s : RLPStream) : Option RLPStream :=
  RLPStream.listAppended { s with data := s.data ++ [STR_OFFSET] } 1

/-- `RLPStream::append_raw` (`rlp.rs` lines 105-109). -/
def RLPStream.appendRaw (s : RLPStream) (raw : List Nat) : Option RLPStream :=
  RLPStream.listAppended { s with data := s.data ++ raw } 1

/-- `RLPStream::new_list` (`rlp.rs` lines 20-24). -/
def RLPStream.newList (len : Nat) : Option RLPStream :=
  RLPStream.beginList RLPStream.new len

/-- C7 (boundary evaluation): at the boundary length L = 55 the encoder
emits the long form, not the short form the claim requires.  A 55-byte
string is emitted with prefix bytes `0xB8, 55` instead of the single short
prefix `0x80 + 55 = 0xB7`, and a list payload of length 55 gets the header
bytes `0xF8, 55` instead of `0xC0 + 55 = 0xF7`. -/
theorem C7_rlp_length_55_long_form :
    (RLPStream.new.writeIter (List.replicate 55 97)).data
        = 0xB8 :: 55 :: List.replicate 55 97
    ∧ encodeLength 55 LIST_OFFSET = [0xF8, 55]
    ∧ (0xB8 :: 55 :: List.replicate 55 97
        ≠ (0x80 + 55) :: List.replicate (55 : Nat) 97)
    ∧ [0xF8, 55] ≠ [0xC0 + 55] := by
  have htb : toBinary 55 [] = [55] := by
    rw [toBinary]
    norm_num
    rw [toBinary]
    norm_num
  refine ⟨?_, ?_, by simp, by simp⟩
  · rw [RLPStream.writeIter]
    simp [RLPStream.new, STR_OFFSET, htb]
  · rw [encodeLength]
    norm_num [htb, LIST_OFFSET]

/-! ## EVM gas metering (`ethvm/src/gas.rs`, `ethvm/src/cost.rs`,
`ethvm/src/types/schedule.rs`, `ethvm/src/error.rs`)

The cost type instantiated by the interpreter is `usize` (64-bit); machine
values are `Nat` with explicit wrap-around / overflow flags at `2^64` where
the source checks for overflow. -/

/-- 2^64, the `usize` overflow bound. -/
def USIZE_LIMIT : Nat := 2 ^ 64

/-- 2^128, the `U128` overflow bound used by `overflow_mul_shr`. -/
def U128_LIMIT : Nat := 2 ^ 128

/-- `Error` (`ethvm/src/error.rs`). -/
inductive EvmError where
  | outOfGas
  | invalidCommand
  | invalidJump
deriving Repr, DecidableEq

/-- `Schedule` (`ethvm/src/types/schedule.rs` lines 3-17). -/
structure Schedule where
  subGasCapDivisor : Option Nat
  memoryGas : Nat
  quadCoeffDiv : Nat
  tierStepGas : List Nat
  eip1283 : Bool
  sstoreRefundGas : Nat
deriving Repr, DecidableEq

/-- `Schedule::new` (`schedule.rs` lines 20-29). -/
def Schedule.new : Schedule :=
  { tierStepGas := [0, 2, 3, 5, 8, 10, 20, 0]
    memoryGas := 3
    quadCoeffDiv := 512
    subGasCapDivisor := none
    eip1283 := false
    sstoreRefundGas := 15000 }

/-- `usize::overflowing_add`, i.e. `CostType::overflow_add` for `usize`
(`cost.rs` lines 57-59). -/
def overflowAdd (a b : Nat) : Nat × Bool :=
  ((a + b) % USIZE_LIMIT, decide (USIZE_LIMIT ≤ a + b))

/-- `usize::overflowing_mul`, i.e. `CostType::overflow_mul` for `usize`
(`cost.rs` lines 61-63). -/
def overflowMul (a b : Nat) : Nat × Bool :=
  ((a * b) % USIZE_LIMIT, decide (USIZE_LIMIT ≤ a * b))

/-- `CostType::overflow_mul_shr` for `usize` (`cost.rs` lines 65-73):
`(a*b) >> shr` computed through `U128`; the overflow flag is set when the
128-bit product overflows or exceeds 64 bits. -/
def overflowMulShr (a b shr : Nat) : Nat × Bool :=
  let c := (a * b) % U128_LIMIT
  let overflow := decide (U128_LIMIT ≤ a * b) || decide (USIZE_LIMIT ≤ c)
  let result := (c >>> shr) % USIZE_LIMIT
  (result, overflow)

/-- `CostType::from_u256` for `usize` (`cost.rs` lines 42-51): the `U256`
argument is a value below `2^256`; values not fitting `usize` give
`OutOfGas`. -/
def costFromU256 (val : Nat) : Except EvmError Nat :=
  let res := val % USIZE_LIMIT
  if res ≠ val then .error .outOfGas else .ok res

/-- `GasMeter` (`gas.rs` lines 60-64). -/
structure GasMeter where
  gasLimit : Nat
  currentGas : Nat
  currentMemGas : Nat
deriving Repr, DecidableEq

/-- `GasMeter::new` (`gas.rs` lines 67-73). -/
def GasMeter.new (gasLimit : Nat) : GasMeter :=
  { gasLimit := gasLimit, currentGas := 0, currentMemGas := 0 }

/-- `GasMeter::verify_gas` (`gas.rs` lines 75-80). -/
def GasMeter.verifyGas (m : GasMeter) (gasCost : Nat) : Except EvmError Unit :=
  match decide (m.currentGas < gasCost) with
  | true => .error .outOfGas
  | false => .ok ()

/-- `GasMeter::total_gas` (`gas.rs` lines 160-162). -/
def GasMeter.totalGas (m : GasMeter) : Nat :=
  m.currentMemGas + m.currentGas

/-- The `_` fallback arm of `GasMeter::gas_call_or_create`
(`gas.rs` lines 109-117). -/
def gasCallOrCreateFallback (m : GasMeter) (needed : Nat)
    (requested : Option (Except EvmError Nat)) : Except EvmError Nat :=
  match requested with
  | some r => r
  | none =>
    if m.currentGas ≥ needed then .ok (m.currentGas - needed)
    else .ok 0

/-- `GasMeter::gas_call_or_create` (`gas.rs` lines 84-119).  The first arm
requires both `sub_gas_cap_divisor = Some _` and `current_gas >= needed`
(a match-arm guard); everything else takes the fallback arm. -/
def GasMeter.gasCallOrCreate (m : GasMeter) (schedule : Schedule) (needed : Nat)
    (requested : Option Nat) : Except EvmError Nat :=
  let requestedG := requested.map costFromU256
  match schedule.subGasCapDivisor with
  | some capDivisor =>
    if m.currentGas ≥ needed then
      let gasRemaining := m.currentGas - needed
      let maxGasProvided :=
        if capDivisor = 64 then gasRemaining - (gasRemaining >>> 6)
        else gasRemaining - gasRemaining / capDivisor
      match requestedG with
      | some (.ok r) => .ok (min r maxGasProvided)
      | _ => .ok maxGasProvided
    else gasCallOrCreateFallback m needed requestedG
  | none => gasCallOrCreateFallback m needed requestedG

/-- `add_gas_usize` (`gas.rs` lines 232-235). -/
def addGasUsize (value : Nat) (num : Nat) : Nat × Bool :=
  overflowAdd value num

/-- `to_word_size` (`gas.rs` lines 237-244). -/
def toWordSize (value : Nat) : Nat × Bool :=
  let p := addGasUsize value 31
  if p.2 then p else (p.1 >>> 5, false)

/-- The closure `gas_for_mem` inside `GasMeter::mem_gas_cost`
(`gas.rs` lines 132-145): `s·memory_gas + s²/512` for `s` 32-byte words,
with `OutOfGas` on arithmetic overflow.  `none` models the
`assert_eq!(schedule.quad_coeff_div, 512)` panic. -/
def gasForMem (schedule : Schedule) (memSize : Nat) : Option (Except EvmError Nat) :=
  let s := memSize >>> 5
  let a := overflowMul s schedule.memoryGas
  if a.2 then some (.error .outOfGas)
  else if schedule.quadCoeffDiv ≠ 512 then none
  else
    let b := overflowMulShr s s 9
    if b.2 then some (.error .outOfGas)
    else
      let r := overflowAdd a.1 b.1
      if r.2 then some (.error .outOfGas) else some (.ok r.1)

/-- `GasMeter::mem_gas_cost` (`gas.rs` lines 121-158); returns
`(mem_gas_cost, new_mem_gas, req_mem_size_rounded)`.  The subtraction
`new_mem_gas - current_mem_gas` is `usize` subtraction; `none` models its
debug-build underflow panic (unreachable when `current_mem_gas` is the gas
of the current memory size). -/
def GasMeter.memGasCost (m : GasMeter) (schedule : Schedule)
    (currentMemSize : Nat) (memSize : Nat) :
    Option (Except EvmError (Nat × Nat × Nat)) :=
  let t := toWordSize memSize
  if t.2 then some (.error .outOfGas)
  else
    let reqMemSizeRounded := (t.1 <<< 5) % USIZE_LIMIT
    if reqMemSizeRounded > currentMemSize then
      match gasForMem schedule reqMemSizeRounded with
      | none => none
      | some (.error e) => some (.error e)
      | some (.ok newMemGas) =>
        if newMemGas < m.currentMemGas then none
        else some (.ok (newMemGas - m.currentMemGas, newMemGas, reqMemSizeRounded))
    else some (.ok (0, m.currentMemGas, reqMemSizeRounded))

/-- C10: with `sub_gas_cap_divisor = None`, no requested gas and
`current_gas < needed`, `gas_call_or_create` returns `Ok(0)`: the
subtraction is guarded, so it neither underflows nor errors. -/
theorem C10_gas_call_or_create_total (m : GasMeter) (schedule : Schedule) (needed : Nat)
    (hsub : schedule.subGasCapDivisor = none)
    (hlt : m.currentGas < needed) :
    m.gasCallOrCreate schedule needed none = .ok 0 := by
  unfold GasMeter.gasCallOrCreate
  rw [hsub]
  unfold gasCallOrCreateFallback
  simp only [Option.map]
  rw [if_neg (by omega)]

/-- Witness for C10: the default schedule has no cap divisor; a fresh meter
with zero gas and `needed = 5` yields `Ok(0)`. -/
theorem C10_gas_call_or_create_total_witness :
    Schedule.new.subGasCapDivisor = none ∧ (GasMeter.new 7).currentGas < 5 ∧
      (GasMeter.new 7).gasCallOrCreate Schedule.new 5 none = .ok 0 :=
  ⟨rfl, by decide,
    C10_gas_call_or_create_total (GasMeter.new 7) Schedule.new 5 rfl (by decide)⟩

/-! ## EVM interpreter support: words, memory, stack, code reader -/

/-- 2^256, the `U256` wrap-around bound. -/
def U256_LIMIT : Nat := 2 ^ 256

/-- `U256::overflowing_add`, value component (wrap at 2^256). -/
def u256WrapAdd (a b : Nat) : Nat := (a + b) % U256_LIMIT

/-- `U256::overflowing_sub`, value component (two's-complement wrap). -/
def u256WrapSub (a b : Nat) : Nat := (a + U256_LIMIT - b) % U256_LIMIT

/-- `U256::as_usize` (panics when the value does not fit `usize`). -/
def u256AsUsize (v : Nat) : Option Nat :=
  if v < USIZE_LIMIT then some v else none

/-- `U256::low_u64` truncation used by the memory accessors. -/
def u256LowU64 (v : Nat) : Nat := v % USIZE_LIMIT

/-- Big-endian 32-byte serialization of a `U256` (`to_big_endian`). -/
def be32 (v : Nat) : List Nat :=
  (List.range 32).map fun i => (v >>> (8 * (31 - i))) % 256

/-- `U256::from(&[u8])`: big-endian interpretation of a byte slice
(shorter slices are zero-extended from the left). -/
def beBytes (l : List Nat) : Nat :=
  l.foldl (fun acc b => acc * 256 + b) 0

/-- `mem_add_size` (`gas.rs` lines 227-230): `checked_add` with a panic on
overflow. -/
def memAddSize (current toAdd : Nat) : Option Nat :=
  if current + toAdd < USIZE_LIMIT then some (current + toAdd) else none

/-- `usize::checked_mul(..).expect(..)` as used for the memory gas
components of `instruction_requirement`. -/
def checkedMulUsize (a b : Nat) : Option Nat :=
  if a * b < USIZE_LIMIT then some (a * b) else none

/-! ### Memory (`evm/src/interpreter/memory.rs`, `impl Memory for Vec<u8>`).
`ethvm/src/memory.rs` itself is not under `src/`; the sibling draft
`evm/src/interpreter/memory.rs` is, and §4.4.4 of the spec describes the
same operations.  `M::empty()` is modelled from the spec ("resizable byte
vector", fresh per call) as the empty vector. -/

/-- `is_valid_range` (`memory.rs` lines 29-34). -/
def isValidRange (offset size : Nat) : Bool :=
  decide (offset + size < USIZE_LIMIT) && decide (0 < size)

/-- `Memory::size` for `Vec<u8>`. -/
def memSize (m : List Nat) : Nat := m.length

/-- `Memory::resize` for `Vec<u8>`: `Vec::resize(new_size, 0)`. -/
def memResize (m : List Nat) (newSize : Nat) : List Nat :=
  if newSize ≤ m.length then m.take newSize
  else m ++ List.replicate (newSize - m.length) 0

/-- `Memory::write` for `Vec<u8>` (`memory.rs` lines 56-59): 32 big-endian
bytes at `offset`; `none` models the out-of-bounds slice panic. -/
def memWrite (m : List Nat) (offset value : Nat) : Option (List Nat) :=
  let off := u256LowU64 offset
  if off + 32 ≤ m.length then
    some (m.take off ++ be32 value ++ m.drop (off + 32))
  else none

/-- `Memory::read` for `Vec<u8>` (`memory.rs` lines 61-64). -/
def memRead (m : List Nat) (offset : Nat) : Option Nat :=
  let off := u256LowU64 offset
  if off + 32 ≤ m.length then some (beBytes ((m.drop off).take 32))
  else none

/-- `Memory::write_slice` for `Vec<u8>` (`memory.rs` lines 66-71). -/
def memWriteSlice (m : List Nat) (offset : Nat) (slice : List Nat) :
    Option (List Nat) :=
  if slice.isEmpty then some m
  else
    let off := u256LowU64 offset
    if off + slice.length ≤ m.length then
      some (m.take off ++ slice ++ m.drop (off + slice.length))
    else none

/-- `Memory::read_slice` for `Vec<u8>` (`memory.rs` lines 73-81). -/
def memReadSlice (m : List Nat) (offset size : Nat) : Option (List Nat) :=
  let off := u256LowU64 offset
  let sz := u256LowU64 size
  if isValidRange off sz then
    if off + sz ≤ m.length then some ((m.drop off).take sz) else none
  else some []

/-! ### Stack (`ethvm/src/stack.rs`).  The Rust `Vec` keeps the top of the
stack at its end; the embedding keeps the top at the head of the list, so
`peek(n)` reads index `n` and `push` conses. -/

/-- `VecStack::peek` (`stack.rs` lines 38-40); panics out of range. -/
def stackPeek (stack : List Nat) (noFromTop : Nat) : Option Nat :=
  stack.get? noFromTop

/-- `VecStack::pop` (`stack.rs` lines 52-54); panics when empty. -/
def stackPop (stack : List Nat) : Option (Nat × List Nat) :=
  match stack with
  | [] => none
  | a :: rest => some (a, rest)

/-- `VecStack::push` (`stack.rs` lines 64-66). -/
def stackPush (stack : List Nat) (elem : Nat) : List Nat :=
  elem :: stack

/-- `VecStack::swap_with_top` (`stack.rs` lines 42-46); panics when the
index is out of range. -/
def stackSwapWithTop (stack : List Nat) (noFromTop : Nat) : Option (List Nat) :=
  match stack.get? 0, stack.get? noFromTop with
  | some top, some other =>
    some ((stack.set 0 other).set noFromTop top)
  | _, _ => none

/-! ### Instructions.  `ethvm/src/instructions.rs` is declared by
`ethvm/src/lib.rs` but is not under `src/`; the instruction set is
modelled from the spec. -/

/-- Modelled from the spec: the instruction set of §4.4.7
(`ethvm/src/instructions.rs` is missing from the sources). -/
inductive Instruction where
  | push1 | push2 | pop | dup (n : Nat) | swap (n : Nat) | mstore | mload
  | callvalue | caller | codesize | codecopy | iszero | add | sub
  | jump | jumpi | jumpdest | sha3 | sstore | ret
deriving Repr, DecidableEq

/-- Modelled from the spec: `Instruction::from_u8` over §4.4.7's opcode
table with the canonical EVM byte values; any other byte decodes to
`none` (the callers' `.expect(..)` then panics). -/
def instructionFromU8 (b : Nat) : Option Instruction :=
  if b = 0x01 then some .add
  else if b = 0x03 then some .sub
  else if b = 0x15 then some .iszero
  else if b = 0x20 then some .sha3
  else if b = 0x33 then some .caller
  else if b = 0x34 then some .callvalue
  else if b = 0x38 then some .codesize
  else if b = 0x39 then some .codecopy
  else if b = 0x50 then some .pop
  else if b = 0x51 then some .mload
  else if b = 0x52 then some .mstore
  else if b = 0x55 then some .sstore
  else if b = 0x56 then some .jump
  else if b = 0x57 then some .jumpi
  else if b = 0x5b then some .jumpdest
  else if b = 0x60 then some .push1
  else if b = 0x61 then some .push2
  else if 0x80 ≤ b ∧ b ≤ 0x8f then some (.dup (b - 0x80 + 1))
  else if 0x90 ≤ b ∧ b ≤ 0x9f then some (.swap (b - 0x90 + 1))
  else if b = 0xf3 then some .ret
  else none

/-- Modelled from the spec: `instruction.info().tier.idx()` (§4.4.3: the
base cost of an instruction is `tier_step_gas[tier]`), with the standard
tier assignment the schedule's table `[0,2,3,5,8,10,20,0]` encodes
(Zero, Base, VeryLow, Low, Mid, High, Ext, Special). -/
def instructionTierIdx : Instruction → Nat
  | .ret => 0
  | .pop | .caller | .callvalue | .codesize => 1
  | .push1 | .push2 | .dup _ | .swap _ | .add | .sub | .iszero
  | .mload | .mstore | .codecopy => 2
  | .jump => 4
  | .jumpi => 5
  | .jumpdest | .sha3 | .sstore => 7

/-- `Instruction::data_bytes`: immediate width of a PUSH. -/
def instructionDataBytes : Instruction → Option Nat
  | .push1 => some 1
  | .push2 => some 2
  | _ => none

/-- `Instruction::dup_position`. -/
def instructionDupPosition : Instruction → Option Nat
  | .dup n => some (n - 1)
  | _ => none

/-- `Instruction::swap_position`. -/
def instructionSwapPosition : Instruction → Option Nat
  | .swap n => some n
  | _ => none

/-- `InstructionGasRequirement` (`gas.rs` lines 46-49). -/
inductive InstructionGasRequirement where
  | default (g : Nat)
  | mem (gas : Nat) (memGas : Nat) (memSize : Nat)
deriving Repr, DecidableEq

/-- `GasMeter::update` (`gas.rs` lines 164-175).  The `not_overflow!`
macro panics on overflow (`none`); it never produces `OutOfGas`. -/
def GasMeter.update (m : GasMeter) (r : InstructionGasRequirement) :
    Option (Except EvmError GasMeter) :=
  match r with
  | .default g =>
    let p := overflowAdd m.currentGas g
    if p.2 then none else some (.ok { m with currentGas := p.1 })
  | .mem gas memGas _ =>
    let p := overflowAdd m.currentGas gas
    if p.2 then none
    else
      let q := overflowAdd m.currentMemGas memGas
      if q.2 then none
      else some (.ok { m with currentGas := p.1, currentMemGas := q.1 })

/-- `GasMeter::instruction_requirement` (`gas.rs` lines 177-224).
`none` models the `expect`/`as_usize` panics on overflow or a short
stack.  `WORD_BYTES_SIZE = 32`. -/
def GasMeter.instructionRequirement (_m : GasMeter) (instruction : Instruction)
    (schedule : Schedule) (stack : List Nat) : Option InstructionGasRequirement :=
  let tier := instructionTierIdx instruction
  let defaultGas := schedule.tierStepGas.getD tier 0
  match instruction with
  | .mstore => do
    let p0 ← stackPeek stack 0
    let p0u ← u256AsUsize p0
    let memSize ← memAddSize p0u 32
    let memGas ← checkedMulUsize memSize schedule.memoryGas
    let gas := overflowAdd defaultGas memGas
    if gas.2 then none else some (.mem gas.1 memGas memSize)
  | .mload => do
    let memGas ← checkedMulUsize 32 schedule.memoryGas
    let gas := overflowAdd defaultGas memGas
    if gas.2 then none else some (.mem gas.1 memGas 0)
  | .codecopy => do
    let p0 ← stackPeek stack 0
    let p0u ← u256AsUsize p0
    let p2 ← stackPeek stack 2
    let p2u ← u256AsUsize p2
    let memSize ← memAddSize p0u p2u
    let memGas ← checkedMulUsize memSize schedule.memoryGas
    let gas := overflowAdd defaultGas memGas
    if gas.2 then none else some (.mem gas.1 memGas memSize)
  | _ => some (.default defaultGas)

/-! ### Interpreter (`ethvm/src/interpreter.rs`, `ethvm/src/cache.rs`) -/

/-- Modelled from the spec: `ActionValue` (§3.8; defined in the missing
`ethvm/src/types/ext.rs`). -/
inductive ActionValue where
  | transfer (v : Nat)
  | apparent (v : Nat)
deriving Repr, DecidableEq

/-- `ActionValue::value` (§3.8). -/
def ActionValue.value : ActionValue → Nat
  | .transfer v => v
  | .apparent v => v

/-- Modelled from the spec: `ActionParams` (§3.7/§6; in the missing part of
`ethvm/src/types/`).  Addresses and hashes are byte values as `Nat`. -/
structure ActionParams where
  codeAddress : Nat
  codeHash : Option Nat
  address : Nat
  sender : Nat
  origin : Nat
  gas : Nat
  gasPrice : Nat
  value : ActionValue
  data : Option (List Nat)
deriving Repr, DecidableEq

/-- `ActionParams::default`: all-zero parameters. -/
def ActionParams.default : ActionParams :=
  { codeAddress := 0, codeHash := none, address := 0, sender := 0, origin := 0
    gas := 0, gasPrice := 0, value := .transfer 0, data := none }

/-- `InterpreterParams` (`interpreter.rs` lines 51-94): `ActionParams`
without the code. -/
structure InterpreterParams where
  codeAddress : Nat
  codeHash : Option Nat
  address : Nat
  sender : Nat
  origin : Nat
  gas : Nat
  gasPrice : Nat
  value : ActionValue
  data : Option (List Nat)
deriving Repr, DecidableEq

/-- `From<ActionParams> for InterpreterParams` (`interpreter.rs` 78-94). -/
def InterpreterParams.fromActionParams (p : ActionParams) : InterpreterParams :=
  { codeAddress := p.codeAddress, codeHash := p.codeHash, address := p.address
    sender := p.sender, origin := p.origin, gas := p.gas
    gasPrice := p.gasPrice, value := p.value, data := p.data }

/-- Modelled from the spec: the external environment `Ext` (§4.4.6;
`ethvm/src/types/ext.rs` is missing from the sources).  Storage is a
32-byte-keyed map with default zero, plus refund and access-list
accumulators. -/
structure ExtState where
  schedule : Schedule
  storage : List (Nat × Nat)
  sstoreRefund : Nat
  accessListStorageKeys : List (Nat × Nat)
deriving Repr, DecidableEq

/-- Modelled from the spec: `Ext::storage_at` (§4.4.6). -/
def ExtState.storageAt (e : ExtState) (k : Nat) : Except EvmError Nat :=
  .ok ((e.storage.lookup k).getD 0)

/-- Modelled from the spec: `Ext::set_storage` (§4.4.6). -/
def ExtState.setStorage (e : ExtState) (k v : Nat) : Except EvmError ExtState :=
  .ok { e with storage := (k, v) :: e.storage }

/-- Modelled from the spec: `Ext::add_sstore_refund` (§4.4.6). -/
def ExtState.addSstoreRefund (e : ExtState) (g : Nat) : ExtState :=
  { e with sstoreRefund := e.sstoreRefund + g }

/-- Modelled from the spec: `Ext::al_insert_storage_key` (§4.4.6). -/
def ExtState.alInsertStorageKey (e : ExtState) (addr k : Nat) : ExtState :=
  { e with accessListStorageKeys := (addr, k) :: e.accessListStorageKeys }

/-- A fresh external environment over the default schedule. -/
def ExtState.new : ExtState :=
  { schedule := Schedule.new, storage := [], sstoreRefund := 0
    accessListStorageKeys := [] }

/-- `ReturnData` (`vm/src/return_data.rs` lines 7-11). -/
structure ReturnData where
  mem : List Nat
  offset : Nat
  size : Nat
deriving Repr, DecidableEq

/-- `GasLeft` (`vm/src/return_data.rs` lines 38-50). -/
inductive GasLeft where
  | known (gas : Nat)
  | needsReturn (gasLeft : Nat) (data : ReturnData) (applyState : Bool)
deriving Repr, DecidableEq

/-- `StepResult` (`interpreter.rs` lines 96-102). -/
inductive StepResult where
  | continue_
  | error (e : EvmError)
  | success
  | returned (memory : List Nat) (offset : Nat) (length : Nat)
  | reverted
deriving Repr, DecidableEq

/-- `CodeReader` (`interpreter.rs` lines 15-20). -/
structure CodeReader where
  code : List Nat
  position : Nat
deriving Repr, DecidableEq

/-- `CodeReader::instruction` (`interpreter.rs` lines 32-36); `none` models
the panic on an out-of-range read or an invalid opcode byte. -/
def CodeReader.instruction (r : CodeReader) : Option (Instruction × CodeReader) := do
  if r.position < r.code.length then
    let i ← instructionFromU8 (r.code.getD r.position 0)
    some (i, { r with position := r.position + 1 })
  else none

/-- `CodeReader::done` (`interpreter.rs` lines 38-40). -/
def CodeReader.done (r : CodeReader) : Bool :=
  decide (r.code.length ≤ r.position)

/-- `CodeReader::read_word` (`interpreter.rs` lines 42-47): reads up to
`bytes` immediate bytes big-endian, truncating at the end of the code. -/
def CodeReader.readWord (r : CodeReader) (bytes : Nat) : Nat × CodeReader :=
  let pos := r.position
  let newPos := r.position + bytes
  let e := min newPos r.code.length
  (beBytes ((r.code.drop pos).take (e - pos)), { r with position := newPos })

/-- `CodeReader::set_pc` (`interpreter.rs` lines 27-30); panics when the
program counter is not below the code length. -/
def CodeReader.setPc (r : CodeReader) (pc : Nat) : Option CodeReader :=
  if pc < r.code.length then some { r with position := pc } else none

/-- `JumpCache::find_jump_destination` (`cache.rs` lines 20-32): scan every
byte offset; panic (`none`) on an undecodable byte; collect the offsets
whose byte decodes to JUMPDEST. -/
def findJumpDestination (code : List Nat) : Option (List Nat) :=
  if code.all (fun b => (instructionFromU8 b).isSome) then
    some ((List.range code.length).filter
      (fun pos => instructionFromU8 (code.getD pos 0) == some .jumpdest))
  else none

/-- `JumpCache::valid_jump_dest` (`cache.rs` lines 16-18). -/
def validJumpDest (jumpLocation : List Nat) (dest : Nat) : Except EvmError Unit :=
  if dest ∈ jumpLocation then .ok () else .error .invalidJump

/-- `Interpreter` (`interpreter.rs` lines 104-111) over `Vec<u8>` memory
and `usize` gas. -/
structure Interpreter where
  reader : CodeReader
  stack : List Nat
  memory : List Nat
  gasMeter : GasMeter
  params : InterpreterParams
  jumpCache : Option (List Nat)
deriving Repr, DecidableEq

/-- `Interpreter::new` (`interpreter.rs` lines 128-139); `none` models the
`expect("cannot parse gas")` panic when the gas does not fit `usize`. -/
def Interpreter.new (code : List Nat) (actionParam : ActionParams) :
    Option Interpreter := do
  let gas ← match costFromU256 actionParam.gas with
    | .ok g => some g
    | .error _ => none
  some { reader := { code := code, position := 0 }
         stack := []
         memory := []
         gasMeter := GasMeter.new gas
         params := InterpreterParams.fromActionParams actionParam
         jumpCache := none }

/-- `Interpreter::validate_gas` (`interpreter.rs` lines 169-171): an
unconditional `Ok(())` — no comparison against the provided gas. -/
def Interpreter.validateGas (_i : Interpreter) : Except EvmError Unit :=
  .ok ()

/-- `Interpreter::validate_instruction` (`interpreter.rs` lines 173-175). -/
def Interpreter.validateInstruction (_i : Interpreter) (_instruction : Instruction) :
    Except EvmError Unit :=
  .ok ()

/-- `Interpreter::process_jump` (`interpreter.rs` lines 345-363). -/
def Interpreter.processJump (i : Interpreter) (cond : Bool) (dest : Nat) :
    Option (Except EvmError Interpreter) := do
  let i1 ←
    if i.jumpCache.isNone then do
      let jc ← findJumpDestination i.reader.code
      some { i with jumpCache := some jc }
    else some i
  if !cond then
    let r ← i1.reader.setPc (i1.reader.position + 1)
    some (.ok { i1 with reader := r })
  else
    match i1.jumpCache with
    | some cache =>
      match validJumpDest cache dest with
      | .error e => some (.error e)
      | .ok () => do
        let r ← i1.reader.setPc dest
        some (.ok { i1 with reader := r })
    | none => none

/-- The epilogue shared by the non-returning arms of `exec_instruction`
(`interpreter.rs` line 340-342): `Success` at the end of code, else
`Continue`. -/
def Interpreter.stepEnd (i : Interpreter) (ext : ExtState) :
    Option (Except EvmError (Interpreter × ExtState × StepResult)) :=
  if i.reader.done then some (.ok (i, ext, .success))
  else some (.ok (i, ext, .continue_))

/-- `Interpreter::exec_instruction` (`interpreter.rs` lines 177-343).
`keccak` abstracts the keccak-256 primitive used by SHA3; `none` models
panics (stack underflow, out-of-range memory or code slices, `as_usize`
overflow, and the `todo!()` in the EIP-1283 SSTORE branch). -/
def Interpreter.execInstruction (keccak : List Nat → List Nat) (i : Interpreter)
    (ext : ExtState) (instruction : Instruction) :
    Option (Except EvmError (Interpreter × ExtState × StepResult)) := do
  match instruction with
  | .push1 | .push2 => do
    let bytes ← instructionDataBytes instruction
    let wr := i.reader.readWord bytes
    let i := { i with reader := wr.2, stack := stackPush i.stack wr.1 }
    i.stepEnd ext
  | .mstore => do
    let p1 ← stackPop i.stack
    let p2 ← stackPop p1.2
    let m ← memWrite i.memory p1.1 p2.1
    let i := { i with stack := p2.2, memory := m }
    i.stepEnd ext
  | .callvalue => do
    let i := { i with stack := stackPush i.stack i.params.value.value }
    i.stepEnd ext
  | .dup _ => do
    let idx ← instructionDupPosition instruction
    let v ← stackPeek i.stack idx
    let i := { i with stack := stackPush i.stack v }
    i.stepEnd ext
  | .iszero => do
    let p ← stackPop i.stack
    let v := if p.1 = 0 then 1 else 0
    let i := { i with stack := stackPush p.2 v }
    i.stepEnd ext
  | .jumpi => do
    let p1 ← stackPop i.stack
    let dest ← u256AsUsize p1.1
    let p2 ← stackPop p1.2
    let cond := p2.1 ≠ 0
    let i := { i with stack := p2.2 }
    match ← i.processJump cond dest with
    | .error e => some (.error e)
    | .ok i' => i'.stepEnd ext
  | .jumpdest => i.stepEnd ext
  | .pop => do
    let p ← stackPop i.stack
    let i := { i with stack := p.2 }
    i.stepEnd ext
  | .mload => do
    let p ← stackPop i.stack
    let v ← memRead i.memory p.1
    let i := { i with stack := stackPush p.2 v }
    i.stepEnd ext
  | .codesize => do
    let i := { i with stack := stackPush i.stack i.reader.code.length }
    i.stepEnd ext
  | .sub => do
    let pa ← stackPop i.stack
    let pb ← stackPop pa.2
    let i := { i with stack := stackPush pb.2 (u256WrapSub pa.1 pb.1) }
    i.stepEnd ext
  | .codecopy => do
    let pd ← stackPop i.stack
    let po ← stackPop pd.2
    let offset ← u256AsUsize po.1
    let pl ← stackPop po.2
    let len ← u256AsUsize pl.1
    if USIZE_LIMIT ≤ offset + len then none   -- `offset + ..` overflow panic
    else do
      let e := offset + len
      -- the `println!` line slices `code[offset..end]` and panics out of range
      if i.reader.code.length < e then none
      else do
        let slice := (i.reader.code.drop offset).take (e - offset)
        let m ← memWriteSlice i.memory pd.1 slice
        let i := { i with stack := pl.2, memory := m }
        i.stepEnd ext
  | .swap _ => do
    let p ← instructionSwapPosition instruction
    let s ← stackSwapWithTop i.stack p
    let i := { i with stack := s }
    i.stepEnd ext
  | .add => do
    let pa ← stackPop i.stack
    let pb ← stackPop pa.2
    let i := { i with stack := stackPush pb.2 (u256WrapAdd pa.1 pb.1) }
    i.stepEnd ext
  | .sstore => do
    let pk ← stackPop i.stack
    let pv ← stackPop pk.2
    let i := { i with stack := pv.2 }
    match ext.storageAt pk.1 with
    | .error e => some (.error e)
    | .ok currentVal =>
      if ext.schedule.eip1283 then none   -- todo!("impl this")
      else do
        let ext := if currentVal ≠ 0 ∧ pv.1 = 0 then
            ext.addSstoreRefund ext.schedule.sstoreRefundGas
          else ext
        match ext.setStorage pk.1 pv.1 with
        | .error e => some (.error e)
        | .ok ext =>
          let ext := ext.alInsertStorageKey i.params.address pk.1
          i.stepEnd ext
  | .caller => do
    let i := { i with stack := stackPush i.stack i.params.sender }
    i.stepEnd ext
  | .sha3 => do
    let po ← stackPop i.stack
    let ps ← stackPop po.2
    let slice ← memReadSlice i.memory po.1 ps.1
    let k := keccak slice
    let i := { i with stack := stackPush ps.2 (beBytes k) }
    i.stepEnd ext
  | .ret => do
    let po ← stackPop i.stack
    let pl ← stackPop po.2
    let i := { i with stack := pl.2 }
    -- `core::mem::replace(&mut self.memory, Memory::empty())`
    let mem := i.memory
    let selfMemory : List Nat := []
    let slice ← memReadSlice selfMemory po.1 pl.1
    let mem ← memWriteSlice mem 0 slice
    let offU ← u256AsUsize po.1
    let lenU ← u256AsUsize pl.1
    some (.ok ({ i with memory := selfMemory }, ext, .returned mem offU lenU))
  | .jump =>
    -- no arm in the source: `_ => Ok(StepResult::Error(InvalidCommand))`
    some (.ok (i, ext, .error .invalidCommand))

/-- `Interpreter::step` (`interpreter.rs` lines 141-167). -/
def Interpreter.step (keccak : List Nat → List Nat) (i : Interpreter)
    (ext : ExtState) :
    Option (Except EvmError (Interpreter × ExtState × StepResult)) := do
  let ir ← i.reader.instruction
  let instruction := ir.1
  let i := { i with reader := ir.2 }
  match i.validateInstruction instruction with
  | .error e => some (.error e)
  | .ok () => do
    let requirement ← i.gasMeter.instructionRequirement instruction ext.schedule i.stack
    match ← i.gasMeter.update requirement with
    | .error e => some (.error e)
    | .ok meter =>
      let i := { i with gasMeter := meter }
      match i.validateGas with
      | .error e => some (.error e)
      | .ok () =>
        let i := match requirement with
          | .mem _ _ memSz => { i with memory := memResize i.memory (memSz + memSize i.memory) }
          | _ => i
        i.execInstruction keccak ext instruction

/-- `Interpreter::exec` (`interpreter.rs` lines 113-125), with explicit
fuel for the loop.  `none` models non-termination within the fuel bound or
a panic (including the `todo!` on `Reverted`). -/
def Interpreter.exec (keccak : List Nat → List Nat) :
    Nat → Interpreter → ExtState →
    Option (Except EvmError (GasLeft × Interpreter × ExtState))
  | 0, _, _ => none
  | fuel + 1, i, ext =>
    match i.step keccak ext with
    | none => none
    | some (.error e) => some (.error e)
    | some (.ok (i', ext', sr)) =>
      match sr with
      | .continue_ => Interpreter.exec keccak fuel i' ext'
      | .error e => some (.error e)
      | .success => some (.ok (.known 0, i', ext'))
      | .returned _ _ _ => some (.ok (.known 0, i', ext'))
      | .reverted => none

/-! ### Theorems about the interpreter -/

theorem gasMeter_update_monotone (m : GasMeter) (r : InstructionGasRequirement)
    (m' : GasMeter) (h : GasMeter.update m r = some (.ok m')) :
    m.totalGas ≤ m'.totalGas := by
  cases r with
  | default g =>
    unfold GasMeter.update overflowAdd at h
    by_cases hov : USIZE_LIMIT ≤ m.currentGas + g
    · simp [hov] at h
    · simp [hov] at h
      rw [← h]
      unfold GasMeter.totalGas
      simp only
      rw [Nat.mod_eq_of_lt (by omega)]
      omega
  | mem gas memGas memSz =>
    unfold GasMeter.update overflowAdd at h
    by_cases hov1 : USIZE_LIMIT ≤ m.currentGas + gas
    · simp [hov1] at h
    · by_cases hov2 : USIZE_LIMIT ≤ m.currentMemGas + memGas
      · simp [hov1, hov2] at h
      · simp [hov1, hov2] at h
        rw [← h]
        unfold GasMeter.totalGas
        simp only
        rw [Nat.mod_eq_of_lt (by omega), Nat.mod_eq_of_lt (by omega)]
        omega

/-- C2: the step's gas bookkeeping never checks the accumulated total
against the gas provided in `action_params` and never yields `OutOfGas`:
`GasMeter::update` succeeds even when the total exceeds the limit
(provided gas 1, requirement 5 yields current gas 5 with no error),
`Interpreter::validate_gas` is an unconditional `Ok(())`, and on overflow
`update` panics (`none`) instead of returning `OutOfGas`.  Only the
monotonicity half of the claim holds: a successful `update` never
decreases the total consumed gas. -/
theorem C2_step_gas_never_checked :
    GasMeter.update (GasMeter.new 1) (.default 5)
        = some (.ok { gasLimit := 1, currentGas := 5, currentMemGas := 0 })
    ∧ (GasMeter.mk 1 5 0).totalGas = 5
    ∧ (∀ i : Interpreter, i.validateGas = .ok ())
    ∧ GasMeter.update
        { gasLimit := 1, currentGas := USIZE_LIMIT - 1, currentMemGas := 0 }
        (.default 1) = none
    ∧ (∀ m r m', GasMeter.update m r = some (.ok m') → m.totalGas ≤ m'.totalGas) :=
  ⟨rfl, rfl, fun _ => rfl, rfl, gasMeter_update_monotone⟩

/-- C5: the memory gas actually charged by `instruction_requirement` for
CODECOPY is `mem_size_in_bytes · memory_gas` (here 96·3 = 288), not the
incremental yellow-paper cost `G_mem(w) = memory_gas·w + w²/quad_coeff_div`
(here 3·3 + 9/512 = 9) that the unused `mem_gas_cost` computes.  On a
fresh memory grown to 3 words (stack `dest_offset = 0x20`,
`code_offset = 0`, `length = 0x40`) the two disagree: 288 ≠ 9. -/
theorem C5_memory_gas_not_incremental_quadratic :
    GasMeter.instructionRequirement (GasMeter.new 100) .codecopy Schedule.new
        [0x20, 0x00, 0x40] = some (.mem 291 288 96)
    ∧ (GasMeter.new 100).memGasCost Schedule.new 0 96 = some (.ok (9, 9, 96))
    ∧ Schedule.new.memoryGas * 3 + 3 * 3 / Schedule.new.quadCoeffDiv = 9
    ∧ (288 : Nat) ≠ 9 :=
  ⟨rfl, rfl, rfl, by decide⟩

/-- The PUSH1 0; PUSH1 0; RETURN program. -/
def returnProgram : List Nat := [0x60, 0x00, 0x60, 0x00, 0xf3]

/-- C3: executing RETURN does not surface
`GasLeft::NeedsReturn { data, apply_state }`: `exec` maps
`StepResult::Returned` to `Ok(GasLeft::Known(0))`.  Evaluated on the
program `PUSH1 0; PUSH1 0; RETURN`, `exec` yields `Known(0)`, which is a
different constructor from every `NeedsReturn`. -/
theorem C3_return_surfaces_known_zero :
    ((Interpreter.new returnProgram { ActionParams.default with gas := 100 }).bind
      (fun i0 => Interpreter.exec (fun _ => List.replicate 32 0) 10 i0 ExtState.new)).map
        (Except.map (fun r => r.1)) = some (.ok (.known 0))
    ∧ (∀ g d a, GasLeft.known 0 ≠ GasLeft.needsReturn g d a) :=
  ⟨rfl, fun _ _ _ h => GasLeft.noConfusion h⟩

/-- Modelled from the spec: the offsets occupied by PUSH immediate data
("pointing into immediate data of a PUSH opcode", §4.4.7), computed by the
standard scan that steps over each instruction's immediates. -/
def pushImmediatePositionsAux (code : List Nat) : Nat → Nat → List Nat
  | 0, _ => []
  | fuel + 1, pos =>
    if pos < code.length then
      match instructionFromU8 (code.getD pos 0) with
      | some .push1 => (pos + 1) :: pushImmediatePositionsAux code fuel (pos + 2)
      | some .push2 =>
        (pos + 1) :: (pos + 2) :: pushImmediatePositionsAux code fuel (pos + 3)
      | _ => pushImmediatePositionsAux code fuel (pos + 1)
    else []

/-- Positions inside PUSH immediate data, scanning from offset 0. -/
def pushImmediatePositions (code : List Nat) : List Nat :=
  pushImmediatePositionsAux code code.length 0

/-- `PUSH1 1; PUSH1 21; JUMPI; 15×JUMPDEST; PUSH2 0x5b5b` — offset 21 is
the first immediate byte of the PUSH2 and holds the JUMPDEST byte 0x5b. -/
def jumpIntoPushCode : List Nat :=
  [0x60, 0x01, 0x60, 0x15, 0x57] ++ List.replicate 15 0x5b ++ [0x61, 0x5b, 0x5b]

/-- C4 counterexample: a JUMPI with non-zero condition jumping to offset
21 of `jumpIntoPushCode` completes without error and sets the program
counter to 21, although 21 lies inside the immediate data of the PUSH2 at
offset 20; the whole program also executes to success.  The claim requires
such a jump to fail with `InvalidJump`. -/
theorem C4_jumpi_into_push_immediate_succeeds :
    (Interpreter.processJump
        { reader := { code := jumpIntoPushCode, position := 5 }
          stack := [], memory := [], gasMeter := GasMeter.new 100
          params := InterpreterParams.fromActionParams ActionParams.default
          jumpCache := none } true 21).map
        (Except.map (fun i' => i'.reader.position)) = some (.ok 21)
    ∧ 21 ∈ pushImmediatePositions jumpIntoPushCode
    ∧ jumpIntoPushCode.getD 21 0 = 0x5b
    ∧ ((Interpreter.new jumpIntoPushCode
          { ActionParams.default with gas := 100 }).bind
        (fun i0 => Interpreter.exec (fun _ => List.replicate 32 0) 10 i0
          ExtState.new)).map (Except.map (fun r => r.1))
      = some (.ok (.known 0)) :=
  ⟨rfl, by decide, rfl, rfl⟩

theorem findJumpDestination_mem (code : List Nat) (js : List Nat)
    (hinv : findJumpDestination code = some js) (d : Nat) :
    d ∈ js ↔ d < code.length ∧ instructionFromU8 (code.getD d 0) = some .jumpdest := by
  unfold findJumpDestination at hinv
  split_ifs at hinv with hall
  have hjs := Option.some.inj hinv
  rw [← hjs]
  simp [List.mem_filter, List.mem_range]

/-- C4 (amended): whenever a jump with true condition completes without
error, the new program counter is an offset whose code byte decodes to the
JUMPDEST opcode — whether or not that offset lies inside the immediate
data of a PUSH instruction — and a jump to an offset whose byte is not
JUMPDEST fails with `InvalidJump`. -/
theorem C4_jump_lands_on_jumpdest_byte (i : Interpreter) (dest : Nat) (js : List Nat)
    (hinv : findJumpDestination i.reader.code = some js)
    (hjc : i.jumpCache = none ∨ i.jumpCache = some js) :
    (∀ i', i.processJump true dest = some (.ok i') →
        i'.reader.position = dest ∧ dest < i'.reader.code.length ∧
          instructionFromU8 (i'.reader.code.getD dest 0) = some .jumpdest)
    ∧ (instructionFromU8 (i.reader.code.getD dest 0) ≠ some .jumpdest →
        i.processJump true dest = some (.error .invalidJump)) := by
  obtain ⟨reader, stack, memory, gasMeter, params, jumpCache⟩ := i
  have hmem := findJumpDestination_mem reader.code js hinv
  have hred : Interpreter.processJump ⟨reader, stack, memory, gasMeter, params, jumpCache⟩ true dest =
      if dest ∈ js then
        if hlt : dest < reader.code.length then
          some (.ok ⟨{ reader with position := dest }, stack, memory, gasMeter, params, some js⟩)
        else none
      else some (.error .invalidJump) := by
    rcases hjc with hjc | hjc <;> simp only at hjc <;> subst hjc <;>
      · unfold Interpreter.processJump
        simp only [Option.isNone_none, Option.isNone_some, if_true,
          Bool.false_eq_true, if_false]
        simp only [hinv, Option.bind_eq_bind, Option.some_bind, Bool.not_true,
          Bool.false_eq_true, if_false]
        unfold validJumpDest CodeReader.setPc
        by_cases hd : dest ∈ js
        · rw [if_pos hd, if_pos hd]
          by_cases hlt : dest < reader.code.length
          · simp [hlt]
          · simp [hlt]
        · rw [if_neg hd, if_neg hd]
  constructor
  · intro i' h
    rw [hred] at h
    by_cases hd : dest ∈ js
    · rw [if_pos hd] at h
      have hlt : dest < reader.code.length := ((hmem dest).1 hd).1
      have hdec := ((hmem dest).1 hd).2
      rw [dif_pos hlt] at h
      have h1 := Except.ok.inj (Option.some.inj h)
      rw [← h1]
      exact ⟨rfl, hlt, hdec⟩
    · rw [if_neg hd] at h
      exact absurd (Option.some.inj h) (by simp)
  · intro hnot
    rw [hred]
    have hd : dest ∉ js := fun hmem' => hnot ((hmem dest).1 hmem').2
    rw [if_neg hd]

/-- Witness for the amended C4 at the one-byte program `[JUMPDEST]`. -/
theorem C4_jump_lands_on_jumpdest_byte_witness :
    findJumpDestination ([0x5b] : List Nat) = some [0]
    ∧ ((∀ i', Interpreter.processJump
          ⟨⟨[0x5b], 0⟩, [], [], GasMeter.new 0,
            InterpreterParams.fromActionParams ActionParams.default, none⟩ true 0
            = some (.ok i') →
          i'.reader.position = 0 ∧ 0 < i'.reader.code.length ∧
            instructionFromU8 (i'.reader.code.getD 0 0) = some .jumpdest)
      ∧ (instructionFromU8 (([0x5b] : List Nat).getD 0 0) ≠ some .jumpdest →
          Interpreter.processJump
            ⟨⟨[0x5b], 0⟩, [], [], GasMeter.new 0,
              InterpreterParams.fromActionParams ActionParams.default, none⟩ true 0
            = some (.error .invalidJump))) :=
  ⟨rfl, C4_jump_lands_on_jumpdest_byte
    ⟨⟨[0x5b], 0⟩, [], [], GasMeter.new 0,
      InterpreterParams.fromActionParams ActionParams.default, none⟩ 0 [0] rfl
    (Or.inl rfl)⟩

/-! ## Merkle-Patricia Trie (`trie/src/trie.rs`, `trie/src/storage.rs`,
`trie/src/hasher.rs`)

`trie.rs` (the draft the spec follows) uses the node shape
`Empty | Full { children: [NodeLocation; 17] } | Short { key, val } |
Value(Vec<u8>)` (as consumed by `hasher.rs`).  Hashes and byte strings are
`List Nat`; the backing store is an association list; `keccak` and the
serde node deserialization (`Node::from(Vec<u8>)`, library code) are
abstract parameters gathered in `TrieEnv`. -/

/-- `NodeLocation` (`storage.rs` lines 12-19). -/
inductive NodeLocation where
  | persistence (h : List Nat)
  | memory (i : Nat)
  | none_
deriving Repr, DecidableEq

/-- `Node` as used by `trie.rs`/`hasher.rs` (`CHILD_SIZE = 17`). -/
inductive TrieNode where
  | empty
  | full (children : List NodeLocation)
  | short (key : List Nat) (val : NodeLocation)
  | value (v : List Nat)
deriving Repr, DecidableEq

/-- `MemorySlot` (`storage.rs` lines 22-27). -/
inductive MemorySlot where
  | updated (n : TrieNode)
  | loaded (h : List Nat) (n : TrieNode)
deriving Repr, DecidableEq

/-- `DeleteItem` (from `trie/src/node.rs`, as used by `Trie::destroy`). -/
inductive DeleteItem where
  | node (n : TrieNode)
  | hash (h : List Nat)
deriving Repr, DecidableEq

/-- `Cache` (`storage.rs` lines 40-45): slot arena plus a free-index queue
(`VecDeque`; the head of the list is the queue's front). -/
structure Cache where
  slots : List MemorySlot
  freeIndices : List Nat
deriving Repr, DecidableEq

/-- `Cache::new` (`storage.rs` lines 48-53). -/
def Cache.new : Cache := ⟨[], []⟩

/-- `Cache::insert` (`storage.rs` lines 55-63): reuse a free index or
append. -/
def Cache.insert (c : Cache) (storage : MemorySlot) : Cache × Nat :=
  match c.freeIndices with
  | idx :: rest => (⟨c.slots.set idx storage, rest⟩, idx)
  | [] => (⟨c.slots ++ [storage], []⟩, c.slots.length)

/-- `Cache::get_node` (`storage.rs` lines 67-75): out-of-range indices
yield `Empty`. -/
def Cache.getNode (c : Cache) (index : Nat) : TrieNode :=
  match c.slots.get? index with
  | none => .empty
  | some (.updated n) => n
  | some (.loaded _ n) => n

/-- `Cache::replace` (`storage.rs` lines 83-85). -/
def Cache.replace (c : Cache) (index : Nat) (storageSlot : MemorySlot) : Cache :=
  { c with slots := c.slots.set index storageSlot }

/-- `Cache::take` (`storage.rs` lines 88-91): push the index on the free
queue and move the slot out, leaving `Updated(Empty)`; `none` models the
panic on an out-of-range index. -/
def Cache.take (c : Cache) (index : Nat) : Option (MemorySlot × Cache) :=
  match c.slots.get? index with
  | none => none
  | some slot =>
    some (slot, ⟨c.slots.set index (.updated .empty), c.freeIndices ++ [index]⟩)

/-- The backing key-value store (`kv-storage` `MemoryDB`), as an
association list. -/
def DB := List (List Nat × List Nat)

/-- `DBStorage::get`. -/
def dbGet (db : DB) (k : List Nat) : Option (List Nat) :=
  (db.lookup k)

/-- `DBStorage::insert`. -/
def dbInsert (db : DB) (k v : List Nat) : DB :=
  (k, v) :: db

/-- `HashSet::insert` on the deletion set. -/
def insertDeleteSet (l : List DeleteItem) (d : DeleteItem) : List DeleteItem :=
  if d ∈ l then l else d :: l

/-- Abstract primitives of the trie: keccak-256 and the serde node
deserialization `Node::from(Vec<u8>)` (library code, unused on the
verified paths, which never load from the store). -/
structure TrieEnv where
  keccak : List Nat → List Nat
  nodeFrom : List Nat → TrieNode

/-- `Error` (`trie/src/error.rs`). -/
inductive TrieError where
  | keyCannotBeEmpty
  | valueCannotBeEmpty
  | invalidNodeLocation
  | invalidTrieState
  | keyNotExists
deriving Repr, DecidableEq

/-- `Trie` (`trie.rs` lines 15-22), with the `NodeHasher`'s `hash_count`
inlined as a field. -/
structure Trie where
  db : DB
  rootLoc : NodeLocation
  cache : Cache
  deleteItems : List DeleteItem
  unhashed : Nat
  hashCount : Nat

/-- `Trie::new` (`trie.rs` lines 26-35). -/
def Trie.new (db : DB) : Trie :=
  { db := db, rootLoc := .none_, cache := Cache.new, deleteItems := []
    unhashed := 0, hashCount := 0 }

/-- `Trie::load_to_cache` (`trie.rs` lines 441-447). -/
def Trie.loadToCache (env : TrieEnv) (t : Trie) (h : List Nat) : Trie × Nat :=
  let node := match dbGet t.db h with
    | none => TrieNode.empty
    | some bytes => env.nodeFrom bytes
  let ci := t.cache.insert (.loaded h node)
  ({ t with cache := ci.1 }, ci.2)

/-- `Trie::extract_cache_index` (`trie.rs` lines 406-412). -/
def Trie.extractCacheIndex (env : TrieEnv) (t : Trie) (nodeLoc : NodeLocation) :
    Except TrieError (Trie × Nat) :=
  match nodeLoc with
  | .persistence h => .ok (t.loadToCache env h)
  | .memory i => .ok (t, i)
  | .none_ => .error .invalidNodeLocation

/-- `Trie::get_node_loc_mut` (`trie.rs` lines 414-427): reads the slot at
the extracted index (`none` models the `unwrap` panic).  Mutations the
callers perform through the returned reference are modelled explicitly at
each call site. -/
def Trie.getNodeLocMut (env : TrieEnv) (t : Trie) (nodeLoc : NodeLocation) :
    Option (Except TrieError (Trie × Nat × TrieNode)) :=
  match t.extractCacheIndex env nodeLoc with
  | .error e => some (.error e)
  | .ok (t, cacheIndex) =>
    match t.cache.slots.get? cacheIndex with
    | none => none
    | some (.updated n) => some (.ok (t, cacheIndex, n))
    | some (.loaded _ n) => some (.ok (t, cacheIndex, n))

/-- `Trie::take_node_loc` (`trie.rs` lines 429-439). -/
def Trie.takeNodeLoc (env : TrieEnv) (t : Trie) (nodeLoc : NodeLocation) :
    Option (Except TrieError (Trie × Nat × TrieNode)) :=
  match t.extractCacheIndex env nodeLoc with
  | .error e => some (.error e)
  | .ok (t, cacheIndex) =>
    match t.cache.take cacheIndex with
    | none => none
    | some (slot, cache) =>
      let node := match slot with
        | .updated n => n
        | .loaded _ n => n
      some (.ok ({ t with cache := cache }, cacheIndex, node))

/-- `Trie::destroy` (`trie.rs` lines 236-249). -/
def Trie.destroy (t : Trie) (nodeLoc : NodeLocation) :
    Option (Except TrieError Trie) :=
  match nodeLoc with
  | .none_ => some (.ok t)
  | .persistence _ => some (.error .invalidNodeLocation)
  | .memory cacheIndex =>
    match t.cache.take cacheIndex with
    | none => none
    | some (slot, cache) =>
      let d := match slot with
        | .updated n => DeleteItem.node n
        | .loaded h _ => DeleteItem.hash h
      some (.ok { t with cache := cache
                         deleteItems := insertDeleteSet t.deleteItems d })

/-- `Trie::root_loc` (`trie.rs` lines 450-457): a copy of the root
handle. -/
def Trie.rootLocCopy (t : Trie) : NodeLocation :=
  match t.rootLoc with
  | .persistence h => .persistence h
  | .memory x => .memory x
  | .none_ => .none_

/-- `Trie::get` (`trie.rs` lines 46-79), fuelled.  Outer `none` models a
panic (`key[pos]` or `children[idx]` out of range) or fuel exhaustion;
`some none` is a miss.  The read-only borrow of `self` means the cache is
not modified, so only the trie value is consumed. -/
def Trie.getAux (env : TrieEnv) (t : Trie) :
    Nat → NodeLocation → List Nat → Nat → Option (Option (List Nat))
  | 0, _, _, _ => none
  | fuel + 1, nodeLoc, key, pos =>
    if key.isEmpty then some none
    else
      let node := match nodeLoc with
        | .persistence h =>
          match dbGet t.db h with
          | none => TrieNode.empty
          | some bytes => env.nodeFrom bytes
        | .memory cacheIndex => t.cache.getNode cacheIndex
        | .none_ => TrieNode.empty
      match node with
      | .empty => some none
      | .short nkey val =>
        let matchlen := prefixLen nkey (key.drop pos)
        if matchlen ≠ nkey.length then some none
        else t.getAux env fuel val key (pos + matchlen)
      | .full children =>
        match key.get? pos with
        | none => none
        | some c =>
          if c < 17 then t.getAux env fuel (children.getD c .none_) key (pos + 1)
          else none
      | .value val => some (if key.length ≠ pos then none else some val)

/-- `Trie::try_get` (`trie.rs` lines 42-44). -/
def Trie.tryGet (env : TrieEnv) (t : Trie) (key : List Nat) :
    Option (Option (List Nat)) :=
  t.getAux env ((keyBytesToHex key).length + 1) t.rootLoc (keyBytesToHex key) 0

/-- `Trie::delete` (`trie.rs` lines 89-234), fuelled.  The in-place
mutations through `get_node_loc_mut` references (`mem::take` of fields
followed by `destroy`) are modelled by reading the node and then
destroying its slot. -/
def Trie.deleteAux (env : TrieEnv) :
    Nat → Trie → NodeLocation → List Nat →
    Option (Except TrieError (NodeLocation × Trie))
  | 0, _, _, _ => none
  | fuel + 1, t, nodeLoc, key => do
    match ← t.getNodeLocMut env nodeLoc with
    | .error e => some (.error e)
    | .ok (t, _, node) =>
      match node with
      | .empty => some (.error .keyNotExists)
      | .full children => do
        -- `mem::take(children)` then `destroy(&node_loc)`
        match ← t.destroy nodeLoc with
        | .error e => some (.error e)
        | .ok t =>
          match key with
          | [] => none                 -- `key[0]` panics
          | k0 :: krest =>
            if k0 < 17 then do
              match ← Trie.deleteAux env fuel t (children.getD k0 .none_) krest with
              | .error e => some (.error e)
              | .ok (childLoc, t) =>
                let children := children.set k0 childLoc
                match ←
                  (if childLoc ≠ NodeLocation.none_ then
                    some (.ok (TrieNode.full children, t))
                  else
                    -- locate the non-empty children
                    match (List.range 17).filter
                        (fun i => children.getD i .none_ ≠ NodeLocation.none_) with
                    | [] => some (.ok (TrieNode.full children, t))         -- pos = -1
                    | [p] =>
                      if p ≠ 16 then do
                        match ← t.getNodeLocMut env (children.getD p .none_) with
                        | .error e => some (.error e)
                        | .ok (t, _, n) =>
                          if n matches TrieNode.short .. then do
                            match ← t.takeNodeLoc env (children.getD p .none_) with
                            | .error e => some (.error e)
                            | .ok (t, _, n) =>
                              match n with
                              | .short skey sval =>
                                some (.ok (TrieNode.short (p :: skey) sval, t))
                              | _ =>
                                some (.ok
                                  (TrieNode.short [p] (children.getD p .none_), t))
                          else
                            some (.ok (TrieNode.short [p] (children.getD p .none_), t))
                      else
                        some (.ok (TrieNode.short [p] (children.getD p .none_), t))
                    | _ => some (.ok (TrieNode.full children, t))          -- pos = -2
                  : Option (Except TrieError (TrieNode × Trie))) with
                | .error e => some (.error e)
                | .ok (n, t) =>
                  let ci := t.cache.insert (.updated n)
                  some (.ok (.memory ci.2, { t with cache := ci.1 }))
            else none                  -- `children[sliceidx]` panics
      | .short nkey nval =>
        let matchlen := prefixLen nkey key
        if matchlen < nkey.length then some (.error .keyNotExists)
        else if matchlen = key.length then do
          match ← t.destroy nodeLoc with
          | .error e => some (.error e)
          | .ok t => some (.ok (.none_, t))
        else do
          -- `mem::take` of nkey/nval then `destroy(&node_loc)`
          match ← t.destroy nodeLoc with
          | .error e => some (.error e)
          | .ok t =>
            match ← Trie.deleteAux env fuel t nval (key.drop matchlen) with
            | .error e => some (.error e)
            | .ok (childLoc, t) =>
              if childLoc matches NodeLocation.none_ then
                some (.error .invalidNodeLocation)
              else do
                match ← t.getNodeLocMut env childLoc with
                | .error e => some (.error e)
                | .ok (t, _, child) =>
                  match child with
                  | .short ckey cval => do
                    -- merge, then `destroy(&child_loc)`
                    match ← t.destroy childLoc with
                    | .error e => some (.error e)
                    | .ok t =>
                      let n := TrieNode.short (nkey ++ ckey) cval
                      let ci := t.cache.insert (.updated n)
                      some (.ok (.memory ci.2, { t with cache := ci.1 }))
                  | _ =>
                    let n := TrieNode.short nkey childLoc
                    let ci := t.cache.insert (.updated n)
                    some (.ok (.memory ci.2, { t with cache := ci.1 }))
      | .value _ => none               -- `panic!("invalid state")`

/-- `Trie::try_delete` (`trie.rs` lines 82-87). -/
def Trie.tryDelete (env : TrieEnv) (t : Trie) (key : List Nat) :
    Option (Except TrieError Trie) := do
  if key.isEmpty then some (.error .keyCannotBeEmpty)
  else
    let t := { t with unhashed := t.unhashed + 1 }
    match ← Trie.deleteAux env ((keyBytesToHex key).length + 2) t t.rootLocCopy
        (keyBytesToHex key) with
    | .error e => some (.error e)
    | .ok (loc, t) => some (.ok { t with rootLoc := loc })

/-- `Trie::insert_inner` (`trie.rs` lines 281-383), fuelled. -/
def Trie.insertInnerAux (env : TrieEnv) :
    Nat → Trie → NodeLocation → List Nat → List Nat → NodeLocation →
    Option (Except TrieError (NodeLocation × Trie))
  | 0, _, _, _, _, _ => none
  | fuel + 1, t, nodeLoc, pfx, key, value => do
    if nodeLoc matches NodeLocation.none_ then
      if key.isEmpty then some (.ok (value, t))
      else
        let ci := t.cache.insert (.updated (.short key value))
        some (.ok (.memory ci.2, { t with cache := ci.1 }))
    else
      match ← t.takeNodeLoc env nodeLoc with
      | .error e => some (.error e)
      | .ok (t, cacheIndex, node) =>
        if key.isEmpty then some (.ok (value, t))
        else
          match node with
          | .empty =>
            let n := TrieNode.short key value
            some (.ok (.memory cacheIndex,
              { t with cache := t.cache.replace cacheIndex (.updated n) }))
          | .short nkey nval =>
            let matchlen := prefixLen nkey key
            if matchlen = nkey.length then do
              let pfx := pfx ++ key.take matchlen
              match ← Trie.insertInnerAux env fuel t nval pfx
                  (key.drop matchlen) value with
              | .error e => some (.error e)
              | .ok (newLoc, t) =>
                let ci := t.cache.insert (.updated (.short nkey newLoc))
                some (.ok (.memory ci.2, { t with cache := ci.1 }))
            else
              match key.get? matchlen, nkey.get? matchlen with
              | some c1, some c2 =>
                if c1 < 17 ∧ c2 < 17 then do
                  let nprefix := pfx ++ nkey.take (matchlen + 1)
                  let pfx := pfx ++ key.take (matchlen + 1)
                  match ← Trie.insertInnerAux env fuel t .none_ pfx
                      (key.drop (matchlen + 1)) value with
                  | .error e => some (.error e)
                  | .ok (cLoc1, t) =>
                    match ← Trie.insertInnerAux env fuel t .none_ nprefix
                        (nkey.drop (matchlen + 1)) nval with
                    | .error e => some (.error e)
                    | .ok (cLoc2, t) =>
                      let children :=
                        ((List.replicate 17 NodeLocation.none_).set c1 cLoc1).set c2 cLoc2
                      let ci := t.cache.insert (.updated (.full children))
                      if matchlen = 0 then
                        some (.ok (.memory ci.2, { t with cache := ci.1 }))
                      else
                        let t := { t with cache := ci.1 }
                        let ci2 := t.cache.insert
                          (.updated (.short (nkey.take matchlen) (.memory ci.2)))
                        some (.ok (.memory ci2.2, { t with cache := ci2.1 }))
                else none              -- `children[c]` out of range panics
              | _, _ => none           -- `key[matchlen]` / `nkey[matchlen]` panic
          | .full ch =>
            match key with
            | [] => none
            | k0 :: krest =>
              let pfx := pfx ++ [k0]
              if k0 < 17 then do
                match ← Trie.insertInnerAux env fuel t (ch.getD k0 .none_)
                    pfx krest value with
                | .error e => some (.error e)
                | .ok (newLoc, t) =>
                  let children := ch.set k0 newLoc
                  let ci := t.cache.insert (.updated (.full children))
                  some (.ok (.memory ci.2, { t with cache := ci.1 }))
              else none                -- `ch[i]` out of range panics
          | .value _ => none           -- `panic!("not implemented")`

/-- `Trie::insert` (`trie.rs` lines 269-279): allocate the value node,
then insert. -/
def Trie.insert (env : TrieEnv) (t : Trie) (nodeLoc : NodeLocation)
    (pfx key val : List Nat) :
    Option (Except TrieError (NodeLocation × Trie)) :=
  let ci := t.cache.insert (.updated (.value val))
  Trie.insertInnerAux env (key.length + 2) { t with cache := ci.1 } nodeLoc pfx
    key (.memory ci.2)

/-- `Trie::try_update` (`trie.rs` lines 252-267). -/
def Trie.tryUpdate (env : TrieEnv) (t : Trie) (key val : List Nat) :
    Option (Except TrieError Trie) := do
  if key.isEmpty then some (.error .keyCannotBeEmpty)
  else if val.isEmpty then t.tryDelete env key
  else
    let t := { t with unhashed := t.unhashed + 1 }
    match ← Trie.insert env t t.rootLocCopy [] (keyBytesToHex key) val with
    | .error e => some (.error e)
    | .ok (loc, t) => some (.ok { t with rootLoc := loc })

/-! ### Commit-time hashing (`trie/src/hasher.rs`) -/

/-- `H256::default()`: the all-zero 32-byte hash. -/
def H256_DEFAULT : List Nat := List.replicate 32 0

/-- `ChildReference` (`hasher.rs` lines 137-141). -/
inductive ChildReference where
  | hash (h : List Nat)
  | inline (v : List Nat)
  | value (v : List Nat)
deriving Repr, DecidableEq

/-- `NodeData` (`hasher.rs` lines 128-131). -/
inductive NodeData where
  | hashD (h : List Nat)
  | nodeD (n : TrieNode)
deriving Repr, DecidableEq

/-- `NodeHasher::take_node_loc` (`hasher.rs` lines 46-55). -/
def Trie.takeNodeLocH (t : Trie) (nodeLoc : NodeLocation) :
    Option (NodeData × Trie) :=
  match nodeLoc with
  | .persistence h => some (.hashD h, t)
  | .memory i =>
    match t.cache.take i with
    | none => none
    | some (slot, cache) =>
      let nd := match slot with
        | .updated n => NodeData.nodeD n
        | .loaded h _ => NodeData.hashD h
      some (nd, { t with cache := cache })
  | .none_ => some (.nodeD .empty, t)

/-- `Encoder::handle_ref` (`hasher.rs` lines 176-182). -/
def Encoder.handleRef (stream : RLPStream) (childRef : ChildReference) :
    Option RLPStream :=
  match childRef with
  | .hash h => stream.appendBytes h
  | .inline inlineData => stream.appendRaw inlineData
  | .value v => stream.appendBytes v

/-- `Encoder::full_node` (`hasher.rs` lines 147-160). -/
def Encoder.fullNode (children : List (Option ChildReference)) :
    Option (List Nat) := do
  let stream ← RLPStream.newList 17
  let out ← children.foldlM (fun (s : RLPStream) c =>
    match c with
    | none => s.appendEmpty
    | some r => Encoder.handleRef s r) stream
  some out.data

/-- `Encoder::short_node` (`hasher.rs` lines 162-167). -/
def Encoder.shortNode (key : List Nat) (childRef : ChildReference) :
    Option (List Nat) := do
  let stream ← RLPStream.newList 2
  let stream ← stream.appendBytes key
  let stream ← Encoder.handleRef stream childRef
  some stream.data

/-- `Encoder::value_node` (`hasher.rs` lines 169-174). -/
def Encoder.valueNode (key val : List Nat) : Option (List Nat) := do
  let stream ← RLPStream.newList 2
  let stream ← stream.appendBytes key
  let stream ← stream.appendBytes val
  some stream.data

/-- `NodeHasher::insert_db_raw` (`hasher.rs` lines 120-125). -/
def Trie.insertDbRaw (env : TrieEnv) (t : Trie) (encoded : List Nat) :
    List Nat × Trie :=
  let hash := env.keccak encoded
  (hash, { t with db := dbInsert t.db hash encoded, hashCount := t.hashCount + 1 })

/-- `NodeHasher::insert_encoded` (`hasher.rs` lines 112-118)
(`KeccakHasher::LENGTH = 32`). -/
def Trie.insertEncoded (env : TrieEnv) (t : Trie) (encoded : List Nat) :
    ChildReference × Trie :=
  if 32 ≤ encoded.length then
    let ht := t.insertDbRaw env encoded
    (.hash ht.1, ht.2)
  else (.inline encoded, t)

mutual

/-- `NodeHasher::hash_inner` (`hasher.rs` lines 25-44), fuelled. -/
def Trie.hashInner (env : TrieEnv) :
    Nat → Trie → TrieNode → Option (ChildReference × Trie)
  | 0, _, _ => none
  | fuel + 1, t, node =>
    match node with
    | .empty => some (.hash H256_DEFAULT, t)
    | .full children => Trie.hashFullNodeChildren env fuel t children
    | .short key nodeLoc => do
      let (nd, t) ← t.takeNodeLocH nodeLoc
      Trie.hashShortNodeChildren env fuel t key nd
    | .value _ => none           -- `panic!("invalid state")`

/-- `NodeHasher::hash_short_node_children` (`hasher.rs` lines 57-76). -/
def Trie.hashShortNodeChildren (env : TrieEnv) :
    Nat → Trie → List Nat → NodeData → Option (ChildReference × Trie)
  | fuel, t, key, nd => do
    let k := hexToCompact key
    let (encoded, t) ←
      match nd with
      | .hashD h => do
        let e ← Encoder.shortNode k (.hash h)
        some (e, t)
      | .nodeD node =>
        match node with
        | .value val => do
          let e ← Encoder.valueNode k val
          some (e, t)
        | _ => do
          let (cr, t) ← Trie.hashInner env fuel t node
          let e ← Encoder.shortNode k cr
          some (e, t)
    some (t.insertEncoded env encoded)

/-- The loop over the first 16 slots in
`NodeHasher::hash_full_node_children` (`hasher.rs` lines 84-96). -/
def Trie.hashChildRefs (env : TrieEnv) :
    Nat → Trie → List NodeLocation → Option (List (Option ChildReference) × Trie)
  | _, t, [] => some ([], t)
  | fuel, t, c :: rest => do
    let (nd, t) ← t.takeNodeLocH c
    let (r, t) ←
      match nd with
      | .hashD h => some ((some (ChildReference.hash h) : Option ChildReference), t)
      | .nodeD node =>
        match node with
        | .empty => some ((none : Option ChildReference), t)
        | _ => do
          let (cr, t) ← Trie.hashInner env fuel t node
          some (some cr, t)
    let (rs, t) ← Trie.hashChildRefs env fuel t rest
    some (r :: rs, t)

/-- `NodeHasher::hash_full_node_children` (`hasher.rs` lines 78-109). -/
def Trie.hashFullNodeChildren (env : TrieEnv) :
    Nat → Trie → List NodeLocation → Option (ChildReference × Trie)
  | fuel, t, children => do
    let (refs, t) ← Trie.hashChildRefs env fuel t (children.take 16)
    -- the 17th element, the terminal slot
    let (nd, t) ← t.takeNodeLocH (children.getD 16 .none_)
    let (r, t) ←
      match nd with
      | .hashD h => some ((some (ChildReference.hash h) : Option ChildReference), t)
      | .nodeD node =>
        match node with
        | .empty => some ((none : Option ChildReference), t)
        | .value v => some (some (ChildReference.value v), t)
        | _ => none              -- `panic!("invalid state")`
    let encoded ← Encoder.fullNode (refs ++ [r])
    some (t.insertEncoded env encoded)

end

/-- `NodeHasher::hash` (`hasher.rs` lines 17-23). -/
def Trie.nodeHasherHash (env : TrieEnv) (fuel : Nat) (t : Trie) (node : TrieNode) :
    Option (List Nat × Trie) := do
  let (cr, t) ← Trie.hashInner env fuel t node
  match cr with
  | .hash h => some (h, t)
  | .inline v => some (t.insertDbRaw env v)
  | .value _ => none             -- `panic!("invalid state")`

/-- `Trie::commit` (`trie.rs` lines 386-404); the hashing recursion is
fuelled by the number of cache slots plus one (each hashed node is taken
out of the cache, so the depth cannot exceed the live slot count). -/
def Trie.commit (env : TrieEnv) (t : Trie) :
    Option (Except TrieError (List Nat × Trie)) :=
  match t.rootLocCopy with
  | .none_ => some (.ok (H256_DEFAULT, t))
  | .persistence h => some (.ok (h, t))
  | .memory x =>
    match t.cache.take x with
    | none => none
    | some (slot, cache) =>
      let t := { t with cache := cache }
      match slot with
      | .updated node => do
        let (h, t) ← t.nodeHasherHash env (t.cache.slots.length + 1) node
        some (.ok (h, t))
      | .loaded h _ => some (.ok (h, t))

/-! ### Trie theorems -/

/-- C9: on a freshly created trie (root location `None`), `commit`
succeeds, returns the all-zero 32-byte hash `H256::default()`, and leaves
the backing store (and the whole trie state) unchanged. -/
theorem C9_commit_fresh_trie (env : TrieEnv) (db : DB) :
    (Trie.new db).commit env = some (.ok (H256_DEFAULT, Trie.new db))
    ∧ H256_DEFAULT = List.replicate 32 0
    ∧ ((Trie.new db).commit env).map (Except.map (fun p => p.2.db))
        = some (.ok db) :=
  ⟨rfl, rfl, rfl⟩

/-- C8 counterexample: on the freshly created empty trie, `put` of an
empty value (equivalently `delete`) returns `InvalidNodeLocation`, not the
`KeyNotExists` the claim states. -/
theorem C8_fresh_trie_delete_invalid_node_location :
    (Trie.new []).tryUpdate ⟨fun _ => List.replicate 32 0, fun _ => .empty⟩ [1] []
        = some (.error .invalidNodeLocation)
    ∧ TrieError.invalidNodeLocation ≠ TrieError.keyNotExists :=
  ⟨rfl, by decide⟩

/-- C8 (amended): `put` (`try_update`) with an empty value behaves exactly
as `delete` (`try_delete`) of the same key — identical result and state
for every trie state and key; on the freshly created empty trie (root
location `None`) both calls fail, but with `InvalidNodeLocation` (the
root's `None` location reaches `extract_cache_index`), not
`KeyNotExists`. -/
theorem C8_put_empty_equals_delete :
    (∀ (env : TrieEnv) (t : Trie) (key : List Nat),
      t.tryUpdate env key [] = t.tryDelete env key)
    ∧ (∀ (env : TrieEnv) (db : DB) (key : List Nat), key ≠ [] →
        (Trie.new db).tryDelete env key = some (.error .invalidNodeLocation)) := by
  constructor
  · intro env t key
    by_cases h : key.isEmpty <;> simp [Trie.tryUpdate, Trie.tryDelete, h]
  · intro env db key hk
    have h : key.isEmpty = false := by
      cases key with
      | nil => exact absurd rfl hk
      | cons a l => rfl
    unfold Trie.tryDelete
    rw [h]
    simp only [Bool.false_eq_true, if_false]
    rw [Trie.deleteAux]
    rfl

/-- Witness for the amended C8 at the concrete key `[1]` on the fresh
trie. -/
theorem C8_put_empty_equals_delete_witness :
    (([1] : List Nat) ≠ [])
    ∧ (Trie.new []).tryDelete ⟨fun _ => List.replicate 32 0, fun _ => .empty⟩ [1]
        = some (.error .invalidNodeLocation) :=
  ⟨by decide, C8_put_empty_equals_delete.2
    ⟨fun _ => List.replicate 32 0, fun _ => .empty⟩ [] [1] (by decide)⟩

/-! ### A pure functional model of the trie

`PT` is the cache-free tree the stateful trie unfolds to: `insertPI` and
`getP` mirror `insert_inner` and `get` with the arena plumbing removed; a
simulation proof relates them below.  `Option.none` marks the same panic
points as in the stateful embedding. -/

inductive PT where
  | empty
  | full (children : List PT)
  | short (key : List Nat) (child : PT)
  | value (v : List Nat)

theorem PT.sizeOf_getElem_lt (ch : List PT) (k : Nat) :
    sizeOf (ch[k]?.getD PT.empty) < 1 + sizeOf ch := by
  cases hg : ch[k]? with
  | none => simp; cases ch <;> simp <;> omega
  | some x =>
    have hx : x ∈ ch := by
      have := List.getElem?_eq_some.1 hg
      obtain ⟨hlt, he⟩ := this
      rw [← he]
      exact List.getElem_mem hlt
    have := List.sizeOf_lt_of_mem hx
    simp [hg]
    omega

theorem PT.sizeOf_getD_lt (ch : List PT) (k : Nat) :
    sizeOf (ch.getD k .empty) < 1 + sizeOf ch := by
  rw [List.getD_eq_getElem?_getD]
  exact PT.sizeOf_getElem_lt ch k

/-- Pure mirror of `insert_inner` on `NodeLocation::None`. -/
def insertNone (key : List Nat) (tv : PT) : PT :=
  if key.isEmpty then tv else .short key tv

/-- Pure mirror of `insert_inner`. -/
def insertPI : PT → List Nat → PT → Option PT
  | .empty, key, tv => some (insertNone key tv)
  | .short nkey nval, key, tv =>
    if key.isEmpty then some tv
    else
      let m := prefixLen nkey key
      if m = nkey.length then do
        let c ← insertPI nval (key.drop m) tv
        some (.short nkey c)
      else
        match key.get? m, nkey.get? m with
        | some c1, some c2 =>
          if c1 < 17 ∧ c2 < 17 then
            let t1 := insertNone (key.drop (m + 1)) tv
            let t2 := insertNone (nkey.drop (m + 1)) nval
            let children := ((List.replicate 17 PT.empty).set c1 t1).set c2 t2
            some (if m = 0 then PT.full children
              else .short (nkey.take m) (.full children))
          else none
        | _, _ => none
  | .full ch, key, tv =>
    if key.isEmpty then some tv
    else
      match key with
      | [] => none
      | k0 :: krest =>
        if k0 < 17 then do
          let c ← insertPI (ch.getD k0 .empty) krest tv
          some (.full (ch.set k0 c))
        else none
  | .value _, key, tv =>
    if key.isEmpty then some tv else none
termination_by t _ _ => sizeOf t
decreasing_by
  · simp
  · have := PT.sizeOf_getElem_lt ch k0
    simp
    omega

/-- Pure mirror of `get`; the argument is the remaining key suffix. -/
def getP : PT → List Nat → Option (Option (List Nat))
  | .empty, _ => some none
  | .short nkey child, suffix =>
    if prefixLen nkey suffix ≠ nkey.length then some none
    else getP child (suffix.drop nkey.length)
  | .full ch, suffix =>
    match suffix with
    | [] => none
    | c :: rest => if c < 17 then getP (ch.getD c .empty) rest else none
  | .value v, suffix => some (if suffix.isEmpty then some v else none)
termination_by t _ => sizeOf t
decreasing_by
  · simp
  · have := PT.sizeOf_getElem_lt ch c
    simp
    omega

/-- A terminal nibble path: non-empty, ends in the terminator 16, all
interior nibbles below 16. -/
def TS (l : List Nat) : Prop :=
  l ≠ [] ∧ l.getLast? = some 16 ∧ ∀ x ∈ l.dropLast, x < 16

/-- The tree shapes reachable by inserting terminal paths into an empty
trie: vacant, a leaf (`Short` over a terminal path ending in a value), an
extension (`Short` over interior nibbles into a branch), or a 17-slot
branch whose terminal slot holds a value. -/
inductive Sub : PT → Prop where
  | empty : Sub .empty
  | leaf {k : List Nat} {v : List Nat} : TS k → Sub (.short k (.value v))
  | ext {k : List Nat} {ch : List PT} :
      k ≠ [] → (∀ x ∈ k, x < 16) → Sub (.full ch) → Sub (.short k (.full ch))
  | full {ch : List PT} :
      ch.length = 17 →
      (∀ j, j < 16 → Sub (ch.getD j .empty)) →
      (ch.getD 16 .empty = .empty ∨ ∃ v, ch.getD 16 .empty = .value v) →
      Sub (.full ch)

/-! ### Properties of `prefix_len` and terminal paths -/

theorem prefixLen_self (a : List Nat) : prefixLen a a = a.length := by
  induction a with
  | nil => rfl
  | cons x xs ih => simp [prefixLen, ih]

theorem prefixLen_comm (a b : List Nat) : prefixLen a b = prefixLen b a := by
  induction a generalizing b with
  | nil => cases b <;> rfl
  | cons x xs ih =>
    cases b with
    | nil => rfl
    | cons y ys =>
      by_cases h : x = y
      · subst h; simp [prefixLen, ih]
      · rw [prefixLen, prefixLen, if_neg h, if_neg (fun hh => h hh.symm)]

theorem prefixLen_le_left (a b : List Nat) : prefixLen a b ≤ a.length := by
  induction a generalizing b with
  | nil => simp [prefixLen]
  | cons x xs ih =>
    cases b with
    | nil => simp [prefixLen]
    | cons y ys =>
      by_cases h : x = y <;> simp [prefixLen, h]
      exact ih ys

theorem prefixLen_le_right (a b : List Nat) : prefixLen a b ≤ b.length := by
  rw [prefixLen_comm]; exact prefixLen_le_left b a

theorem prefixLen_eq_left_iff (a b : List Nat) :
    prefixLen a b = a.length ↔ a <+: b := by
  induction a generalizing b with
  | nil => simp [prefixLen]
  | cons x xs ih =>
    cases b with
    | nil =>
      simp [prefixLen]
    | cons y ys =>
      by_cases h : x = y
      · subst h
        simp [prefixLen, ih]
      · rw [prefixLen, if_neg h]
        simp [h]

theorem take_prefixLen_eq (a b : List Nat) :
    a.take (prefixLen a b) = b.take (prefixLen a b) := by
  induction a generalizing b with
  | nil => simp [prefixLen]
  | cons x xs ih =>
    cases b with
    | nil => simp [prefixLen]
    | cons y ys =>
      by_cases h : x = y
      · subst h; simp [prefixLen, ih]
      · simp [prefixLen, h]

theorem getD_prefixLen_ne (a b : List Nat)
    (ha : prefixLen a b < a.length) (hb : prefixLen a b < b.length) :
    a.getD (prefixLen a b) 0 ≠ b.getD (prefixLen a b) 0 := by
  induction a generalizing b with
  | nil => simp at ha
  | cons x xs ih =>
    cases b with
    | nil => simp at hb
    | cons y ys =>
      by_cases h : x = y
      · subst h
        rw [prefixLen, if_pos rfl] at ha hb ⊢
        simp only [List.getD_cons_succ]
        simp only [List.length_cons] at ha hb
        exact ih ys (by omega) (by omega)
      · rw [prefixLen, if_neg h]
        simpa using h

theorem list_reconstruct (a : List Nat) (m : Nat) (h : m < a.length) :
    a.take m ++ a.getD m 0 :: a.drop (m + 1) = a := by
  rw [List.getD_eq_getElem a 0 h]
  conv_rhs => rw [← List.take_append_drop m a]
  rw [List.drop_eq_getElem_cons h]

theorem prefix_ext_at (a b : List Nat) (m : Nat)
    (hma : m < a.length) (hmb : m < b.length)
    (htake : a.take m = b.take m) (hat : a.getD m 0 = b.getD m 0)
    (hdrop : a.drop (m + 1) = b.drop (m + 1)) : a = b := by
  rw [← list_reconstruct a m hma, ← list_reconstruct b m hmb, htake, hat, hdrop]

theorem TS.ne_nil {l : List Nat} (h : TS l) : l ≠ [] := h.1

theorem TS.elem_le {l : List Nat} (h : TS l) {x : Nat} (hx : x ∈ l) : x ≤ 16 := by
  rcases h with ⟨hne, hlast, hint⟩
  rcases List.mem_iff_getElem.1 hx with ⟨i, hi, rfl⟩
  rcases Nat.lt_or_ge i (l.length - 1) with hc | hc
  · have hi' : i < l.dropLast.length := by simp; omega
    have he : l.dropLast[i] = l[i] := List.getElem_dropLast l i hi'
    have := hint _ (he ▸ List.getElem_mem hi')
    omega
  · have hieq : i = l.length - 1 := by omega
    subst hieq
    rw [List.getLast?_eq_getElem?, List.getElem?_eq_getElem hi] at hlast
    have := Option.some.inj hlast
    omega

theorem TS.getD_eq_16_iff {l : List Nat} (h : TS l) {m : Nat} (hm : m < l.length) :
    l.getD m 0 = 16 ↔ m = l.length - 1 := by
  rcases h with ⟨hne, hlast, hint⟩
  rw [List.getD_eq_getElem l 0 hm]
  constructor
  · intro h16
    by_contra hc
    have hi' : m < l.dropLast.length := by simp; omega
    have he : l.dropLast[m] = l[m] := List.getElem_dropLast l m hi'
    have := hint _ (he ▸ List.getElem_mem hi')
    omega
  · intro hc
    subst hc
    rw [List.getLast?_eq_getElem?, List.getElem?_eq_getElem hm] at hlast
    exact Option.some.inj hlast

theorem TS.prefix_eq {a b : List Nat} (ha : TS a) (hb : TS b) (h : a <+: b) :
    a = b := by
  have hlen : a.length ≤ b.length := h.length_le
  by_cases hc : a.length = b.length
  · rcases List.prefix_iff_eq_take.1 h with heq
    rw [heq, hc, List.take_length]
  · exfalso
    -- a's final 16 sits at an interior position of b
    have hal : 0 < a.length := List.length_pos.2 ha.ne_nil
    have h16 : a.getD (a.length - 1) 0 = 16 := (ha.getD_eq_16_iff (by omega)).2 rfl
    have heq : b.getD (a.length - 1) 0 = a.getD (a.length - 1) 0 := by
      have h1 : a.length - 1 < b.length := by omega
      have h2 : a.length - 1 < a.length := by omega
      rw [List.getD_eq_getElem b 0 h1, List.getD_eq_getElem a 0 h2]
      exact (List.IsPrefix.getElem h h2).symm
    have hb16 : b.getD (a.length - 1) 0 = 16 := by rw [heq]; exact h16
    have := (hb.getD_eq_16_iff (m := a.length - 1) (by omega)).1 hb16
    omega

theorem TS.drop {l : List Nat} (h : TS l) {n : Nat} (hn : n < l.length) :
    TS (l.drop n) := by
  rcases h with ⟨hne, hlast, hint⟩
  refine ⟨by simp [List.drop_eq_nil_iff]; omega, ?_, ?_⟩
  · rw [List.getLast?_eq_getElem?] at hlast ⊢
    simp only [List.getElem?_drop, List.length_drop]
    rw [show n + (l.length - n - 1) = l.length - 1 by omega]
    exact hlast
  · intro x hx
    have heq : (l.drop n).dropLast = l.dropLast.drop n := by
      rw [List.dropLast_eq_take, List.dropLast_eq_take, List.drop_take]
      congr 1
      simp
      omega
    rw [heq] at hx
    exact hint _ (List.mem_of_mem_drop hx)

theorem TS.cons_16 {rest : List Nat} (h : TS (16 :: rest)) : rest = [] := by
  rcases h with ⟨_, hlast, hint⟩
  cases rest with
  | nil => rfl
  | cons a l =>
    have := hint 16 (by simp)
    omega

theorem TS.cons_lt {x : Nat} {rest : List Nat} (h : TS (x :: rest)) (hx : x < 16) :
    rest ≠ [] ∧ TS rest := by
  rcases h with ⟨hne, hlast, hint⟩
  have hrne : rest ≠ [] := by
    intro hr
    subst hr
    simp at hlast
    omega
  refine ⟨hrne, hrne, ?_, ?_⟩
  · cases rest with
    | nil => exact absurd rfl hrne
    | cons b l => simpa using hlast
  · intro y hy
    apply hint
    cases rest with
    | nil => exact absurd rfl hrne
    | cons b l =>
      rw [List.dropLast_cons₂]
      exact List.mem_cons_of_mem _ hy

theorem TS.head_cases {x : Nat} {rest : List Nat} (h : TS (x :: rest)) :
    (x = 16 ∧ rest = []) ∨ (x < 16 ∧ rest ≠ [] ∧ TS rest) := by
  have hle : x ≤ 16 := h.elem_le (List.mem_cons_self x rest)
  by_cases h16 : x = 16
  · exact Or.inl ⟨h16, (h16 ▸ h).cons_16⟩
  · have := h.cons_lt (by omega)
    exact Or.inr ⟨by omega, this⟩

theorem getP_short_eq (k : List Nat) (c : PT) (s : List Nat) :
    getP (.short k c) s
      = if k <+: s then getP c (s.drop k.length) else some none := by
  rw [getP]
  by_cases hp : k <+: s
  · rw [if_neg (by rw [Ne, prefixLen_eq_left_iff]; simp [hp]), if_pos hp]
  · rw [if_pos (by rw [Ne, prefixLen_eq_left_iff]; simp [hp]), if_neg hp]

theorem getP_insertNone_eq (s : List Nat) (c : PT) (w : List Nat) :
    getP (insertNone s c) w
      = if s <+: w then getP c (w.drop s.length) else some none := by
  unfold insertNone
  by_cases hs : s.isEmpty
  · have : s = [] := by simpa [List.isEmpty_iff] using hs
    subst this
    simp
  · rw [if_neg (by simp [hs])]
    exact getP_short_eq s c w

theorem getP_insertNone_self (s : List Nat) (v : List Nat) :
    getP (insertNone s (.value v)) s = some (some v) := by
  rw [getP_insertNone_eq, if_pos (List.prefix_refl s)]
  simp [getP]

theorem getD_set_self {α : Type} (l : List α) (i : Nat) (v d : α)
    (h : i < l.length) : (l.set i v).getD i d = v := by
  rw [List.getD_eq_getElem _ d (by simpa using h)]
  simp [List.getElem_set_self]

theorem getD_set_ne {α : Type} (l : List α) (i j : Nat) (v d : α)
    (h : i ≠ j) : (l.set i v).getD j d = l.getD j d := by
  rcases Nat.lt_or_ge j l.length with hj | hj
  · rw [List.getD_eq_getElem _ d (by simpa using hj), List.getD_eq_getElem _ d hj]
    exact List.getElem_set_ne h _
  · rw [List.getD_eq_default _ d (by simpa using hj), List.getD_eq_default _ d hj]

theorem getD_replicate_empty (j : Nat) :
    (List.replicate 17 PT.empty).getD j .empty = .empty := by
  rcases Nat.lt_or_ge j 17 with hj | hj
  · rw [List.getD_eq_getElem _ _ (by simpa using hj)]
    exact List.getElem_replicate _ _
  · rw [List.getD_eq_default _ _ (by simpa using hj)]

/-- The slot contents of the branch built by the split case of
`insert_inner`. -/
theorem splitChildren_getD (c1 c2 : Nat) (t1 t2 : PT) (j : Nat)
    (h1 : c1 < 17) (h2 : c2 < 17) (hne : c1 ≠ c2) :
    (((List.replicate 17 PT.empty).set c1 t1).set c2 t2).getD j .empty
      = if j = c2 then t2 else if j = c1 then t1 else .empty := by
  by_cases hj2 : j = c2
  · subst hj2
    rw [if_pos rfl, getD_set_self _ _ _ _ (by simpa using h2)]
  · rw [if_neg hj2, getD_set_ne _ _ _ _ _ (fun h => hj2 h.symm)]
    by_cases hj1 : j = c1
    · subst hj1
      rw [if_pos rfl, getD_set_self _ _ _ _ (by simpa using h1)]
    · rw [if_neg hj1, getD_set_ne _ _ _ _ _ (fun h => hj1 h.symm),
        getD_replicate_empty]

/-- `Sub` for the branch node built by the split case. -/
theorem Sub.splitFull (c1 c2 : Nat) (t1 t2 : PT)
    (h1 : c1 < 17) (h2 : c2 < 17) (hne : c1 ≠ c2)
    (h1v : c1 = 16 → t1 = .empty ∨ ∃ w, t1 = .value w)
    (h1s : c1 < 16 → Sub t1)
    (h2v : c2 = 16 → t2 = .empty ∨ ∃ w, t2 = .value w)
    (h2s : c2 < 16 → Sub t2) :
    Sub (.full (((List.replicate 17 PT.empty).set c1 t1).set c2 t2)) := by
  apply Sub.full
  · simp
  · intro j hj
    rw [splitChildren_getD c1 c2 t1 t2 j h1 h2 hne]
    by_cases hj2 : j = c2
    · rw [if_pos hj2]
      exact h2s (by omega)
    · rw [if_neg hj2]
      by_cases hj1 : j = c1
      · rw [if_pos hj1]
        exact h1s (by omega)
      · rw [if_neg hj1]
        exact Sub.empty
  · rw [splitChildren_getD c1 c2 t1 t2 16 h1 h2 hne]
    by_cases hj2 : 16 = c2
    · rw [if_pos hj2]
      exact h2v hj2.symm
    · rw [if_neg hj2]
      by_cases hj1 : 16 = c1
      · rw [if_pos hj1]
        exact h1v hj1.symm
      · rw [if_neg hj1]
        exact Or.inl rfl

theorem drop_eq_getD_cons (l : List Nat) (m : Nat) (h : m < l.length) :
    l.drop m = l.getD m 0 :: l.drop (m + 1) := by
  rw [List.getD_eq_getElem l 0 h]
  exact List.drop_eq_getElem_cons h

theorem getP_full_cons (ch : List PT) (c : Nat) (rest : List Nat) :
    getP (.full ch) (c :: rest)
      = if c < 17 then getP (ch.getD c .empty) rest else none := by
  rw [getP]

theorem getP_value_eq (v s : List Nat) :
    getP (.value v) s = some (if s.isEmpty then some v else none) := by
  rw [getP]

theorem insertPI_empty (key : List Nat) (tv : PT) :
    insertPI .empty key tv = some (insertNone key tv) := by
  rw [insertPI]

theorem insertPI_value (v0 : List Nat) (key : List Nat) (tv : PT) :
    insertPI (.value v0) key tv = if key.isEmpty then some tv else none := by
  rw [insertPI]

theorem insertPI_full_cons (ch : List PT) (k0 : Nat) (krest : List Nat)
    (tv : PT) (h : k0 < 17) :
    insertPI (.full ch) (k0 :: krest) tv
      = (insertPI (ch.getD k0 .empty) krest tv).bind
          fun c => some (.full (ch.set k0 c)) := by
  rw [insertPI]
  simp [h]

theorem insertPI_short_matched (nkey : List Nat) (nval : PT) (key : List Nat)
    (tv : PT) (hne : key ≠ []) (h : prefixLen nkey key = nkey.length) :
    insertPI (.short nkey nval) key tv
      = (insertPI nval (key.drop nkey.length) tv).bind
          fun c => some (.short nkey c) := by
  rw [insertPI]
  simp [hne, h]

theorem TS.sixteen_mem {l : List Nat} (h : TS l) : 16 ∈ l := by
  have hl : 0 < l.length := List.length_pos.2 h.ne_nil
  have h16 : l.getD (l.length - 1) 0 = 16 := (h.getD_eq_16_iff (by omega)).2 rfl
  rw [List.getD_eq_getElem l 0 (by omega)] at h16
  exact h16 ▸ List.getElem_mem (by omega)

theorem TS.take_lt {l : List Nat} (h : TS l) {m : Nat} (hm : m < l.length) :
    ∀ x ∈ l.take m, x < 16 := by
  intro x hx
  rcases List.mem_iff_getElem.1 hx with ⟨i, hi, rfl⟩
  have hil : i < m := by
    rw [List.length_take] at hi
    omega
  have hd : i < l.dropLast.length := by
    rw [List.length_dropLast]
    omega
  have he1 : (l.take m)[i] = l[i] := List.getElem_take _
  have he2 : l.dropLast[i] = l[i] := List.getElem_dropLast l i hd
  rw [he1]
  exact h.2.2 _ (he2 ▸ List.getElem_mem hd)

/-- The split case of `insert_inner` on a short node: the new key diverges
from the stored key strictly before the stored key's end, so a two-slot
branch is built (wrapped in an extension node when the common prefix is
non-empty).  Covers both the leaf and the extension original. -/
theorem insertPI_split (k key v : List Nat) (orig : PT)
    (m c1 c2 : Nat) (t1 t2 : PT) (children : List PT)
    (hmeq : prefixLen k key = m)
    (hc1 : key.getD m 0 = c1)
    (hc2 : k.getD m 0 = c2)
    (ht1 : insertNone (key.drop (m + 1)) (.value v) = t1)
    (ht2 : insertNone (k.drop (m + 1)) orig = t2)
    (hch : ((List.replicate 17 PT.empty).set c1 t1).set c2 t2 = children)
    (hkey : TS key)
    (hm : m < k.length)
    (hmkey : m < key.length)
    (hkel : ∀ x ∈ k, x ≤ 16)
    (htake : ∀ x ∈ k.take m, x < 16)
    (h2v : c2 = 16 → t2 = .empty ∨ ∃ w, t2 = .value w)
    (h2s : c2 < 16 → Sub t2) :
    insertPI (.short k orig) key (.value v)
      = some (if m = 0 then PT.full children
          else .short (k.take m) (.full children))
    ∧ Sub (if m = 0 then PT.full children
          else .short (k.take m) (.full children))
    ∧ getP (if m = 0 then PT.full children
          else .short (k.take m) (.full children)) key = some (some v)
    ∧ ∀ w, TS w → w ≠ key →
        getP (if m = 0 then PT.full children
          else .short (k.take m) (.full children)) w
        = getP (.short k orig) w := by
  have hkeyne : key ≠ [] := hkey.ne_nil
  have hkne : k ≠ [] := by
    intro h
    subst h
    simp at hm
  have hc1le : c1 ≤ 16 := by
    rw [← hc1, List.getD_eq_getElem key 0 hmkey]
    exact hkey.elem_le (List.getElem_mem hmkey)
  have hc2le : c2 ≤ 16 := by
    rw [← hc2, List.getD_eq_getElem k 0 hm]
    exact hkel _ (List.getElem_mem hm)
  have hne : c1 ≠ c2 := by
    have h := getD_prefixLen_ne k key (by rw [hmeq]; exact hm)
      (by rw [hmeq]; exact hmkey)
    rw [hmeq, hc2, hc1] at h
    exact fun he => h he.symm
  have hc1_16 : c1 = 16 ↔ m = key.length - 1 := by
    rw [← hc1]
    exact hkey.getD_eq_16_iff hmkey
  have hkdrop : key.drop (m + 1) = [] ↔ m = key.length - 1 := by
    rw [List.drop_eq_nil_iff]
    omega
  have hlen_take : (k.take m).length = m := by
    rw [List.length_take]
    omega
  have htakeeq : k.take m = key.take m := by
    have h := take_prefixLen_eq k key
    rw [hmeq] at h
    exact h
  -- Sub for the two fresh slots
  have h1v : c1 = 16 → t1 = .empty ∨ ∃ w, t1 = .value w := by
    intro h16
    right
    refine ⟨v, ?_⟩
    rw [← ht1, hkdrop.2 (hc1_16.1 h16)]
    simp [insertNone]
  have h1s : c1 < 16 → Sub t1 := by
    intro hlt
    have hne16 : m ≠ key.length - 1 := fun h => by
      have := hc1_16.2 h
      omega
    have hm1 : m + 1 < key.length := by omega
    have hts : TS (key.drop (m + 1)) := hkey.drop hm1
    rw [← ht1, insertNone, if_neg (by simp [hts.ne_nil])]
    exact Sub.leaf hts
  have hsubfull : Sub (.full children) := by
    rw [← hch]
    exact Sub.splitFull c1 c2 t1 t2 (by omega) (by omega) hne h1v h1s h2v h2s
  -- the computation
  have hcomp : insertPI (.short k orig) key (.value v)
      = some (if m = 0 then PT.full children
          else .short (k.take m) (.full children)) := by
    rw [insertPI, if_neg (by simp [hkeyne])]
    simp only [hmeq]
    rw [if_neg (by omega)]
    have hg1 : key.get? m = some c1 := by
      rw [List.get?_eq_getElem?, List.getElem?_eq_getElem hmkey, ← hc1,
        List.getD_eq_getElem key 0 hmkey]
    have hg2 : k.get? m = some c2 := by
      rw [List.get?_eq_getElem?, List.getElem?_eq_getElem hm, ← hc2,
        List.getD_eq_getElem k 0 hm]
    rw [hg1, hg2]
    dsimp only
    rw [if_pos (And.intro (by omega : c1 < 17) (by omega : c2 < 17))]
    rw [ht1, ht2, hch]
  refine ⟨hcomp, ?_, ?_, ?_⟩
  · by_cases hm0 : m = 0
    · rw [if_pos hm0]
      exact hsubfull
    · rw [if_neg hm0]
      refine Sub.ext ?_ htake hsubfull
      intro h
      have := congrArg List.length h
      rw [hlen_take] at this
      simp at this
      omega
  · -- lookup of the inserted key
    have hkeysplit : key.take m ++ c1 :: key.drop (m + 1) = key := by
      rw [← hc1]
      exact list_reconstruct key m hmkey
    have hdropkey : key.drop m = c1 :: key.drop (m + 1) := by
      rw [← hc1]
      exact drop_eq_getD_cons key m hmkey
    have hGfull : getP (.full children) (c1 :: key.drop (m + 1))
        = some (some v) := by
      rw [getP_full_cons, if_pos (by omega), ← hch,
        splitChildren_getD c1 c2 t1 t2 c1 (by omega) (by omega) hne,
        if_neg hne, if_pos rfl, ← ht1]
      exact getP_insertNone_self _ v
    by_cases hm0 : m = 0
    · rw [if_pos hm0]
      have hk0 : key = c1 :: key.drop (m + 1) := by
        conv_lhs => rw [← hkeysplit]
        rw [hm0]
        simp
      conv_lhs => rw [hk0]
      exact hGfull
    · rw [if_neg hm0, getP_short_eq]
      have hpre : k.take m <+: key := by
        rw [htakeeq]
        exact List.take_prefix m key
      rw [if_pos hpre, hlen_take, hdropkey]
      exact hGfull
  · -- the frame: all other terminal keys unchanged
    intro w hw hwne
    by_cases hpre : k.take m <+: w
    · have hmw : m < w.length := by
        have hlen : m ≤ w.length := by
          have h := hpre.length_le
          rw [hlen_take] at h
          exact h
        rcases Nat.lt_or_ge m w.length with h | h
        · exact h
        · exfalso
          have hweq : w = k.take m :=
            (hpre.eq_of_length (by rw [hlen_take]; omega)).symm
          have hwl : 0 < w.length := List.length_pos.2 hw.ne_nil
          have h16 : w.getD (w.length - 1) 0 = 16 :=
            (hw.getD_eq_16_iff (by omega)).2 rfl
          have hmem : w.getD (w.length - 1) 0 ∈ w := by
            rw [List.getD_eq_getElem w 0 (by omega)]
            exact List.getElem_mem (by omega)
          rw [h16, hweq] at hmem
          have := htake _ hmem
          omega
      have hdw : w.drop m = w.getD m 0 :: w.drop (m + 1) :=
        drop_eq_getD_cons w m hmw
      have hw0le : w.getD m 0 ≤ 16 := by
        rw [List.getD_eq_getElem w 0 hmw]
        exact hw.elem_le (List.getElem_mem hmw)
      have hwtake : k.take m = w.take m := by
        have h := List.prefix_iff_eq_take.1 hpre
        rw [hlen_take] at h
        exact h
      have hLHS : getP (if m = 0 then PT.full children
            else .short (k.take m) (.full children)) w
          = getP (.full children) (w.drop m) := by
        by_cases hm0 : m = 0
        · rw [if_pos hm0, hm0, List.drop_zero]
        · rw [if_neg hm0, getP_short_eq, if_pos hpre, hlen_take]
      rw [hLHS, hdw, getP_full_cons, if_pos (by omega), ← hch,
        splitChildren_getD c1 c2 t1 t2 _ (by omega) (by omega) hne,
        getP_short_eq]
      have hksplit : k.take m ++ c2 :: k.drop (m + 1) = k := by
        rw [← hc2]
        exact list_reconstruct k m hm
      have hwrec : w = k.take m ++ (w.getD m 0 :: w.drop (m + 1)) := by
        conv_lhs => rw [← List.take_append_drop m w]
        rw [← hwtake, hdw]
      have hkw_iff : k <+: w ↔
          w.getD m 0 = c2 ∧ k.drop (m + 1) <+: w.drop (m + 1) := by
        constructor
        · intro hkw
          refine ⟨?_, hkw.drop (m + 1)⟩
          rw [List.getD_eq_getElem w 0 hmw, ← hc2, List.getD_eq_getElem k 0 hm]
          exact (List.IsPrefix.getElem hkw hm).symm
        · rintro ⟨h0, hdp⟩
          rw [← hksplit, hwrec, h0]
          exact (List.prefix_append_right_inj _).2
            (List.cons_prefix_cons.2 ⟨rfl, hdp⟩)
      by_cases hs2 : w.getD m 0 = c2
      · rw [if_pos hs2, ← ht2, getP_insertNone_eq]
        by_cases hdp : k.drop (m + 1) <+: w.drop (m + 1)
        · rw [if_pos hdp, if_pos (hkw_iff.2 ⟨hs2, hdp⟩)]
          congr 1
          rw [List.drop_drop]
          congr 1
          rw [List.length_drop]
          omega
        · rw [if_neg hdp, if_neg (fun hkw => hdp (hkw_iff.1 hkw).2)]
      · rw [if_neg hs2]
        have hnkw : ¬ k <+: w := fun hkw => hs2 (hkw_iff.1 hkw).1
        rw [if_neg hnkw]
        by_cases hs1 : w.getD m 0 = c1
        · rw [if_pos hs1, ← ht1, getP_insertNone_eq]
          by_cases hdp : key.drop (m + 1) <+: w.drop (m + 1)
          · exfalso
            apply hwne
            by_cases hkd : key.drop (m + 1) = []
            · have h16 : c1 = 16 := hc1_16.2 (hkdrop.1 hkd)
              have hw16 : w.getD m 0 = 16 := by rw [hs1, h16]
              have hmw1 : m = w.length - 1 := (hw.getD_eq_16_iff hmw).1 hw16
              have hwd : w.drop (m + 1) = [] := by
                rw [List.drop_eq_nil_iff]
                omega
              refine prefix_ext_at w key m hmw hmkey ?_ ?_ ?_
              · rw [← hwtake, htakeeq]
              · rw [hs1, hc1]
              · rw [hwd, hkd]
            · have hm1 : m + 1 < key.length := by
                rw [List.drop_eq_nil_iff] at hkd
                omega
              have hts : TS (key.drop (m + 1)) := hkey.drop hm1
              have hc1lt : c1 < 16 := by
                rcases Nat.lt_or_ge c1 16 with h | h
                · exact h
                · exfalso
                  have h16 : c1 = 16 := by omega
                  exact hkd (hkdrop.2 (hc1_16.1 h16))
              have hw16 : w.getD m 0 ≠ 16 := by
                rw [hs1]
                omega
              have hmw1 : m + 1 < w.length := by
                have hne' : m ≠ w.length - 1 :=
                  fun h => hw16 ((hw.getD_eq_16_iff hmw).2 h)
                omega
              have hwts : TS (w.drop (m + 1)) := hw.drop hmw1
              have heq : key.drop (m + 1) = w.drop (m + 1) :=
                hts.prefix_eq hwts hdp
              refine prefix_ext_at w key m hmw hmkey ?_ ?_ ?_
              · rw [← hwtake, htakeeq]
              · rw [hs1, hc1]
              · rw [heq]
          · rw [if_neg hdp]
        · rw [if_neg hs1, getP]
    · have hm0 : m ≠ 0 := by
        intro h
        rw [h] at hpre
        simp at hpre
      rw [if_neg hm0, getP_short_eq, if_neg hpre, getP_short_eq,
        if_neg (fun hkw => hpre ((List.take_prefix m k).trans hkw))]

/-- Inserting a terminal path into a well-formed subtree: the insertion
succeeds, preserves well-formedness, makes the key readable, leaves every
other terminal path unchanged, and keeps branch nodes branch nodes. -/
theorem insertPI_spec {pt : PT} (hsub : Sub pt) :
    ∀ key v, TS key →
    ∃ pt', insertPI pt key (.value v) = some pt'
      ∧ Sub pt'
      ∧ getP pt' key = some (some v)
      ∧ (∀ w, TS w → w ≠ key → getP pt' w = getP pt w)
      ∧ ∀ ch0, pt = .full ch0 → ∃ ch', pt' = .full ch' := by
  induction hsub with
  | empty =>
    intro key v hkey
    refine ⟨.short key (.value v), ?_, Sub.leaf hkey, ?_, ?_, ?_⟩
    · rw [insertPI_empty, insertNone, if_neg (by simp [hkey.ne_nil])]
    · rw [getP_short_eq, if_pos (List.prefix_refl key), List.drop_length,
        getP_value_eq]
      simp
    · intro w hw hwne
      rw [getP_short_eq, if_neg (fun hp => hwne (hkey.prefix_eq hw hp).symm),
        getP]
    · intro ch0 h
      exact PT.noConfusion h
  | @leaf k v0 hk =>
    intro key v hkey
    by_cases hm : prefixLen k key = k.length
    · -- the stored key is a prefix of the new key: both terminal, so equal
      have hpre : k <+: key := (prefixLen_eq_left_iff k key).1 hm
      have hkeq : k = key := hk.prefix_eq hkey hpre
      subst hkeq
      refine ⟨.short k (.value v), ?_, Sub.leaf hk, ?_, ?_, ?_⟩
      · rw [insertPI_short_matched k (.value v0) k (.value v) hk.ne_nil
          (by rw [prefixLen_self]), List.drop_length, insertPI_value]
        simp
      · rw [getP_short_eq, if_pos (List.prefix_refl k), List.drop_length,
          getP_value_eq]
        simp
      · intro w hw hwne
        rw [getP_short_eq, if_neg (fun hp => hwne (hk.prefix_eq hw hp).symm),
          getP_short_eq, if_neg (fun hp => hwne (hk.prefix_eq hw hp).symm)]
      · intro ch0 h
        exact PT.noConfusion h
    · -- the keys diverge strictly inside the stored key: split
      have hmlt : prefixLen k key < k.length :=
        lt_of_le_of_ne (prefixLen_le_left k key) hm
      have hmkey : prefixLen k key < key.length := by
        rcases Nat.lt_or_ge (prefixLen k key) key.length with h | h
        · exact h
        · exfalso
          have he : prefixLen k key = key.length := by
            have := prefixLen_le_right k key
            omega
          have hpre : key <+: k := by
            rw [← prefixLen_eq_left_iff, prefixLen_comm]
            exact he
          have heq : key = k := hkey.prefix_eq hk hpre
          apply hm
          rw [heq, prefixLen_self]
      have h2v : k.getD (prefixLen k key) 0 = 16 →
          insertNone (k.drop (prefixLen k key + 1)) (.value v0) = .empty ∨
          ∃ w, insertNone (k.drop (prefixLen k key + 1)) (.value v0)
            = .value w := by
        intro h16
        right
        refine ⟨v0, ?_⟩
        have hdk : k.drop (prefixLen k key + 1) = [] := by
          rw [List.drop_eq_nil_iff]
          have := (hk.getD_eq_16_iff hmlt).1 h16
          omega
        rw [hdk]
        simp [insertNone]
      have h2s : k.getD (prefixLen k key) 0 < 16 →
          Sub (insertNone (k.drop (prefixLen k key + 1)) (.value v0)) := by
        intro hlt
        have hne16 : prefixLen k key ≠ k.length - 1 := fun h => by
          have := (hk.getD_eq_16_iff hmlt).2 h
          omega
        have hm1 : prefixLen k key + 1 < k.length := by omega
        have hts : TS (k.drop (prefixLen k key + 1)) := hk.drop hm1
        rw [insertNone, if_neg (by simp [hts.ne_nil])]
        exact Sub.leaf hts
      obtain ⟨hcomp, hsub', hget, hframe⟩ :=
        insertPI_split k key v (.value v0) (prefixLen k key) _ _ _ _ _
          rfl rfl rfl rfl rfl rfl hkey hmlt hmkey
          (fun x hx => hk.elem_le hx) (hk.take_lt hmlt) h2v h2s
      refine ⟨_, hcomp, hsub', hget, hframe, ?_⟩
      intro ch0 h
      exact PT.noConfusion h
  | @ext k ch hknil hklt hchsub ih =>
    intro key v hkey
    by_cases hm : prefixLen k key = k.length
    · have hpre : k <+: key := (prefixLen_eq_left_iff k key).1 hm
      have hmkeylt : k.length < key.length := by
        rcases Nat.lt_or_ge k.length key.length with h | h
        · exact h
        · exfalso
          have hle := hpre.length_le
          have heq : k = key := hpre.eq_of_length (by omega)
          have := hklt 16 (heq ▸ hkey.sixteen_mem)
          omega
      have hts : TS (key.drop k.length) := hkey.drop hmkeylt
      obtain ⟨c, hceq, hcsub, hcget, hcframe, hcfull⟩ :=
        ih (key.drop k.length) v hts
      obtain ⟨ch', rfl⟩ := hcfull ch rfl
      refine ⟨.short k (.full ch'), ?_, Sub.ext hknil hklt hcsub, ?_, ?_, ?_⟩
      · rw [insertPI_short_matched k (.full ch) key (.value v) hkey.ne_nil hm,
          hceq]
        rfl
      · rw [getP_short_eq, if_pos hpre]
        exact hcget
      · intro w hw hwne
        rw [getP_short_eq, getP_short_eq]
        by_cases hkw : k <+: w
        · rw [if_pos hkw, if_pos hkw]
          have hwlt : k.length < w.length := by
            rcases Nat.lt_or_ge k.length w.length with h | h
            · exact h
            · exfalso
              have heq : k = w := hkw.eq_of_length
                (by have := hkw.length_le; omega)
              have := hklt 16 (heq ▸ hw.sixteen_mem)
              omega
          have hwts : TS (w.drop k.length) := hw.drop hwlt
          apply hcframe _ hwts
          intro hdeq
          apply hwne
          have h1 : k = w.take k.length := List.prefix_iff_eq_take.1 hkw
          have h2 : k = key.take k.length := List.prefix_iff_eq_take.1 hpre
          calc w = w.take k.length ++ w.drop k.length :=
                (List.take_append_drop _ _).symm
            _ = key.take k.length ++ key.drop k.length := by
                rw [← h1, ← h2, hdeq]
            _ = key := List.take_append_drop _ _
        · rw [if_neg hkw, if_neg hkw]
      · intro ch0 h
        exact PT.noConfusion h
    · have hmlt : prefixLen k key < k.length :=
        lt_of_le_of_ne (prefixLen_le_left k key) hm
      have hmkey : prefixLen k key < key.length := by
        rcases Nat.lt_or_ge (prefixLen k key) key.length with h | h
        · exact h
        · exfalso
          have he : prefixLen k key = key.length := by
            have := prefixLen_le_right k key
            omega
          have hpre : key <+: k := by
            rw [← prefixLen_eq_left_iff, prefixLen_comm]
            exact he
          have := hklt 16 (hpre.subset hkey.sixteen_mem)
          omega
      have h2v : k.getD (prefixLen k key) 0 = 16 →
          insertNone (k.drop (prefixLen k key + 1)) (.full ch) = .empty ∨
          ∃ w, insertNone (k.drop (prefixLen k key + 1)) (.full ch)
            = .value w := by
        intro h16
        exfalso
        have hmem : k.getD (prefixLen k key) 0 ∈ k := by
          rw [List.getD_eq_getElem k 0 hmlt]
          exact List.getElem_mem hmlt
        have := hklt _ hmem
        omega
      have h2s : k.getD (prefixLen k key) 0 < 16 →
          Sub (insertNone (k.drop (prefixLen k key + 1)) (.full ch)) := by
        intro hlt2
        by_cases hkd : k.drop (prefixLen k key + 1) = []
        · rw [hkd]
          simpa [insertNone] using hchsub
        · rw [insertNone, if_neg (by simp [hkd])]
          exact Sub.ext hkd
            (fun x hx => hklt x (List.drop_subset _ _ hx)) hchsub
      obtain ⟨hcomp, hsub', hget, hframe⟩ :=
        insertPI_split k key v (.full ch) (prefixLen k key) _ _ _ _ _
          rfl rfl rfl rfl rfl rfl hkey hmlt hmkey
          (fun x hx => le_of_lt (hklt x hx))
          (fun x hx => hklt x (List.mem_of_mem_take hx)) h2v h2s
      refine ⟨_, hcomp, hsub', hget, hframe, ?_⟩
      intro ch0 h
      exact PT.noConfusion h
  | @full ch hlen hslots hterm ih =>
    intro key v hkey
    obtain ⟨k0, krest, rfl⟩ : ∃ k0 krest, key = k0 :: krest := by
      cases key with
      | nil => exact absurd rfl hkey.ne_nil
      | cons a l => exact ⟨a, l, rfl⟩
    rcases hkey.head_cases with ⟨h16, rfl⟩ | ⟨hlt, hrne, hrts⟩
    · subst h16
      have hrec : insertPI (ch.getD 16 .empty) [] (.value v)
          = some (.value v) := by
        rcases hterm with h | ⟨w, h⟩
        · rw [h, insertPI_empty]
          rfl
        · rw [h, insertPI_value]
          rfl
      refine ⟨.full (ch.set 16 (.value v)), ?_, ?_, ?_, ?_,
        fun ch0 h => ⟨_, rfl⟩⟩
      · rw [insertPI_full_cons ch 16 [] (.value v) (by omega), hrec]
        rfl
      · refine Sub.full (by rw [List.length_set]; exact hlen) ?_ ?_
        · intro j hj
          rw [getD_set_ne _ _ _ _ _ (by omega)]
          exact hslots j hj
        · rw [getD_set_self _ _ _ _ (by rw [hlen]; omega)]
          exact Or.inr ⟨v, rfl⟩
      · rw [getP_full_cons, if_pos (by omega),
          getD_set_self _ _ _ _ (by rw [hlen]; omega), getP_value_eq]
        simp
      · intro w hw hwne
        obtain ⟨w0, wrest, rfl⟩ : ∃ w0 wrest, w = w0 :: wrest := by
          cases w with
          | nil => exact absurd rfl hw.ne_nil
          | cons a l => exact ⟨a, l, rfl⟩
        have hw0le : w0 ≤ 16 := hw.elem_le (List.mem_cons_self _ _)
        rw [getP_full_cons, getP_full_cons, if_pos (by omega),
          if_pos (by omega)]
        have hw016 : w0 ≠ 16 := by
          intro h
          subst h
          have hwr : wrest = [] := hw.cons_16
          exact hwne (by rw [hwr])
        rw [getD_set_ne _ _ _ _ _ (fun h => hw016 h.symm)]
    · obtain ⟨c, hceq, hcsub, hcget, hcframe, hcfull⟩ := ih k0 hlt krest v hrts
      refine ⟨.full (ch.set k0 c), ?_, ?_, ?_, ?_, fun ch0 h => ⟨_, rfl⟩⟩
      · rw [insertPI_full_cons ch k0 krest (.value v) (by omega), hceq]
        rfl
      · refine Sub.full (by rw [List.length_set]; exact hlen) ?_ ?_
        · intro j hj
          by_cases hj0 : j = k0
          · subst hj0
            rw [getD_set_self _ _ _ _ (by rw [hlen]; omega)]
            exact hcsub
          · rw [getD_set_ne _ _ _ _ _ (fun h => hj0 h.symm)]
            exact hslots j hj
        · rw [getD_set_ne _ _ _ _ _ (by omega)]
          exact hterm
      · rw [getP_full_cons, if_pos (by omega),
          getD_set_self _ _ _ _ (by rw [hlen]; omega)]
        exact hcget
      · intro w hw hwne
        obtain ⟨w0, wrest, rfl⟩ : ∃ w0 wrest, w = w0 :: wrest := by
          cases w with
          | nil => exact absurd rfl hw.ne_nil
          | cons a l => exact ⟨a, l, rfl⟩
        have hw0le : w0 ≤ 16 := hw.elem_le (List.mem_cons_self _ _)
        rw [getP_full_cons, getP_full_cons, if_pos (by omega),
          if_pos (by omega)]
        by_cases hw0 : w0 = k0
        · subst hw0
          rw [getD_set_self _ _ _ _ (by rw [hlen]; omega)]
          have hwr : TS wrest := (hw.cons_lt (by omega)).2
          apply hcframe wrest hwr
          intro h
          exact hwne (by rw [h])
        · rw [getD_set_ne _ _ _ _ _ (fun h => hw0 h.symm)]

/-! ### Simulation: relating the cached trie to the pure tree -/

theorem get?_some_lt {α : Type} {l : List α} {i : Nat} {s : α}
    (h : l.get? i = some s) : i < l.length := by
  by_contra hc
  rw [List.get?_eq_none.2 (by omega)] at h
  cases h

theorem get?_set_ne {α : Type} (l : List α) (i j : Nat) (a : α) (h : i ≠ j) :
    (l.set i a).get? j = l.get? j := by
  rw [List.get?_eq_getElem?, List.get?_eq_getElem?]
  exact List.getElem?_set_ne h

theorem get?_set_self {α : Type} (l : List α) (i : Nat) (a : α)
    (h : i < l.length) : (l.set i a).get? i = some a := by
  rw [List.get?_eq_getElem?]
  rw [List.getElem?_set_self (by omega)]

theorem get?_append_lt {α : Type} (l l2 : List α) (i : Nat)
    (h : i < l.length) : (l ++ l2).get? i = l.get? i := by
  exact List.get?_append h

theorem get?_append_len {α : Type} (l : List α) (a : α) :
    (l ++ [a]).get? l.length = some a := by
  exact List.get?_concat_length l a

/-- The free-index queue is sound: duplicate-free, in range, and disjoint
from the slot indices `S` occupied by live tree nodes. -/
def FreeOK (c : Cache) (S : Set Nat) : Prop :=
  c.freeIndices.Nodup ∧
  ∀ i ∈ c.freeIndices, i < c.slots.length ∧ i ∉ S

/-- The cached trie at `loc` unfolds to the pure tree `pt`, occupying
exactly the (pairwise separated) slot indices in `S`. -/
inductive ReprN (c : Cache) : NodeLocation → PT → Set Nat → Prop where
  | none_ : ReprN c .none_ .empty ∅
  | value {i : Nat} {v : List Nat} :
      c.slots.get? i = some (.updated (.value v)) →
      ReprN c (.memory i) (.value v) {i}
  | short {i : Nat} {k : List Nat} {loc : NodeLocation} {pt : PT} {S : Set Nat} :
      c.slots.get? i = some (.updated (.short k loc)) →
      ReprN c loc pt S → i ∉ S →
      ReprN c (.memory i) (.short k pt) (insert i S)
  | full {i : Nat} {locs : List NodeLocation} {ch : List PT} {S : Nat → Set Nat} :
      c.slots.get? i = some (.updated (.full locs)) →
      locs.length = 17 → ch.length = 17 →
      (∀ j, j < 17 → ReprN c (locs.getD j .none_) (ch.getD j .empty) (S j)) →
      (∀ j1 j2, j1 < 17 → j2 < 17 → j1 ≠ j2 → ∀ x ∈ S j1, x ∉ S j2) →
      (∀ j, j < 17 → i ∉ S j) →
      ReprN c (.memory i) (.full ch) {x | x = i ∨ ∃ j, j < 17 ∧ x ∈ S j}

theorem ReprN_mono {c c' : Cache} {loc : NodeLocation} {pt : PT} {S : Set Nat}
    (hrep : ReprN c loc pt S)
    (h : ∀ i ∈ S, c'.slots.get? i = c.slots.get? i) :
    ReprN c' loc pt S := by
  induction hrep with
  | none_ => exact ReprN.none_
  | @value i v hi =>
    exact ReprN.value ((h i (by simp)).trans hi)
  | @short i k loc pt S hi hsub hnotin ih =>
    refine ReprN.short ((h i (by simp)).trans hi) ?_ hnotin
    exact ih fun x hx => h x (Set.mem_insert_of_mem _ hx)
  | @full i locs ch S hi hlocs hch hsub hdisj hnotin ih =>
    refine ReprN.full ((h i (by simp)).trans hi) hlocs hch ?_ hdisj hnotin
    intro j hj
    exact ih j hj fun x hx => h x (by right; exact ⟨j, hj, hx⟩)

theorem ReprN_bound {c : Cache} {loc : NodeLocation} {pt : PT} {S : Set Nat}
    (hrep : ReprN c loc pt S) : ∀ x ∈ S, x < c.slots.length := by
  induction hrep with
  | none_ => intro x hx; cases hx
  | @value i v hi =>
    intro x hx
    rw [Set.mem_singleton_iff] at hx
    subst hx
    exact get?_some_lt hi
  | @short i k loc pt S hi hsub hnotin ih =>
    intro x hx
    rcases Set.mem_insert_iff.1 hx with h | h
    · subst h; exact get?_some_lt hi
    · exact ih x h
  | @full i locs ch S hi hlocs hch hsub hdisj hnotin ih =>
    intro x hx
    rcases hx with h | ⟨j, hj, h⟩
    · subst h; exact get?_some_lt hi
    · exact ih j hj x h

theorem FreeOK_anti {c : Cache} {S T : Set Nat} (hST : ∀ x ∈ S, x ∈ T)
    (h : FreeOK c T) : FreeOK c S :=
  ⟨h.1, fun i hi => ⟨(h.2 i hi).1, fun hiS => (h.2 i hi).2 (hST i hiS)⟩⟩

/-- Behaviour of `Cache::insert` when the free queue is sound for the live
set `S`: it returns a fresh slot holding the new node and leaves every
live slot untouched. -/
theorem cacheInsert_spec (c : Cache) (s : MemorySlot) (S : Set Nat)
    (hb : ∀ x ∈ S, x < c.slots.length) (hfree : FreeOK c S) :
    (c.insert s).1.slots.get? (c.insert s).2 = some s ∧
    (∀ i ∈ S, (c.insert s).1.slots.get? i = c.slots.get? i) ∧
    (c.insert s).2 ∉ S ∧
    FreeOK (c.insert s).1 (insert (c.insert s).2 S) ∧
    c.slots.length ≤ (c.insert s).1.slots.length ∧
    ((c.insert s).2 ∈ c.freeIndices ∨ (c.insert s).2 = c.slots.length) ∧
    (∀ i ∈ (c.insert s).1.freeIndices, i ∈ c.freeIndices) ∧
    (∀ x, x ≠ (c.insert s).2 → x < c.slots.length →
      (c.insert s).1.slots.get? x = c.slots.get? x) := by
  obtain ⟨hnodup, hflt⟩ := hfree
  match hf : c.freeIndices with
  | idx :: rest =>
    have hidx := hflt idx (by rw [hf]; simp)
    have hrest : ∀ i ∈ rest, i < c.slots.length ∧ i ∉ S := fun i hi =>
      hflt i (by rw [hf]; exact List.mem_cons_of_mem _ hi)
    have hnd : idx ∉ rest ∧ rest.Nodup := by
      rw [hf] at hnodup
      exact ⟨(List.nodup_cons.1 hnodup).1, (List.nodup_cons.1 hnodup).2⟩
    refine ⟨?_, ?_, ?_, ⟨?_, ?_⟩, ?_, ?_, ?_, ?_⟩
    · simp only [Cache.insert, hf]
      exact get?_set_self _ _ _ hidx.1
    · intro i hi
      simp only [Cache.insert, hf]
      exact get?_set_ne _ _ _ _ (fun h => hidx.2 (h ▸ hi))
    · simp only [Cache.insert, hf]
      exact hidx.2
    · simp only [Cache.insert, hf]
      exact hnd.2
    · intro i hi
      simp only [Cache.insert, hf] at hi ⊢
      refine ⟨by rw [List.length_set]; exact (hrest i hi).1, ?_⟩
      intro hmem
      rcases Set.mem_insert_iff.1 hmem with h | h
      · exact hnd.1 (h ▸ hi)
      · exact (hrest i hi).2 h
    · simp only [Cache.insert, hf, List.length_set]
      exact le_refl _
    · simp only [Cache.insert, hf]
      exact Or.inl (List.mem_cons_self _ _)
    · intro i hi
      simp only [Cache.insert, hf] at hi ⊢
      exact List.mem_cons_of_mem _ hi
    · intro x hx hxlt
      simp only [Cache.insert, hf] at hx ⊢
      exact get?_set_ne _ _ _ _ (fun h => hx h.symm)
  | [] =>
    refine ⟨?_, ?_, ?_, ⟨?_, ?_⟩, ?_, ?_, ?_, ?_⟩
    · simp only [Cache.insert, hf]
      exact get?_append_len _ _
    · intro i hi
      simp only [Cache.insert, hf]
      exact get?_append_lt _ _ _ (hb i hi)
    · simp only [Cache.insert, hf]
      intro hmem
      exact absurd (hb _ hmem) (by omega)
    · simp only [Cache.insert, hf]
      exact List.nodup_nil
    · intro i hi
      simp only [Cache.insert, hf] at hi
      cases hi
    · simp only [Cache.insert, hf, List.length_append]
      omega
    · simp only [Cache.insert, hf]
      right
      trivial
    · intro i hi
      simp only [Cache.insert, hf] at hi
      cases hi
    · intro x hx hxlt
      simp only [Cache.insert, hf]
      exact get?_append_lt _ _ _ hxlt

/-- `Cache::take` at an occupied index. -/
theorem cacheTake_spec (c : Cache) (i : Nat) (s : MemorySlot)
    (hi : c.slots.get? i = some s) :
    c.take i = some (s, ⟨c.slots.set i (.updated .empty),
      c.freeIndices ++ [i]⟩) := by
  simp only [Cache.take, hi]

/-- Every `Short` node in the tree has a non-empty key (all trees built by
`insert_inner` satisfy this; it bounds the fuel of the stateful code). -/
inductive NES : PT → Prop where
  | empty : NES .empty
  | value (v : List Nat) : NES (.value v)
  | short {k : List Nat} {c : PT} : k ≠ [] → NES c → NES (.short k c)
  | full {ch : List PT} : (∀ j, j < 17 → NES (ch.getD j .empty)) →
      NES (.full ch)

theorem Sub_NES {pt : PT} (h : Sub pt) : NES pt := by
  induction h with
  | empty => exact NES.empty
  | @leaf k v hk => exact NES.short hk.ne_nil (NES.value v)
  | @ext k ch hkne hklt hsub ih => exact NES.short hkne ih
  | @full ch hlen hsub hterm ih =>
    refine NES.full ?_
    intro j hj
    rcases Nat.lt_or_ge j 16 with h | h
    · exact ih j h
    · have hj16 : j = 16 := by omega
      subst hj16
      rcases hterm with h | ⟨v, h⟩
      · rw [h]; exact NES.empty
      · rw [h]; exact NES.value v

theorem getD_replicate17 {α : Type} (e : α) (j : Nat) :
    (List.replicate 17 e).getD j e = e := by
  rcases Nat.lt_or_ge j 17 with hj | hj
  · rw [List.getD_eq_getElem _ _ (by simpa using hj)]
    exact List.getElem_replicate _ _
  · rw [List.getD_eq_default _ _ (by simpa using hj)]

/-- Slot contents of a two-entry branch built over a 17-element default
row, as used by the split case of `insert_inner`. -/
theorem setTwo_getD {α : Type} (e : α) (c1 c2 : Nat) (t1 t2 : α) (j : Nat)
    (h1 : c1 < 17) (h2 : c2 < 17) (hne : c1 ≠ c2) :
    (((List.replicate 17 e).set c1 t1).set c2 t2).getD j e
      = if j = c2 then t2 else if j = c1 then t1 else e := by
  by_cases hj2 : j = c2
  · subst hj2
    rw [if_pos rfl, getD_set_self _ _ _ _ (by simpa using h2)]
  · rw [if_neg hj2, getD_set_ne _ _ _ _ _ (fun h => hj2 h.symm)]
    by_cases hj1 : j = c1
    · subst hj1
      rw [if_pos rfl, getD_set_self _ _ _ _ (by simpa using h1)]
    · rw [if_neg hj1, getD_set_ne _ _ _ _ _ (fun h => hj1 h.symm),
        getD_replicate17]

/-- `insert_inner` on `NodeLocation::None`: either returns the value
location directly (empty key) or allocates one `Short` node; mirrors
`insertNone`. -/
theorem insertInnerAux_none (env : TrieEnv) (fuel : Nat) (t : Trie)
    (pfx key : List Nat) (vloc : NodeLocation) (tv : PT) (vS : Set Nat)
    (hvrep : ReprN t.cache vloc tv vS)
    (hfree : FreeOK t.cache vS)
    (hfuel : 1 ≤ fuel) :
    ∃ loc' c' S',
      Trie.insertInnerAux env fuel t .none_ pfx key vloc
        = some (.ok (loc', { t with cache := c' })) ∧
      ReprN c' loc' (insertNone key tv) S' ∧
      FreeOK c' S' ∧
      t.cache.slots.length ≤ c'.slots.length ∧
      (∀ x, x ∉ t.cache.freeIndices → x < t.cache.slots.length →
        c'.slots.get? x = t.cache.slots.get? x) ∧
      (∀ x ∈ S', x ∈ vS ∨ x ∈ t.cache.freeIndices ∨ t.cache.slots.length ≤ x) ∧
      (∀ x ∈ c'.freeIndices, x ∈ t.cache.freeIndices) := by
  match fuel with
  | f + 1 =>
    by_cases hk : key.isEmpty
    · refine ⟨vloc, t.cache, vS, ?_, ?_, hfree, le_refl _, fun x _ _ => rfl,
        fun x hx => Or.inl hx, fun x hx => hx⟩
      · rw [Trie.insertInnerAux]
        simp [hk]
      · rw [insertNone, if_pos hk]
        exact hvrep
    · obtain ⟨hget, hframe, hnotin, hfree', hlen, hwhere, hfsub, hgen⟩ :=
        cacheInsert_spec t.cache (.updated (.short key vloc)) vS
          (ReprN_bound hvrep) hfree
      refine ⟨.memory (t.cache.insert (.updated (.short key vloc))).2,
        (t.cache.insert (.updated (.short key vloc))).1,
        insert (t.cache.insert (.updated (.short key vloc))).2 vS,
        ?_, ?_, hfree', hlen, ?_, ?_, hfsub⟩
      · rw [Trie.insertInnerAux]
        simp [hk]
      · rw [insertNone, if_neg hk]
        exact ReprN.short hget (ReprN_mono hvrep hframe) hnotin
      · intro x hx hxlt
        refine hgen x ?_ hxlt
        rcases hwhere with h | h
        · exact fun he => hx (he ▸ h)
        · omega
      · intro x hx
        rcases Set.mem_insert_iff.1 hx with h | h
        · subst h
          rcases hwhere with h | h
          · exact Or.inr (Or.inl h)
          · exact Or.inr (Or.inr (by omega))
        · exact Or.inl h

theorem nodup_concat {l : List Nat} {a : Nat} (h : l.Nodup) (ha : a ∉ l) :
    (l ++ [a]).Nodup := by
  rw [List.nodup_append]
  exact ⟨h, List.nodup_singleton a, by simpa using ha⟩

/-- The simulation: whenever the pure `insertPI` succeeds, `insert_inner`
succeeds on any cached representation of the same tree, and the result
represents the pure result.  The remaining conjuncts carry the framing
facts needed to compose recursive calls. -/
theorem insertInnerAux_sim (env : TrieEnv) (fuel : Nat) :
    ∀ (t : Trie) (loc : NodeLocation) (pfx key : List Nat)
      (vloc : NodeLocation) (tv pt pt' : PT) (S vS : Set Nat),
    ReprN t.cache loc pt S →
    ReprN t.cache vloc tv vS →
    (∀ x ∈ S, x ∉ vS) →
    FreeOK t.cache (S ∪ vS) →
    NES pt →
    insertPI pt key tv = some pt' →
    key.length + 1 ≤ fuel →
    ∃ loc' c' S',
      Trie.insertInnerAux env fuel t loc pfx key vloc
        = some (.ok (loc', { t with cache := c' })) ∧
      ReprN c' loc' pt' S' ∧
      FreeOK c' S' ∧
      t.cache.slots.length ≤ c'.slots.length ∧
      (∀ x, x ∉ S → x ∉ t.cache.freeIndices → x < t.cache.slots.length →
        c'.slots.get? x = t.cache.slots.get? x) ∧
      (∀ x ∈ S', x ∈ S ∨ x ∈ vS ∨ x ∈ t.cache.freeIndices ∨
        t.cache.slots.length ≤ x) ∧
      (∀ x ∈ c'.freeIndices, x ∈ t.cache.freeIndices ∨ x ∈ S) := by
  induction fuel with
  | zero =>
    intro t loc pfx key vloc tv pt pt' S vS _ _ _ _ _ _ hfuel
    omega
  | succ f ih =>
    intro t loc pfx key vloc tv pt pt' S vS hrep hvrep hdisj hfree hnes hpure
      hfuel
    cases hrep with
    | none_ =>
      rw [insertPI_empty] at hpure
      obtain rfl := Option.some.inj hpure
      obtain ⟨loc', c', S', h1, h2, h3, h4, h5, h6, h7⟩ :=
        insertInnerAux_none env (f + 1) t pfx key vloc tv vS hvrep
          (FreeOK_anti (fun x hx => Or.inr hx) hfree) (by omega)
      refine ⟨loc', c', S', h1, h2, h3, h4, fun x _ h2' h3' => h5 x h2' h3',
        ?_, fun x hx => Or.inl (h7 x hx)⟩
      intro x hx
      rcases h6 x hx with h | h
      · exact Or.inr (Or.inl h)
      · exact Or.inr (Or.inr h)
    | @value i v0 hslot =>
      rw [insertPI_value] at hpure
      have hiS : i ∈ ({i} : Set Nat) := rfl
      have hilt : i < t.cache.slots.length := get?_some_lt hslot
      have hinotfree : i ∉ t.cache.freeIndices := fun hmem =>
        (hfree.2 i hmem).2 (Or.inl hiS)
      by_cases hk : key.isEmpty
      · rw [if_pos hk] at hpure
        obtain rfl := Option.some.inj hpure
        refine ⟨vloc, ⟨t.cache.slots.set i (.updated .empty),
          t.cache.freeIndices ++ [i]⟩, vS, ?_, ?_, ?_, ?_, ?_, ?_, ?_⟩
        · rw [Trie.insertInnerAux]
          simp [Trie.takeNodeLoc, Trie.extractCacheIndex,
            cacheTake_spec t.cache i _ hslot, hk]
          exact fun h => NodeLocation.noConfusion h
        · exact ReprN_mono hvrep fun x hx =>
            get?_set_ne _ _ _ _ (fun h => hdisj i hiS (h ▸ hx))
        · refine ⟨nodup_concat hfree.1 hinotfree, ?_⟩
          intro x hx
          rcases List.mem_append.1 hx with h | h
          · exact ⟨by rw [List.length_set]; exact (hfree.2 x h).1,
              fun hv => (hfree.2 x h).2 (Or.inr hv)⟩
          · rw [List.mem_singleton] at h
            subst h
            exact ⟨by rw [List.length_set]; exact get?_some_lt hslot,
              fun hv => hdisj _ rfl hv⟩
        · rw [List.length_set]
        · intro x hxS _ _
          exact get?_set_ne _ _ _ _ (fun h => hxS (h ▸ hiS))
        · intro x hx
          exact Or.inr (Or.inl hx)
        · intro x hx
          rcases List.mem_append.1 hx with h | h
          · exact Or.inl h
          · rw [List.mem_singleton] at h
            exact Or.inr (h ▸ hiS)
      · rw [if_neg hk] at hpure
        exact absurd hpure (by simp)
    | @short i nkey childloc childpt Sc hslot hchild hinotin =>
      cases hnes with
      | short hkne hcnes =>
      have hiS : i ∈ insert i Sc := Set.mem_insert _ _
      have hilt : i < t.cache.slots.length := get?_some_lt hslot
      have hinotfree : i ∉ t.cache.freeIndices := fun hmem =>
        (hfree.2 i hmem).2 (Or.inl hiS)
      have hivS : i ∉ vS := hdisj i hiS
      have hchild1 : ReprN ⟨t.cache.slots.set i (.updated .empty),
          t.cache.freeIndices ++ [i]⟩ childloc childpt Sc :=
        ReprN_mono hchild fun x hx =>
          get?_set_ne _ _ _ _ (fun h => hinotin (h ▸ hx))
      have hv1 : ReprN ⟨t.cache.slots.set i (.updated .empty),
          t.cache.freeIndices ++ [i]⟩ vloc tv vS :=
        ReprN_mono hvrep fun x hx =>
          get?_set_ne _ _ _ _ (fun h => hivS (h ▸ hx))
      have hfree1 : FreeOK ⟨t.cache.slots.set i (.updated .empty),
          t.cache.freeIndices ++ [i]⟩ (Sc ∪ vS) := by
        refine ⟨nodup_concat hfree.1 hinotfree, ?_⟩
        intro x hx
        rcases List.mem_append.1 hx with h | h
        · refine ⟨by simpa using (hfree.2 x h).1, ?_⟩
          intro hv
          rcases hv with h' | h'
          · exact (hfree.2 x h).2 (Or.inl (Set.mem_insert_of_mem _ h'))
          · exact (hfree.2 x h).2 (Or.inr h')
        · rw [List.mem_singleton] at h
          subst h
          refine ⟨by simpa using hilt, ?_⟩
          intro hv
          rcases hv with h' | h'
          · exact hinotin h'
          · exact hivS h'
      by_cases hk : key.isEmpty
      · rw [insertPI, if_pos hk] at hpure
        obtain rfl := Option.some.inj hpure
        refine ⟨vloc, ⟨t.cache.slots.set i (.updated .empty),
          t.cache.freeIndices ++ [i]⟩, vS, ?_, hv1,
          FreeOK_anti (fun x hx => Or.inr hx) hfree1, ?_, ?_, ?_, ?_⟩
        · rw [Trie.insertInnerAux]
          simp [Trie.takeNodeLoc, Trie.extractCacheIndex,
            cacheTake_spec t.cache i _ hslot, hk]
          exact fun h => NodeLocation.noConfusion h
        · rw [List.length_set]
        · intro x hxS _ _
          exact get?_set_ne _ _ _ _ (fun h => hxS (h ▸ hiS))
        · exact fun x hx => Or.inr (Or.inl hx)
        · intro x hx
          rcases List.mem_append.1 hx with h | h
          · exact Or.inl h
          · rw [List.mem_singleton] at h
            exact Or.inr (h ▸ hiS)
      · have hkne' : key ≠ [] := fun he => hk (by simp [he])
        have hkeylen : 1 ≤ key.length := List.length_pos.2 hkne'
        by_cases hm : prefixLen nkey key = nkey.length
        · -- the stored key is a prefix: recurse into the child
          rw [insertPI_short_matched nkey childpt key tv hkne' hm] at hpure
          cases hc : insertPI childpt (key.drop nkey.length) tv with
          | none => rw [hc] at hpure; simp at hpure
          | some cpt =>
            rw [hc] at hpure
            dsimp only [Option.bind] at hpure
            obtain rfl := Option.some.inj hpure
            have hnk1 : 1 ≤ nkey.length := List.length_pos.2 hkne
            have hfl : (key.drop nkey.length).length + 1 ≤ f := by
              rw [List.length_drop]
              omega
            obtain ⟨loc2, c2, S2, hcomp2, hrep2, hfree2, hlen2, hframe2,
              hcont2, hfsub2⟩ :=
              ih { t with cache := ⟨t.cache.slots.set i (.updated .empty),
                  t.cache.freeIndices ++ [i]⟩ }
                childloc (pfx ++ key.take nkey.length) (key.drop nkey.length)
                vloc tv childpt cpt Sc vS hchild1 hv1
                (fun x hx => hdisj x (Set.mem_insert_of_mem _ hx)) hfree1
                hcnes hc hfl
            have hlen02 : t.cache.slots.length ≤ c2.slots.length := by
              have h := hlen2
              simpa using h
            obtain ⟨hget3, hframe3, hnotin3, hfree3, hlen3, hwhere3, hfsub3,
              hgen3⟩ :=
              cacheInsert_spec c2 (.updated (.short nkey loc2)) S2
                (ReprN_bound hrep2) hfree2
            refine ⟨.memory (c2.insert (.updated (.short nkey loc2))).2,
              (c2.insert (.updated (.short nkey loc2))).1,
              insert (c2.insert (.updated (.short nkey loc2))).2 S2,
              ?_, ?_, hfree3, ?_, ?_, ?_, ?_⟩
            · rw [Trie.insertInnerAux]
              simp [Trie.takeNodeLoc, Trie.extractCacheIndex,
                cacheTake_spec t.cache i _ hslot, hk, hm, hcomp2]
              exact fun h => NodeLocation.noConfusion h
            · exact ReprN.short hget3 (ReprN_mono hrep2 hframe3) hnotin3
            · calc t.cache.slots.length ≤ c2.slots.length := hlen02
                _ ≤ _ := hlen3
            · intro x hxS hxfree hxlt
              have hxi : x ≠ i := fun h => hxS (h ▸ hiS)
              have hs1 : (t.cache.slots.set i (.updated .empty)).get? x
                  = t.cache.slots.get? x :=
                get?_set_ne _ _ _ _ (fun h => hxi h.symm)
              have hs2 := hframe2 x (fun hx => hxS (Set.mem_insert_of_mem _ hx))
                (by
                  intro hmem
                  rcases List.mem_append.1 hmem with h | h
                  · exact hxfree h
                  · rw [List.mem_singleton] at h
                    exact hxi h)
                (by simpa using hxlt)
              have hs3 := hgen3 x
                (by
                  intro he
                  rcases hwhere3 with h | h
                  · rcases hfsub2 _ (he ▸ h) with h' | h'
                    · rcases List.mem_append.1 h' with h'' | h''
                      · exact hxfree h''
                      · rw [List.mem_singleton] at h''
                        exact hxi h''
                    · exact hxS (Set.mem_insert_of_mem _ h')
                  · omega)
                (by omega)
              exact hs3.trans (hs2.trans hs1)
            · intro x hx
              rcases Set.mem_insert_iff.1 hx with h | h
              · subst h
                rcases hwhere3 with h | h
                · rcases hfsub2 _ h with h' | h'
                  · rcases List.mem_append.1 h' with h'' | h''
                    · exact Or.inr (Or.inr (Or.inl h''))
                    · rw [List.mem_singleton] at h''
                      exact Or.inl (h'' ▸ hiS)
                  · exact Or.inl (Set.mem_insert_of_mem _ h')
                · exact Or.inr (Or.inr (Or.inr (by omega)))
              · rcases hcont2 x h with h' | h' | h' | h'
                · exact Or.inl (Set.mem_insert_of_mem _ h')
                · exact Or.inr (Or.inl h')
                · rcases List.mem_append.1 h' with h'' | h''
                  · exact Or.inr (Or.inr (Or.inl h''))
                  · rw [List.mem_singleton] at h''
                    exact Or.inl (h'' ▸ hiS)
                · exact Or.inr (Or.inr (Or.inr (by simpa using h')))
            · intro x hx
              rcases hfsub2 x (hfsub3 x hx) with h | h
              · rcases List.mem_append.1 h with h' | h'
                · exact Or.inl h'
                · rw [List.mem_singleton] at h'
                  exact Or.inr (h' ▸ hiS)
              · exact Or.inr (Set.mem_insert_of_mem _ h)
        · -- keys diverge inside the stored key: build a branch
          rw [insertPI, if_neg hk] at hpure
          dsimp only at hpure
          rw [if_neg hm] at hpure
          cases hg1 : key.get? (prefixLen nkey key) with
          | none =>
            rw [hg1] at hpure
            simp at hpure
          | some c1v =>
          cases hg2 : nkey.get? (prefixLen nkey key) with
          | none =>
            rw [hg1, hg2] at hpure
            simp at hpure
          | some c2v =>
          rw [hg1, hg2] at hpure
          dsimp only at hpure
          by_cases hcc : c1v < 17 ∧ c2v < 17
          case neg =>
            rw [if_neg hcc] at hpure
            simp at hpure
          case pos =>
          rw [if_pos hcc] at hpure
          obtain rfl := Option.some.inj hpure
          have hmkeylt : prefixLen nkey key < key.length := get?_some_lt hg1
          have hmlt : prefixLen nkey key < nkey.length := get?_some_lt hg2
          have hne12 : c1v ≠ c2v := by
            have h := getD_prefixLen_ne nkey key hmlt hmkeylt
            have e1 : key.getD (prefixLen nkey key) 0 = c1v := by
              rw [List.getD_eq_getElem?_getD, ← List.get?_eq_getElem?, hg1]
              rfl
            have e2 : nkey.getD (prefixLen nkey key) 0 = c2v := by
              rw [List.getD_eq_getElem?_getD, ← List.get?_eq_getElem?, hg2]
              rfl
            rw [e1, e2] at h
            exact fun he => h he.symm
          have hg1e : key[prefixLen nkey key]? = some c1v := by
            rw [← List.get?_eq_getElem?]
            exact hg1
          have hg2e : nkey[prefixLen nkey key]? = some c2v := by
            rw [← List.get?_eq_getElem?]
            exact hg2
          obtain ⟨loc1, c2, S1, hcomp1, hrep1, hfreeS1, hlen1, hframe1,
            hcont1, hfsub1⟩ :=
            insertInnerAux_none env f
              { t with cache := ⟨t.cache.slots.set i (.updated .empty),
                  t.cache.freeIndices ++ [i]⟩ }
              (pfx ++ key.take (prefixLen nkey key + 1))
              (key.drop (prefixLen nkey key + 1)) vloc tv vS hv1
              (FreeOK_anti (fun x hx => Or.inr hx) hfree1) (by omega)
          have hlen02 : t.cache.slots.length ≤ c2.slots.length := by
            simpa using hlen1
          have hchild2 : ReprN c2 childloc childpt Sc := by
            refine ReprN_mono hchild1 fun x hx => hframe1 x ?_ ?_
            · intro hmem
              rcases List.mem_append.1 hmem with h | h
              · exact (hfree.2 x h).2 (Or.inl (Set.mem_insert_of_mem _ hx))
              · rw [List.mem_singleton] at h
                exact hinotin (h ▸ hx)
            · simpa using ReprN_bound hchild x hx
          have hdisj1Sc : ∀ x ∈ S1, x ∉ Sc := by
            intro x hx hxSc
            rcases hcont1 x hx with h | h | h
            · exact hdisj x (Set.mem_insert_of_mem _ hxSc) h
            · rcases List.mem_append.1 h with h' | h'
              · exact (hfree.2 x h').2 (Or.inl (Set.mem_insert_of_mem _ hxSc))
              · rw [List.mem_singleton] at h'
                exact hinotin (h' ▸ hxSc)
            · have hb := ReprN_bound hchild x hxSc
              have h' : t.cache.slots.length ≤ x := by simpa using h
              omega
          have hfreeC2Sc : FreeOK c2 Sc := by
            refine ⟨hfreeS1.1, fun x hx => ⟨(hfreeS1.2 x hx).1, ?_⟩⟩
            intro hxSc
            rcases List.mem_append.1 (hfsub1 x hx) with h' | h'
            · exact (hfree.2 x h').2 (Or.inl (Set.mem_insert_of_mem _ hxSc))
            · rw [List.mem_singleton] at h'
              exact hinotin (h' ▸ hxSc)
          obtain ⟨loc2, c3, S2, hcomp2, hrep2, hfreeS2, hlen2b, hframe2b,
            hcont2b, hfsub2b⟩ :=
            insertInnerAux_none env f { t with cache := c2 }
              (pfx ++ nkey.take (prefixLen nkey key + 1))
              (nkey.drop (prefixLen nkey key + 1)) childloc childpt Sc hchild2
              hfreeC2Sc (by omega)
          have hlen03 : t.cache.slots.length ≤ c3.slots.length :=
            le_trans hlen02 hlen2b
          have hrep1c3 : ReprN c3 loc1
              (insertNone (key.drop (prefixLen nkey key + 1)) tv) S1 :=
            ReprN_mono hrep1 fun x hx => hframe2b x
              (fun hmem => (hfreeS1.2 x hmem).2 hx)
              (ReprN_bound hrep1 x hx)
          have hdisj21 : ∀ x ∈ S2, x ∉ S1 := by
            intro x hx hx1
            rcases hcont2b x hx with h | h | h
            · exact hdisj1Sc x hx1 h
            · exact (hfreeS1.2 x h).2 hx1
            · have hb := ReprN_bound hrep1 x hx1
              have h' : c2.slots.length ≤ x := by simpa using h
              omega
          have hbSS : ∀ x ∈ S1 ∪ S2, x < c3.slots.length := by
            intro x hx
            rcases hx with h | h
            · exact lt_of_lt_of_le (ReprN_bound hrep1 x h) hlen2b
            · exact ReprN_bound hrep2 x h
          have hfreeSS : FreeOK c3 (S1 ∪ S2) := by
            refine ⟨hfreeS2.1, fun x hx => ⟨(hfreeS2.2 x hx).1, ?_⟩⟩
            intro hmem
            rcases hmem with h | h
            · exact (hfreeS1.2 x (hfsub2b x hx)).2 h
            · exact (hfreeS2.2 x hx).2 h
          set CI := c3.insert (.updated (.full
            (((List.replicate 17 NodeLocation.none_).set c1v loc1).set
              c2v loc2))) with hCI
          obtain ⟨hget4, hframe4, hnotin4, hfree4, hlen4, hwhere4, hfsub4,
            hgen4⟩ :=
            cacheInsert_spec c3 (.updated (.full
              (((List.replicate 17 NodeLocation.none_).set c1v loc1).set
                c2v loc2))) (S1 ∪ S2) hbSS hfreeSS
          rw [← hCI] at hget4 hframe4 hnotin4 hfree4
          rw [← hCI] at hlen4 hwhere4 hfsub4 hgen4
          have hrepFull : ReprN CI.1 (.memory CI.2)
              (.full (((List.replicate 17 PT.empty).set c1v
                (insertNone (key.drop (prefixLen nkey key + 1)) tv)).set c2v
                (insertNone (nkey.drop (prefixLen nkey key + 1)) childpt)))
              {x | x = CI.2 ∨ ∃ j, j < 17 ∧ x ∈
                (if j = c2v then S2 else if j = c1v then S1
                  else (∅ : Set Nat))} := by
            refine ReprN.full hget4 (by simp) (by simp) ?_ ?_ ?_
            · intro j hj
              rw [setTwo_getD NodeLocation.none_ c1v c2v loc1 loc2 j hcc.1
                  hcc.2 hne12,
                setTwo_getD PT.empty c1v c2v _ _ j hcc.1 hcc.2 hne12]
              by_cases hj2 : j = c2v
              · rw [if_pos hj2, if_pos hj2, if_pos hj2]
                exact ReprN_mono hrep2 fun x hx => hframe4 x (Or.inr hx)
              · rw [if_neg hj2, if_neg hj2, if_neg hj2]
                by_cases hj1 : j = c1v
                · rw [if_pos hj1, if_pos hj1, if_pos hj1]
                  exact ReprN_mono hrep1c3 fun x hx => hframe4 x (Or.inl hx)
                · rw [if_neg hj1, if_neg hj1, if_neg hj1]
                  exact ReprN.none_
            · intro j1 j2 hj1 hj2 hnej x hx hx2
              by_cases ha : j1 = c2v
              · rw [if_pos ha] at hx
                by_cases hb : j2 = c2v
                · exact hnej (ha.trans hb.symm)
                · rw [if_neg hb] at hx2
                  by_cases hb' : j2 = c1v
                  · rw [if_pos hb'] at hx2
                    exact hdisj21 x hx hx2
                  · rw [if_neg hb'] at hx2
                    exact hx2
              · rw [if_neg ha] at hx
                by_cases ha' : j1 = c1v
                · rw [if_pos ha'] at hx
                  by_cases hb : j2 = c2v
                  · rw [if_pos hb] at hx2
                    exact hdisj21 x hx2 hx
                  · rw [if_neg hb] at hx2
                    by_cases hb' : j2 = c1v
                    · exact hnej (ha'.trans hb'.symm)
                    · rw [if_neg hb'] at hx2
                      exact hx2
                · rw [if_neg ha'] at hx
                  exact hx
            · intro j hj
              by_cases hj2 : j = c2v
              · rw [if_pos hj2]
                exact fun hmem => hnotin4 (Or.inr hmem)
              · rw [if_neg hj2]
                by_cases hj1 : j = c1v
                · rw [if_pos hj1]
                  exact fun hmem => hnotin4 (Or.inl hmem)
                · rw [if_neg hj1]
                  exact fun hmem => hmem
          have hSFsub : ∀ x ∈ {x | x = CI.2 ∨ ∃ j, j < 17 ∧ x ∈
              (if j = c2v then S2 else if j = c1v then S1
                else (∅ : Set Nat))}, x ∈ insert CI.2 (S1 ∪ S2) := by
            intro x hx
            rcases hx with h | ⟨j, hj, h⟩
            · exact Set.mem_insert_iff.2 (Or.inl h)
            · refine Set.mem_insert_iff.2 (Or.inr ?_)
              by_cases hj2 : j = c2v
              · rw [if_pos hj2] at h
                exact Or.inr h
              · rw [if_neg hj2] at h
                by_cases hj1 : j = c1v
                · rw [if_pos hj1] at h
                  exact Or.inl h
                · rw [if_neg hj1] at h
                  exact absurd h (fun hc => hc)
          have hCIfrom : CI.2 ∈ t.cache.freeIndices ∨ CI.2 ∈ insert i Sc ∨
              t.cache.slots.length ≤ CI.2 := by
            rcases hwhere4 with h | h
            · rcases List.mem_append.1 (hfsub1 _ (hfsub2b _ h)) with h' | h'
              · exact Or.inl h'
              · rw [List.mem_singleton] at h'
                exact Or.inr (Or.inl (h' ▸ hiS))
            · exact Or.inr (Or.inr (by omega))
          have hSFcont : ∀ x ∈ {x | x = CI.2 ∨ ∃ j, j < 17 ∧ x ∈
              (if j = c2v then S2 else if j = c1v then S1
                else (∅ : Set Nat))},
              x ∈ insert i Sc ∨ x ∈ vS ∨ x ∈ t.cache.freeIndices ∨
              t.cache.slots.length ≤ x := by
            intro x hx
            rcases hSFsub x hx with h | h
            · subst h
              rcases hCIfrom with h | h | h
              · exact Or.inr (Or.inr (Or.inl h))
              · exact Or.inl h
              · exact Or.inr (Or.inr (Or.inr h))
            · rcases h with h | h
              · rcases hcont1 x h with h' | h' | h'
                · exact Or.inr (Or.inl h')
                · rcases List.mem_append.1 h' with h'' | h''
                  · exact Or.inr (Or.inr (Or.inl h''))
                  · rw [List.mem_singleton] at h''
                    exact Or.inl (h'' ▸ hiS)
                · exact Or.inr (Or.inr (Or.inr (by simpa using h')))
              · rcases hcont2b x h with h' | h' | h'
                · exact Or.inl (Set.mem_insert_of_mem _ h')
                · rcases List.mem_append.1 (hfsub1 x h') with h'' | h''
                  · exact Or.inr (Or.inr (Or.inl h''))
                  · rw [List.mem_singleton] at h''
                    exact Or.inl (h'' ▸ hiS)
                · exact Or.inr (Or.inr (Or.inr (le_trans hlen02 h')))
          have hframe03 : ∀ x, x ∉ insert i Sc → x ∉ t.cache.freeIndices →
              x < t.cache.slots.length →
              c3.slots.get? x = t.cache.slots.get? x := by
            intro x hxS hxfree hxlt
            have hxi : x ≠ i := fun h => hxS (h ▸ hiS)
            have hs1 : (t.cache.slots.set i (.updated .empty)).get? x
                = t.cache.slots.get? x :=
              get?_set_ne _ _ _ _ (fun h => hxi h.symm)
            have hxfree1 : x ∉ t.cache.freeIndices ++ [i] := by
              intro hmem
              rcases List.mem_append.1 hmem with h | h
              · exact hxfree h
              · rw [List.mem_singleton] at h
                exact hxi h
            have hsA := hframe1 x hxfree1 (by simpa using hxlt)
            have hsB := hframe2b x
              (fun hmem => hxfree1 (hfsub1 x hmem))
              (by show x < c2.slots.length; omega)
            exact hsB.trans (hsA.trans hs1)
          have hxneCI : ∀ x, x ∉ insert i Sc → x ∉ t.cache.freeIndices →
              x < t.cache.slots.length → x ≠ CI.2 := by
            intro x hxS hxfree hxlt he
            rcases hCIfrom with h | h | h
            · exact hxfree (he ▸ h)
            · exact hxS (he ▸ h)
            · omega
          set CJ := CI.1.insert (.updated (.short
            (nkey.take (prefixLen nkey key)) (.memory CI.2))) with hCJ
          have hbCI : ∀ x ∈ insert CI.2 (S1 ∪ S2), x < CI.1.slots.length := by
            intro x hx
            rcases Set.mem_insert_iff.1 hx with h | h
            · subst h
              exact get?_some_lt hget4
            · exact lt_of_lt_of_le (hbSS x h) hlen4
          obtain ⟨hget5, hframe5, hnotin5, hfree5, hlen5, hwhere5, hfsub5,
            hgen5⟩ :=
            cacheInsert_spec CI.1 (.updated (.short
              (nkey.take (prefixLen nkey key)) (.memory CI.2)))
              (insert CI.2 (S1 ∪ S2)) hbCI hfree4
          rw [← hCJ] at hget5 hframe5 hnotin5 hfree5
          rw [← hCJ] at hlen5 hwhere5 hfsub5 hgen5
          have hcompMain : Trie.insertInnerAux env (f + 1) t (.memory i) pfx
              key vloc
              = (if prefixLen nkey key = 0
                then some (.ok (.memory CI.2, { t with cache := CI.1 }))
                else some (.ok (.memory CJ.2, { t with cache := CJ.1 }))) := by
            rw [Trie.insertInnerAux]
            simp [Trie.takeNodeLoc, Trie.extractCacheIndex,
              cacheTake_spec t.cache i _ hslot, hk, hm, hg1e, hg2e, hcc,
              hcomp1, hcomp2, hCI, hCJ]
            exact fun h => NodeLocation.noConfusion h
          by_cases hm0 : prefixLen nkey key = 0
          · refine ⟨.memory CI.2, CI.1,
              {x | x = CI.2 ∨ ∃ j, j < 17 ∧ x ∈
                (if j = c2v then S2 else if j = c1v then S1
                  else (∅ : Set Nat))}, ?_, ?_, ?_, ?_, ?_, hSFcont, ?_⟩
            · rw [hcompMain, if_pos hm0]
            · rw [if_pos hm0]
              exact hrepFull
            · exact FreeOK_anti hSFsub hfree4
            · calc t.cache.slots.length ≤ c3.slots.length := hlen03
                _ ≤ _ := hlen4
            · intro x hxS hxfree hxlt
              have hs := hgen4 x (hxneCI x hxS hxfree hxlt) (by omega)
              exact hs.trans (hframe03 x hxS hxfree hxlt)
            · intro x hx
              rcases List.mem_append.1 (hfsub1 x (hfsub2b x (hfsub4 x hx)))
                with h | h
              · exact Or.inl h
              · rw [List.mem_singleton] at h
                exact Or.inr (h ▸ hiS)
          · refine ⟨.memory CJ.2, CJ.1,
              insert CJ.2 {x | x = CI.2 ∨ ∃ j, j < 17 ∧ x ∈
                (if j = c2v then S2 else if j = c1v then S1
                  else (∅ : Set Nat))}, ?_, ?_, ?_, ?_, ?_, ?_, ?_⟩
            · rw [hcompMain, if_neg hm0]
            · rw [if_neg hm0]
              refine ReprN.short hget5 ?_ ?_
              · exact ReprN_mono hrepFull fun x hx => hframe5 x (hSFsub x hx)
              · exact fun hmem => hnotin5 (hSFsub _ hmem)
            · refine ⟨hfree5.1, fun x hx => ⟨(hfree5.2 x hx).1, ?_⟩⟩
              intro hmem
              rcases Set.mem_insert_iff.1 hmem with h | h
              · exact (hfree5.2 x hx).2 (h ▸ Set.mem_insert _ _)
              · exact (hfree5.2 x hx).2
                  (Set.mem_insert_of_mem _ (hSFsub x h))
            · calc t.cache.slots.length ≤ c3.slots.length := hlen03
                _ ≤ CI.1.slots.length := hlen4
                _ ≤ _ := hlen5
            · intro x hxS hxfree hxlt
              have hxCJ : x ≠ CJ.2 := by
                intro he
                rcases hwhere5 with h | h
                · rcases List.mem_append.1
                    (hfsub1 x (hfsub2b x (hfsub4 x (he ▸ h)))) with h' | h'
                  · exact hxfree h'
                  · rw [List.mem_singleton] at h'
                    exact hxS (h' ▸ hiS)
                · have := hbCI
                  have hle : t.cache.slots.length ≤ CI.1.slots.length :=
                    le_trans hlen03 hlen4
                  omega
              have hs5 := hgen5 x hxCJ
                (lt_of_lt_of_le hxlt (le_trans hlen03 hlen4))
              have hs4 := hgen4 x (hxneCI x hxS hxfree hxlt) (by omega)
              exact hs5.trans (hs4.trans
                (hframe03 x hxS hxfree hxlt))
            · intro x hx
              rcases Set.mem_insert_iff.1 hx with h | h
              · subst h
                rcases hwhere5 with h | h
                · rcases List.mem_append.1
                    (hfsub1 _ (hfsub2b _ (hfsub4 _ h))) with h' | h'
                  · exact Or.inr (Or.inr (Or.inl h'))
                  · rw [List.mem_singleton] at h'
                    exact Or.inl (h' ▸ hiS)
                · have hle : t.cache.slots.length ≤ CI.1.slots.length :=
                    le_trans hlen03 hlen4
                  exact Or.inr (Or.inr (Or.inr (by omega)))
              · exact hSFcont x h
            · intro x hx
              rcases List.mem_append.1
                (hfsub1 x (hfsub2b x (hfsub4 x (hfsub5 x hx)))) with h | h
              · exact Or.inl h
              · rw [List.mem_singleton] at h
                exact Or.inr (h ▸ hiS)
    | @full i locs chpts Sfam hslot hlolen hchlen hkids hpair hinot =>
      cases hnes with
      | full hknes =>
      have hiS : i ∈ {x | x = i ∨ ∃ j, j < 17 ∧ x ∈ Sfam j} := Or.inl rfl
      have hilt : i < t.cache.slots.length := get?_some_lt hslot
      have hinotfree : i ∉ t.cache.freeIndices := fun hmem =>
        (hfree.2 i hmem).2 (Or.inl hiS)
      have hivS : i ∉ vS := hdisj i hiS
      have hv1 : ReprN ⟨t.cache.slots.set i (.updated .empty),
          t.cache.freeIndices ++ [i]⟩ vloc tv vS :=
        ReprN_mono hvrep fun x hx =>
          get?_set_ne _ _ _ _ (fun h => hivS (h ▸ hx))
      cases key with
      | nil =>
        rw [insertPI] at hpure
        simp at hpure
        subst hpure
        refine ⟨vloc, ⟨t.cache.slots.set i (.updated .empty),
          t.cache.freeIndices ++ [i]⟩, vS, ?_, hv1, ?_, ?_, ?_, ?_, ?_⟩
        · rw [Trie.insertInnerAux]
          simp [Trie.takeNodeLoc, Trie.extractCacheIndex,
            cacheTake_spec t.cache i _ hslot]
          exact fun h => NodeLocation.noConfusion h
        · refine ⟨nodup_concat hfree.1 hinotfree, ?_⟩
          intro x hx
          rcases List.mem_append.1 hx with h | h
          · exact ⟨by simpa using (hfree.2 x h).1,
              fun hv => (hfree.2 x h).2 (Or.inr hv)⟩
          · rw [List.mem_singleton] at h
            subst h
            exact ⟨by simpa using get?_some_lt hslot, fun hv => hivS hv⟩
        · rw [List.length_set]
        · intro x hxS _ _
          exact get?_set_ne _ _ _ _ (fun h => hxS (h ▸ hiS))
        · exact fun x hx => Or.inr (Or.inl hx)
        · intro x hx
          rcases List.mem_append.1 hx with h | h
          · exact Or.inl h
          · rw [List.mem_singleton] at h
            exact Or.inr (h ▸ hiS)
      | cons k0 krest =>
        by_cases hk0 : k0 < 17
        case neg =>
          rw [insertPI] at hpure
          simp [hk0] at hpure
        case pos =>
        rw [insertPI_full_cons chpts k0 krest tv hk0] at hpure
        cases hcp : insertPI (chpts.getD k0 .empty) krest tv with
        | none => rw [hcp] at hpure; simp at hpure
        | some cpt =>
        rw [hcp] at hpure
        dsimp only [Option.bind] at hpure
        obtain rfl := Option.some.inj hpure
        have hchild1 : ReprN ⟨t.cache.slots.set i (.updated .empty),
            t.cache.freeIndices ++ [i]⟩ (locs.getD k0 .none_)
            (chpts.getD k0 .empty) (Sfam k0) :=
          ReprN_mono (hkids k0 hk0) fun x hx =>
            get?_set_ne _ _ _ _ (fun h => hinot k0 hk0 (h ▸ hx))
        have hfree1 : FreeOK ⟨t.cache.slots.set i (.updated .empty),
            t.cache.freeIndices ++ [i]⟩ (Sfam k0 ∪ vS) := by
          refine ⟨nodup_concat hfree.1 hinotfree, ?_⟩
          intro x hx
          rcases List.mem_append.1 hx with h | h
          · refine ⟨by simpa using (hfree.2 x h).1, ?_⟩
            intro hv
            rcases hv with h' | h'
            · exact (hfree.2 x h).2 (Or.inl (Or.inr ⟨k0, hk0, h'⟩))
            · exact (hfree.2 x h).2 (Or.inr h')
          · rw [List.mem_singleton] at h
            subst h
            refine ⟨by simpa using get?_some_lt hslot, ?_⟩
            intro hv
            rcases hv with h' | h'
            · exact hinot k0 hk0 h'
            · exact hivS h'
        obtain ⟨loc2, c2, S2, hcomp2, hrep2, hfree2, hlen2, hframe2, hcont2,
          hfsub2⟩ :=
          ih { t with cache := ⟨t.cache.slots.set i (.updated .empty),
              t.cache.freeIndices ++ [i]⟩ }
            (locs.getD k0 .none_) (pfx ++ [k0]) krest vloc tv
            (chpts.getD k0 .empty) cpt (Sfam k0) vS hchild1 hv1
            (fun x hx => hdisj x (Or.inr ⟨k0, hk0, hx⟩)) hfree1
            (hknes k0 hk0) hcp (by simpa using hfuel)
        rw [List.getD_eq_getElem?_getD] at hcomp2
        have hlen02 : t.cache.slots.length ≤ c2.slots.length := by
          simpa using hlen2
        have hsib : ∀ j, j < 17 → j ≠ k0 →
            ReprN c2 (locs.getD j .none_) (chpts.getD j .empty) (Sfam j) := by
          intro j hj hjne
          refine ReprN_mono (hkids j hj) fun x hx => ?_
          have hxi : x ≠ i := fun h => hinot j hj (h ▸ hx)
          have hxk0 : x ∉ Sfam k0 := hpair j k0 hj hk0 hjne x hx
          have hxfree : x ∉ t.cache.freeIndices := fun hmem =>
            (hfree.2 x hmem).2 (Or.inl (Or.inr ⟨j, hj, hx⟩))
          have h1 := hframe2 x hxk0
            (by
              intro hmem
              rcases List.mem_append.1 hmem with h' | h'
              · exact hxfree h'
              · rw [List.mem_singleton] at h'
                exact hxi h')
            (by simpa using ReprN_bound (hkids j hj) x hx)
          exact h1.trans (get?_set_ne _ _ _ _ (fun h => hxi h.symm))
        have hS2sib : ∀ x ∈ S2, ∀ j, j < 17 → j ≠ k0 → x ∉ Sfam j := by
          intro x hx j hj hjne hxj
          rcases hcont2 x hx with h | h | h | h
          · exact hpair k0 j hk0 hj (fun he => hjne he.symm) x h hxj
          · exact hdisj x (Or.inr ⟨j, hj, hxj⟩) h
          · rcases List.mem_append.1 h with h' | h'
            · exact (hfree.2 x h').2 (Or.inl (Or.inr ⟨j, hj, hxj⟩))
            · rw [List.mem_singleton] at h'
              exact hinot j hj (h' ▸ hxj)
          · have hb := ReprN_bound (hkids j hj) x hxj
            have h' : t.cache.slots.length ≤ x := by simpa using h
            omega
        have hbSS : ∀ x ∈ {x | ∃ j, j < 17 ∧ x ∈
            (if j = k0 then S2 else Sfam j)}, x < c2.slots.length := by
          rintro x ⟨j, hj, hx⟩
          by_cases hjk : j = k0
          · rw [if_pos hjk] at hx
            exact ReprN_bound hrep2 x hx
          · rw [if_neg hjk] at hx
            exact ReprN_bound (hsib j hj hjk) x hx
        have hfreeSS : FreeOK c2 {x | ∃ j, j < 17 ∧ x ∈
            (if j = k0 then S2 else Sfam j)} := by
          refine ⟨hfree2.1, fun x hx => ⟨(hfree2.2 x hx).1, ?_⟩⟩
          rintro ⟨j, hj, hxj⟩
          by_cases hjk : j = k0
          · rw [if_pos hjk] at hxj
            exact (hfree2.2 x hx).2 hxj
          · rw [if_neg hjk] at hxj
            rcases hfsub2 x hx with h | h
            · rcases List.mem_append.1 h with h' | h'
              · exact (hfree.2 x h').2 (Or.inl (Or.inr ⟨j, hj, hxj⟩))
              · rw [List.mem_singleton] at h'
                exact hinot j hj (h' ▸ hxj)
            · exact hpair k0 j hk0 hj (fun he => hjk he.symm) x h hxj
        set CI := c2.insert (.updated (.full (locs.set k0 loc2))) with hCI
        obtain ⟨hget4, hframe4, hnotin4, hfree4, hlen4, hwhere4, hfsub4,
          hgen4⟩ :=
          cacheInsert_spec c2 (.updated (.full (locs.set k0 loc2)))
            {x | ∃ j, j < 17 ∧ x ∈ (if j = k0 then S2 else Sfam j)}
            hbSS hfreeSS
        rw [← hCI] at hget4 hframe4 hnotin4 hfree4
        rw [← hCI] at hlen4 hwhere4 hfsub4 hgen4
        have hrepFull : ReprN CI.1 (.memory CI.2) (.full (chpts.set k0 cpt))
            {x | x = CI.2 ∨ ∃ j, j < 17 ∧ x ∈
              (if j = k0 then S2 else Sfam j)} := by
          refine ReprN.full hget4 (by rw [List.length_set]; exact hlolen)
            (by rw [List.length_set]; exact hchlen) ?_ ?_ ?_
          · intro j hj
            by_cases hjk : j = k0
            · subst hjk
              rw [getD_set_self _ _ _ _ (by rw [hlolen]; exact hj),
                getD_set_self _ _ _ _ (by rw [hchlen]; exact hj), if_pos rfl]
              exact ReprN_mono hrep2 fun x hx =>
                hframe4 x ⟨j, hj, by rw [if_pos rfl]; exact hx⟩
            · rw [getD_set_ne _ _ _ _ _ (fun h => hjk h.symm),
                getD_set_ne _ _ _ _ _ (fun h => hjk h.symm), if_neg hjk]
              exact ReprN_mono (hsib j hj hjk) fun x hx =>
                hframe4 x ⟨j, hj, by rw [if_neg hjk]; exact hx⟩
          · intro j1 j2 hj1 hj2 hnej x hx hx2
            by_cases ha : j1 = k0
            · rw [if_pos ha] at hx
              have hb : j2 ≠ k0 := fun he => hnej (ha.trans he.symm)
              rw [if_neg hb] at hx2
              exact hS2sib x hx j2 hj2 hb hx2
            · rw [if_neg ha] at hx
              by_cases hb : j2 = k0
              · rw [if_pos hb] at hx2
                exact hS2sib x hx2 j1 hj1 ha hx
              · rw [if_neg hb] at hx2
                exact hpair j1 j2 hj1 hj2 hnej x hx hx2
          · intro j hj
            exact fun hmem => hnotin4 ⟨j, hj, hmem⟩
        have hSFsub : ∀ x ∈ {x | x = CI.2 ∨ ∃ j, j < 17 ∧ x ∈
            (if j = k0 then S2 else Sfam j)},
            x ∈ insert CI.2 {x | ∃ j, j < 17 ∧ x ∈
              (if j = k0 then S2 else Sfam j)} := by
          intro x hx
          rcases hx with h | h
          · exact Set.mem_insert_iff.2 (Or.inl h)
          · exact Set.mem_insert_of_mem _ h
        refine ⟨.memory CI.2, CI.1,
          {x | x = CI.2 ∨ ∃ j, j < 17 ∧ x ∈
            (if j = k0 then S2 else Sfam j)}, ?_, hrepFull,
          FreeOK_anti hSFsub hfree4, ?_, ?_, ?_, ?_⟩
        · rw [Trie.insertInnerAux]
          simp [Trie.takeNodeLoc, Trie.extractCacheIndex,
            cacheTake_spec t.cache i _ hslot, hk0, hcomp2, hCI]
          exact fun h => NodeLocation.noConfusion h
        · calc t.cache.slots.length ≤ c2.slots.length := hlen02
            _ ≤ _ := hlen4
        · intro x hxS hxfree hxlt
          have hxi : x ≠ i := fun h => hxS (h ▸ hiS)
          have hxk0 : x ∉ Sfam k0 := fun hmem =>
            hxS (Or.inr ⟨k0, hk0, hmem⟩)
          have hs1 : (t.cache.slots.set i (.updated .empty)).get? x
              = t.cache.slots.get? x :=
            get?_set_ne _ _ _ _ (fun h => hxi h.symm)
          have hxfree1 : x ∉ t.cache.freeIndices ++ [i] := by
            intro hmem
            rcases List.mem_append.1 hmem with h | h
            · exact hxfree h
            · rw [List.mem_singleton] at h
              exact hxi h
          have hsA := hframe2 x hxk0 hxfree1 (by simpa using hxlt)
          have hsC := hgen4 x
            (by
              intro he
              rcases hwhere4 with h | h
              · rcases hfsub2 x (he ▸ h) with h' | h'
                · exact hxfree1 h'
                · exact hxk0 h'
              · omega)
            (by omega)
          exact hsC.trans (hsA.trans hs1)
        · intro x hx
          rcases hx with h | ⟨j, hj, h⟩
          · subst h
            rcases hwhere4 with h | h
            · rcases hfsub2 _ h with h' | h'
              · rcases List.mem_append.1 h' with h'' | h''
                · exact Or.inr (Or.inr (Or.inl h''))
                · rw [List.mem_singleton] at h''
                  exact Or.inl (h'' ▸ hiS)
              · exact Or.inl (Or.inr ⟨k0, hk0, h'⟩)
            · exact Or.inr (Or.inr (Or.inr (by omega)))
          · by_cases hjk : j = k0
            · rw [if_pos hjk] at h
              rcases hcont2 x h with h' | h' | h' | h'
              · exact Or.inl (Or.inr ⟨k0, hk0, h'⟩)
              · exact Or.inr (Or.inl h')
              · rcases List.mem_append.1 h' with h'' | h''
                · exact Or.inr (Or.inr (Or.inl h''))
                · rw [List.mem_singleton] at h''
                  exact Or.inl (h'' ▸ hiS)
              · exact Or.inr (Or.inr (Or.inr (by simpa using h')))
            · rw [if_neg hjk] at h
              exact Or.inl (Or.inr ⟨j, hj, h⟩)
        · intro x hx
          rcases hfsub2 x (hfsub4 x hx) with h | h
          · rcases List.mem_append.1 h with h' | h'
            · exact Or.inl h'
            · rw [List.mem_singleton] at h'
              exact Or.inr (h' ▸ hiS)
          · exact Or.inr (Or.inr ⟨k0, hk0, h⟩)

/-- The lookup simulation: `get` on a cached representation agrees with the
pure `getP` on the remaining key suffix. -/
theorem getAux_sim (env : TrieEnv) (fuel : Nat) :
    ∀ (t : Trie) (loc : NodeLocation) (pt : PT) (S : Set Nat)
      (key : List Nat) (pos : Nat),
    ReprN t.cache loc pt S →
    NES pt →
    key ≠ [] →
    pos ≤ key.length →
    (key.length - pos) + 1 ≤ fuel →
    t.getAux env fuel loc key pos = getP pt (key.drop pos) := by
  induction fuel with
  | zero =>
    intro t loc pt S key pos _ _ _ _ hfuel
    omega
  | succ f ih =>
    intro t loc pt S key pos hrep hnes hkne hpos hfuel
    rw [Trie.getAux.eq_def]
    dsimp only
    rw [if_neg (by simp [hkne])]
    cases hrep with
    | none_ =>
      simp [getP]
    | @value i v0 hslot =>
      simp only [Cache.getNode, hslot]
      rw [getP_value_eq]
      by_cases hp : key.length = pos
      · have hdnil : key.drop pos = [] := by
          rw [List.drop_eq_nil_iff]
          omega
        rw [if_neg (by omega : ¬ key.length ≠ pos), hdnil]
        simp
      · rw [if_pos hp,
          if_neg (by rw [List.isEmpty_iff, List.drop_eq_nil_iff]; omega)]
    | @short i nkey childloc childpt Sc hslot hchild hinotin =>
      cases hnes with
      | short hkne2 hcnes =>
      simp only [Cache.getNode, hslot]
      rw [getP]
      have hple : prefixLen nkey (key.drop pos) ≤ key.length - pos := by
        have h := prefixLen_le_right nkey (key.drop pos)
        rw [List.length_drop] at h
        exact h
      by_cases hml : prefixLen nkey (key.drop pos) = nkey.length
      · rw [if_neg (by omega : ¬ prefixLen nkey (key.drop pos) ≠ nkey.length),
          if_neg (by omega : ¬ prefixLen nkey (key.drop pos) ≠ nkey.length),
          hml]
        have hnk1 : 1 ≤ nkey.length := List.length_pos.2 hkne2
        have hrec := ih t childloc childpt Sc key (pos + nkey.length) hchild
          hcnes hkne (by omega) (by omega)
        rw [hrec, List.drop_drop]
      · rw [if_pos hml, if_pos hml]
    | @full i locs chpts Sfam hslot hlolen hchlen hkids hpair hinot =>
      cases hnes with
      | full hknes =>
      simp only [Cache.getNode, hslot]
      by_cases hp : pos < key.length
      · have hdw : key.drop pos = key.getD pos 0 :: key.drop (pos + 1) :=
          drop_eq_getD_cons key pos hp
        have hg : key.get? pos = some (key.getD pos 0) := by
          rw [List.get?_eq_getElem?, List.getElem?_eq_getElem hp,
            List.getD_eq_getElem key 0 hp]
        rw [hg, hdw, getP_full_cons]
        dsimp only
        by_cases hc : key.getD pos 0 < 17
        · rw [if_pos hc, if_pos hc]
          exact ih t (locs.getD (key.getD pos 0) .none_)
            (chpts.getD (key.getD pos 0) .empty) (Sfam (key.getD pos 0)) key
            (pos + 1) (hkids _ hc) (hknes _ hc) hkne (by omega) (by omega)
        · rw [if_neg hc, if_neg hc]
      · have hg : key.get? pos = none := List.get?_eq_none.2 (by omega)
        have hdw : key.drop pos = [] := by
          rw [List.drop_eq_nil_iff]
          omega
        rw [hg, hdw, getP]

/-- Non-emptiness and terminal-path shape of hexed keys. -/
theorem keyBytesToHex_ne_nil (k : List Nat) : keyBytesToHex k ≠ [] := by
  simp [keyBytesToHex]

theorem TS_keyBytesToHex {k : List Nat} (h : ∀ x ∈ k, x < 256) :
    TS (keyBytesToHex k) := by
  refine ⟨keyBytesToHex_ne_nil k, ?_, ?_⟩
  · rw [keyBytesToHex, TERMINAL, List.getLast?_concat]
  · intro x hx
    rw [keyBytesToHex, TERMINAL, List.dropLast_concat] at hx
    rcases List.mem_flatMap.1 hx with ⟨b, hb, hxb⟩
    have hblt := h b hb
    simp only [List.mem_cons, List.mem_singleton, List.not_mem_nil,
      or_false] at hxb
    rcases hxb with h' | h'
    · subst h'
      omega
    · subst h'
      omega

theorem keyBytesToHex_inj {k1 k2 : List Nat}
    (h1 : ∀ x ∈ k1, x < 256) (h2 : ∀ x ∈ k2, x < 256)
    (he : keyBytesToHex k1 = keyBytesToHex k2) : k1 = k2 := by
  rw [keyBytesToHex, keyBytesToHex] at he
  have hf : k1.flatMap (fun b => [b / 16, b % 16])
      = k2.flatMap (fun b => [b / 16, b % 16]) := by
    have := List.append_inj_left he (by
      have e1 := List.length_append (k1.flatMap fun b => [b / 16, b % 16])
        [TERMINAL]
      have e2 := List.length_append (k2.flatMap fun b => [b / 16, b % 16])
        [TERMINAL]
      have := congrArg List.length he
      rw [e1, e2] at this
      simpa using this)
    exact this
  clear he
  induction k1 generalizing k2 with
  | nil =>
    cases k2 with
    | nil => rfl
    | cons b r => simp at hf
  | cons a r1 ihk =>
    cases k2 with
    | nil => simp at hf
    | cons b r2 =>
      simp only [List.flatMap_cons, List.cons_append, List.cons.injEq] at hf
      obtain ⟨e1, e2, e3⟩ := hf
      have ha := h1 a (List.mem_cons_self _ _)
      have hb := h2 b (List.mem_cons_self _ _)
      have hab : a = b := by
        have da := Nat.div_add_mod a 16
        have db := Nat.div_add_mod b 16
        omega
      rw [hab, ihk (fun x hx => h1 x (List.mem_cons_of_mem _ hx))
        (fun x hx => h2 x (List.mem_cons_of_mem _ hx)) e3]

/-- A sequence of `put` operations, as quantified over by the round-trip
property (each step is the source's `try_update`). -/
def Trie.applyPuts (env : TrieEnv) : Trie → List (List Nat × List Nat) →
    Option (Except TrieError Trie)
  | t, [] => some (.ok t)
  | t, (k, v) :: rest => do
    match ← t.tryUpdate env k v with
    | .error e => some (.error e)
    | .ok t2 => Trie.applyPuts env t2 rest

/-- The value recorded for a hexed key by a sequence of puts (later puts
shadow earlier ones). -/
def putsLookup : List (List Nat × List Nat) → List Nat → Option (List Nat)
  | [], _ => none
  | (k, v) :: rest, hkey =>
    match putsLookup rest hkey with
    | some w => some w
    | none => if keyBytesToHex k = hkey then some v else none

theorem putsLookup_eq_none {ops : List (List Nat × List Nat)}
    {hkey : List Nat} (h : ∀ kv ∈ ops, keyBytesToHex kv.1 ≠ hkey) :
    putsLookup ops hkey = none := by
  induction ops with
  | nil => rfl
  | cons kv rest ihp =>
    rw [show kv = (kv.1, kv.2) from rfl, putsLookup,
      ihp fun a ha => h a (List.mem_cons_of_mem _ ha)]
    rw [if_neg (h kv (List.mem_cons_self _ _))]

theorem putsLookup_mem {ops : List (List Nat × List Nat)}
    {k v : List Nat}
    (hdist : (ops.map fun kv => keyBytesToHex kv.1).Pairwise (· ≠ ·))
    (hmem : (k, v) ∈ ops) :
    putsLookup ops (keyBytesToHex k) = some v := by
  induction ops with
  | nil => cases hmem
  | cons kv rest ihp =>
    rw [List.map_cons, List.pairwise_cons] at hdist
    rcases List.mem_cons.1 hmem with h | h
    · have heq : kv = (k, v) := h.symm
      subst heq
      rw [putsLookup, putsLookup_eq_none ?_, if_pos rfl]
      intro a ha
      exact fun he => hdist.1 (keyBytesToHex a.1)
        (List.mem_map.2 ⟨a, ha, rfl⟩) he.symm
    · rw [show kv = (kv.1, kv.2) from rfl, putsLookup, ihp hdist.2 h]

/-- `root_loc` returns a copy of the root handle. -/
theorem rootLocCopy_eq (t : Trie) : t.rootLocCopy = t.rootLoc := by
  rw [Trie.rootLocCopy]
  cases t.rootLoc <;> rfl

/-- `try_get` on a cached representation computes the pure lookup of the
hexed key. -/
theorem tryGet_sim (env : TrieEnv) (t : Trie) (key : List Nat) (pt : PT)
    (S : Set Nat) (hrep : ReprN t.cache t.rootLoc pt S) (hnes : NES pt) :
    t.tryGet env key = getP pt (keyBytesToHex key) := by
  rw [Trie.tryGet]
  have h := getAux_sim env ((keyBytesToHex key).length + 1) t t.rootLoc pt S
    (keyBytesToHex key) 0 hrep hnes (keyBytesToHex_ne_nil key) (by omega)
    (by omega)
  simpa using h

/-- `try_update` with a non-empty value on a represented trie: the stateful
update succeeds and represents the pure insertion given by `insertPI`. -/
theorem tryUpdate_sim (env : TrieEnv) (t : Trie) (pt : PT) (S : Set Nat)
    (k v : List Nat)
    (hrep : ReprN t.cache t.rootLoc pt S)
    (hfree : FreeOK t.cache S)
    (hsub : Sub pt)
    (hk : k ≠ []) (hkb : ∀ x ∈ k, x < 256) (hv : v ≠ []) :
    ∃ t' pt' S', t.tryUpdate env k v = some (.ok t')
      ∧ ReprN t'.cache t'.rootLoc pt' S'
      ∧ FreeOK t'.cache S'
      ∧ Sub pt'
      ∧ getP pt' (keyBytesToHex k) = some (some v)
      ∧ (∀ w, TS w → w ≠ keyBytesToHex k → getP pt' w = getP pt w) := by
  have hts : TS (keyBytesToHex k) := TS_keyBytesToHex hkb
  obtain ⟨pt', hpure, hsub', hget', hframe', _⟩ :=
    insertPI_spec hsub (keyBytesToHex k) v hts
  obtain ⟨hgetv, hframev, hnotinv, hfreev, hlenv, hwherev, hfsubv, hgenv⟩ :=
    cacheInsert_spec t.cache (.updated (.value v)) S (ReprN_bound hrep) hfree
  have hrepv : ReprN (t.cache.insert (.updated (.value v))).1
      (.memory (t.cache.insert (.updated (.value v))).2) (.value v)
      {(t.cache.insert (.updated (.value v))).2} := ReprN.value hgetv
  have hrept : ReprN (t.cache.insert (.updated (.value v))).1 t.rootLoc pt S :=
    ReprN_mono hrep hframev
  have hdisjv : ∀ x ∈ S, x ∉ ({(t.cache.insert (.updated (.value v))).2}
      : Set Nat) := by
    intro x hx hmem
    rw [Set.mem_singleton_iff] at hmem
    exact hnotinv (hmem ▸ hx)
  have hfreeu : FreeOK (t.cache.insert (.updated (.value v))).1
      (S ∪ {(t.cache.insert (.updated (.value v))).2}) := by
    refine FreeOK_anti ?_ hfreev
    intro x hx
    rcases hx with h | h
    · exact Set.mem_insert_of_mem _ h
    · rw [Set.mem_singleton_iff] at h
      exact h ▸ Set.mem_insert _ _
  obtain ⟨loc', c', S', hcomp, hrep', hfree', hlen', hframe2', hcont', hfsub'⟩ :=
    insertInnerAux_sim env ((keyBytesToHex k).length + 2)
      { t with unhashed := t.unhashed + 1,
               cache := (t.cache.insert (.updated (.value v))).1 }
      t.rootLoc [] (keyBytesToHex k)
      (.memory (t.cache.insert (.updated (.value v))).2) (.value v) pt pt' S
      {(t.cache.insert (.updated (.value v))).2}
      hrept hrepv hdisjv hfreeu (Sub_NES hsub) hpure (by omega)
  refine ⟨{ t with unhashed := t.unhashed + 1, cache := c', rootLoc := loc' },
    pt', S', ?_, hrep', hfree', hsub', hget', hframe'⟩
  rw [Trie.tryUpdate]
  simp [hk, hv, Trie.insert, rootLocCopy_eq, hcomp]

/-- Folding a sequence of puts over a represented trie: every step
succeeds, and the final pure tree answers `getP` by the last put for each
key, falling back to the initial tree. -/
theorem applyPuts_sim (env : TrieEnv) :
    ∀ (ops : List (List Nat × List Nat)) (t : Trie) (pt : PT) (S : Set Nat),
    ReprN t.cache t.rootLoc pt S →
    FreeOK t.cache S →
    Sub pt →
    (∀ kv ∈ ops, kv.1 ≠ [] ∧ (∀ x ∈ kv.1, x < 256) ∧ kv.2 ≠ []) →
    ∃ t' pt' S',
      Trie.applyPuts env t ops = some (.ok t') ∧
      ReprN t'.cache t'.rootLoc pt' S' ∧
      FreeOK t'.cache S' ∧
      Sub pt' ∧
      ∀ hkey, TS hkey →
        getP pt' hkey = (match putsLookup ops hkey with
          | some w => some (some w)
          | none => getP pt hkey) := by
  intro ops
  induction ops with
  | nil =>
    intro t pt S h1 h2 h3 _
    exact ⟨t, pt, S, rfl, h1, h2, h3, fun hkey _ => by rw [putsLookup]⟩
  | cons kv rest ihp =>
    intro t pt S hrep hfree hsub hops
    obtain ⟨hkne, hkb, hvne⟩ := hops kv (List.mem_cons_self _ _)
    obtain ⟨t1, pt1, S1, hupd, hrep1, hfree1, hsub1, hget1, hframe1⟩ :=
      tryUpdate_sim env t pt S kv.1 kv.2 hrep hfree hsub hkne hkb hvne
    obtain ⟨t', pt', S', happs, hrep', hfree', hsub', hlook⟩ :=
      ihp t1 pt1 S1 hrep1 hfree1 hsub1
        (fun a ha => hops a (List.mem_cons_of_mem _ ha))
    refine ⟨t', pt', S', ?_, hrep', hfree', hsub', ?_⟩
    · rw [show kv = (kv.1, kv.2) from rfl, Trie.applyPuts]
      simp [hupd, happs]
    · intro hkey hts
      rw [hlook hkey hts, show kv = (kv.1, kv.2) from rfl, putsLookup]
      cases hr : putsLookup rest hkey with
      | some w => rfl
      | none =>
        by_cases hh : keyBytesToHex kv.1 = hkey
        · rw [if_pos hh, ← hh]
          exact hget1
        · rw [if_neg hh]
          exact hframe1 hkey hts (fun he => hh he.symm)

/-- C1 property, proved over the shallow embedding: distinct non-empty
byte keys with non-empty values round-trip through the trie built on an
empty store, and absent byte keys read back as `None`. -/
theorem C1_trie_round_trip (env : TrieEnv)
    (ops : List (List Nat × List Nat))
    (hne : ∀ kv ∈ ops, kv.1 ≠ [] ∧ (∀ x ∈ kv.1, x < 256) ∧ kv.2 ≠ [])
    (hdist : (ops.map fun kv => kv.1).Pairwise (· ≠ ·)) :
    ∃ t', Trie.applyPuts env (Trie.new []) ops = some (.ok t') ∧
      (∀ kv ∈ ops, t'.tryGet env kv.1 = some (some kv.2)) ∧
      (∀ k', k' ∉ ops.map (fun kv => kv.1) → (∀ x ∈ k', x < 256) →
        t'.tryGet env k' = some none) := by
  obtain ⟨t', pt', S', happ, hrep', hfree', hsub', hlook⟩ :=
    applyPuts_sim env ops (Trie.new []) .empty ∅ ReprN.none_
      ⟨List.nodup_nil, by intro i hi; cases hi⟩ Sub.empty hne
  have hdisthex : (ops.map fun kv => keyBytesToHex kv.1).Pairwise (· ≠ ·) := by
    have hd2 : ops.Pairwise (fun a b => a.1 ≠ b.1) := List.pairwise_map.1 hdist
    refine List.pairwise_map.2 (hd2.imp_of_mem ?_)
    intro a b ha hb hab he
    exact hab (keyBytesToHex_inj (hne a ha).2.1 (hne b hb).2.1 he)
  refine ⟨t', happ, ?_, ?_⟩
  · intro kv hmem
    have hts := TS_keyBytesToHex (hne kv hmem).2.1
    rw [tryGet_sim env t' kv.1 pt' S' hrep' (Sub_NES hsub'), hlook _ hts]
    rw [putsLookup_mem hdisthex (show (kv.1, kv.2) ∈ ops from hmem)]
  · intro k' hnotin hk'b
    have hts := TS_keyBytesToHex hk'b
    rw [tryGet_sim env t' k' pt' S' hrep' (Sub_NES hsub'), hlook _ hts]
    rw [putsLookup_eq_none ?_]
    · show getP PT.empty (keyBytesToHex k') = some none
      rw [getP]
    · intro kv hkv he
      exact hnotin (List.mem_map.2
        ⟨kv, hkv, keyBytesToHex_inj (hne kv hkv).2.1 hk'b he⟩)

/-- A concrete environment for witnesses: hashing and deserialization are
never consulted on the verified paths. -/
def zeroEnv : TrieEnv := ⟨fun _ => [], fun _ => .empty⟩

theorem C1_trie_round_trip_witness :
    ∃ t', Trie.applyPuts zeroEnv (Trie.new []) [([1], [2]), ([3, 4], [5])]
        = some (.ok t') ∧
      (∀ kv ∈ [([1], [2]), ([3, 4], [5])],
        t'.tryGet zeroEnv kv.1 = some (some kv.2)) ∧
      (∀ k', k' ∉ ([([1], [2]), ([3, 4], [5])].map fun kv => kv.1) →
        (∀ x ∈ k', x < 256) → t'.tryGet zeroEnv k' = some none) :=
  C1_trie_round_trip zeroEnv [([1], [2]), ([3, 4], [5])]
    (by decide) (by decide)

end MiniBlockchain
